import Mathlib

/-! # AIPPT: provider dispatch, retry policy and truncated-JSON repair

A shallow embedding of the server-side services of the AIPPT repository
(`server/src/services/splitter.js`, `aiProxy.js`, `imageGen.js`) together with
theorems about them.

JavaScript strings are modelled as `List Char`; every index the code computes
is a position in that list.  Numbers that the code only uses as counters and
offsets are `Int` (they can become negative) or `Nat`.
-/

namespace AIPPT

/-! ## JavaScript string primitives -/

/-- JavaScript strings, as sequences of characters. -/
abbrev Str := List Char

/-- The characters removed by `String.prototype.trim` and matched by the
regular-expression class `\s` (ECMAScript WhiteSpace and LineTerminator). -/
def isJsSpace (c : Char) : Bool :=
  c.toNat == 0x09 || c.toNat == 0x0A || c.toNat == 0x0B || c.toNat == 0x0C ||
  c.toNat == 0x0D || c.toNat == 0x20 || c.toNat == 0xA0 || c.toNat == 0x1680 ||
  (0x2000 ≤ c.toNat && c.toNat ≤ 0x200A) || c.toNat == 0x2028 || c.toNat == 0x2029 ||
  c.toNat == 0x202F || c.toNat == 0x205F || c.toNat == 0x3000 || c.toNat == 0xFEFF

/-- `String.prototype.trim`. -/
def trim (s : Str) : Str :=
  (s.dropWhile isJsSpace).rdropWhile isJsSpace

/-- `s.startsWith(p)`. -/
def startsWith (s p : Str) : Bool := p.isPrefixOf s

/-- `s.endsWith(p)`. -/
def endsWith (s p : Str) : Bool := p.isSuffixOf s

/-- `s.indexOf(c)` for a one-character pattern, counting from `i`; `-1` when absent. -/
def indexOfFrom (c : Char) : Nat → Str → Int
  | _, [] => -1
  | i, x :: xs => if x = c then (i : Int) else indexOfFrom c (i + 1) xs

/-- `s.indexOf(c)`. -/
def indexOf (s : Str) (c : Char) : Int := indexOfFrom c 0 s

/-- `s.lastIndexOf(c)` for a one-character pattern, counting from `i`, where
`best` is the last match seen so far. -/
def lastIndexOfFrom (c : Char) : Nat → Int → Str → Int
  | _, best, [] => best
  | i, best, x :: xs => lastIndexOfFrom c (i + 1) (if x = c then (i : Int) else best) xs

/-- `s.lastIndexOf(c)`; `-1` when absent. -/
def lastIndexOf (s : Str) (c : Char) : Int := lastIndexOfFrom c 0 (-1) s

/-- `s.substring(a, b)` for `0 ≤ a ≤ b`. -/
def substring (s : Str) (a b : Nat) : Str := (s.take b).drop a

/-- The UTF-16 code units of a character: one unit below U+10000, a high and a
low surrogate from there on.  A JavaScript string is a sequence of such units,
and `length`, `substring` and the other index operations count them. -/
def utf16Units (c : Char) : List Nat :=
  if c.toNat < 0x10000 then [c.toNat]
  else [0xD800 + (c.toNat - 0x10000) / 0x400, 0xDC00 + (c.toNat - 0x10000) % 0x400]

/-- The UTF-16 code units of a text. -/
def toUtf16 (s : Str) : List Nat := s.flatMap utf16Units

/-- `s.substring(a, b)` as the code units it consists of; the cut may fall
between the two surrogates of a character. -/
def substringUnits (s : Str) (a b : Nat) : List Nat := ((toUtf16 s).take b).drop a

/-- `s.includes(p)`: does `p` occur in `s` at some position? -/
def includes : Str → Str → Bool
  | [], p => p.isPrefixOf []
  | c :: s, p => p.isPrefixOf (c :: s) || includes s p

/-- `str.replace(/,\s*$/, '')`: the regular expression matches at the leftmost
comma that is followed by white space only up to the end of the string, and
the match (which reaches the end) is deleted. -/
def stripTrailingComma : Str → Str
  | [] => []
  | c :: rest => if c = ',' ∧ rest.all isJsSpace then [] else c :: stripTrailingComma rest

/-! ## `repairTruncatedJSON` (splitter.js, lines 99-170) -/

/-- The variables of the scanning loop of `repairTruncatedJSON`. -/
structure ScanState where
  lastCompleteObj : Int
  lastPropertyComma : Int
  braceDepth : Int
  bracketDepth : Int
  inString : Bool
  escapeNext : Bool
  deriving DecidableEq, Repr

/-- The values of the loop variables before the first iteration. -/
def ScanState.init : ScanState :=
  { lastCompleteObj := -1, lastPropertyComma := -1, braceDepth := 0, bracketDepth := 0,
    inString := false, escapeNext := false }

/-- The depth updates and offset recordings of one iteration on a character
outside any string literal (lines 129-142). -/
def scanStructural (i : Nat) (st : ScanState) (ch : Char) : ScanState :=
  let st1 := if ch = '[' then { st with bracketDepth := st.bracketDepth + 1 } else st
  let st2 := if ch = ']' then { st1 with bracketDepth := st1.bracketDepth - 1 } else st1
  let st3 := if ch = '{' then { st2 with braceDepth := st2.braceDepth + 1 } else st2
  let st4 :=
    if ch = '}' then
      if st3.braceDepth - 1 = 0 then
        { st3 with braceDepth := st3.braceDepth - 1, lastCompleteObj := (i : Int) }
      else { st3 with braceDepth := st3.braceDepth - 1 }
    else st3
  if ch = ',' ∧ st4.braceDepth = 1 ∧ st4.bracketDepth = 1 then
    { st4 with lastPropertyComma := (i : Int) }
  else st4

/-- One iteration of the loop, on the character `ch` at offset `i` (lines 110-142). -/
def scanStep (i : Nat) (st : ScanState) (ch : Char) : ScanState :=
  if st.escapeNext then { st with escapeNext := false }
  else if ch = '\\' ∧ st.inString then { st with escapeNext := true }
  else if ch = '"' then { st with inString := !st.inString }
  else if st.inString then st
  else scanStructural i st ch

/-- The loop `for (let i = 0; i < str.length; i++)`, started at offset `i`. -/
def scanLoop : Nat → ScanState → Str → ScanState
  | _, st, [] => st
  | i, st, ch :: rest => scanLoop (i + 1) (scanStep i st ch) rest

/-- Prepend `[` unless the string already starts with it (lines 152-154, 163-165). -/
def ensureLeadingBracket (s : Str) : Str :=
  if startsWith s ['['] then s else '[' :: s

/-- The repair of a truncated JSON array: `repairTruncatedJSON(jsonStr)`. -/
def repairTruncatedJSON (jsonStr : Str) : Str :=
  let str := trim jsonStr
  let st := scanLoop 0 ScanState.init str
  if st.lastCompleteObj > 0 then
    let cut := str.take (st.lastCompleteObj + 1).toNat
    let closed := if endsWith cut [']'] then cut else stripTrailingComma cut ++ [']']
    ensureLeadingBracket closed
  else if st.lastPropertyComma > 0 then
    ensureLeadingBracket (str.take st.lastPropertyComma.toNat ++ ['}', ']'])
  else str

/-! ## `JSON.parse`

`JSON.parse` is a language built-in.  It is modelled after the JSON grammar of
ECMA-404 as a lexer followed by a stack parser, both run one input character at
a time.  The value it returns keeps numbers and strings as the text that
denotes them (the digits of the number, the characters between the quotes,
escape sequences not decoded) and objects as their members in source order:
the JavaScript value `JSON.parse` builds is a function of this tree, so two
texts with equal trees give equal JavaScript values. -/

/-- The result of `JSON.parse`. -/
inductive JSONValue where
  | null
  | bool (b : Bool)
  | num (lexeme : Str)
  | str (body : Str)
  | arr (items : List JSONValue)
  | obj (members : List (Str × JSONValue))

/-- JSON tokens. -/
inductive Token where
  | lbracket | rbracket | lbrace | rbrace | comma | colon
  | str (body : Str)
  | num (lexeme : Str)
  | tru | fls | nul

/-- Where the lexer stands inside a number
`-? (0 | [1-9][0-9]*) (. [0-9]+)? ([eE] [+-]? [0-9]+)?`. -/
inductive NumState where
  | minus | zero | int | dot | frac | exp | expSign | expDigits
  deriving DecidableEq

/-- The lexer state: between tokens, inside a string (plain, just after a
backslash, or inside the four hex digits of `\u`, `k + 1` of them still to
come), inside one of the words `true`, `false`, `null` (with the characters
still expected), or inside a number. -/
inductive LexState where
  | idle
  | str (acc : Str)
  | esc (acc : Str)
  | uni (k : Nat) (acc : Str)
  | lit (rest : Str) (tok : Token)
  | number (ns : NumState) (acc : Str)

/-- JSON white space: space, tab, line feed, carriage return. -/
def isJsonWs (c : Char) : Bool :=
  c == ' ' || c == '\t' || c == '\n' || c == '\r'

/-- A decimal digit. -/
def isDigit (c : Char) : Bool := 0x30 ≤ c.toNat && c.toNat ≤ 0x39

/-- A hexadecimal digit. -/
def isHexDigit (c : Char) : Bool :=
  isDigit c || (0x41 ≤ c.toNat && c.toNat ≤ 0x46) || (0x61 ≤ c.toNat && c.toNat ≤ 0x66)

/-- The character that may follow a backslash in a string, `u` apart. -/
def isSimpleEscape (c : Char) : Bool :=
  c == '"' || c == '\\' || c == '/' || c == 'b' || c == 'f' || c == 'n' || c == 'r' || c == 't'

/-- The lexer between tokens. -/
def lexIdle (c : Char) : Option (LexState × List Token) :=
  if isJsonWs c then some (.idle, [])
  else if c = '[' then some (.idle, [.lbracket])
  else if c = ']' then some (.idle, [.rbracket])
  else if c = '{' then some (.idle, [.lbrace])
  else if c = '}' then some (.idle, [.rbrace])
  else if c = ',' then some (.idle, [.comma])
  else if c = ':' then some (.idle, [.colon])
  else if c = '"' then some (.str [], [])
  else if c = 't' then some (.lit ['r', 'u', 'e'] .tru, [])
  else if c = 'f' then some (.lit ['a', 'l', 's', 'e'] .fls, [])
  else if c = 'n' then some (.lit ['u', 'l', 'l'] .nul, [])
  else if c = '-' then some (.number .minus [c], [])
  else if c = '0' then some (.number .zero [c], [])
  else if isDigit c then some (.number .int [c], [])
  else none

/-- The number read so far is complete and `c` does not continue it: the number
token is emitted and `c` is read as the start of what follows. -/
def lexNumberEnd (acc : Str) (c : Char) : Option (LexState × List Token) :=
  match lexIdle c with
  | some (ls, toks) => some (ls, .num acc :: toks)
  | none => none

/-- The lexer inside a number. -/
def lexNumber (ns : NumState) (acc : Str) (c : Char) : Option (LexState × List Token) :=
  match ns with
  | .minus =>
      if c = '0' then some (.number .zero (acc ++ [c]), [])
      else if isDigit c then some (.number .int (acc ++ [c]), [])
      else none
  | .zero =>
      if c = '.' then some (.number .dot (acc ++ [c]), [])
      else if c = 'e' ∨ c = 'E' then some (.number .exp (acc ++ [c]), [])
      else lexNumberEnd acc c
  | .int =>
      if isDigit c then some (.number .int (acc ++ [c]), [])
      else if c = '.' then some (.number .dot (acc ++ [c]), [])
      else if c = 'e' ∨ c = 'E' then some (.number .exp (acc ++ [c]), [])
      else lexNumberEnd acc c
  | .dot =>
      if isDigit c then some (.number .frac (acc ++ [c]), []) else none
  | .frac =>
      if isDigit c then some (.number .frac (acc ++ [c]), [])
      else if c = 'e' ∨ c = 'E' then some (.number .exp (acc ++ [c]), [])
      else lexNumberEnd acc c
  | .exp =>
      if c = '+' ∨ c = '-' then some (.number .expSign (acc ++ [c]), [])
      else if isDigit c then some (.number .expDigits (acc ++ [c]), [])
      else none
  | .expSign =>
      if isDigit c then some (.number .expDigits (acc ++ [c]), []) else none
  | .expDigits =>
      if isDigit c then some (.number .expDigits (acc ++ [c]), [])
      else lexNumberEnd acc c

/-- One step of the lexer: the next state and the tokens completed by `c`. -/
def lexStep (ls : LexState) (c : Char) : Option (LexState × List Token) :=
  match ls with
  | .idle => lexIdle c
  | .str acc =>
      if c = '"' then some (.idle, [.str acc])
      else if c = '\\' then some (.esc (acc ++ [c]), [])
      else if c.toNat < 0x20 then none
      else some (.str (acc ++ [c]), [])
  | .esc acc =>
      if isSimpleEscape c then some (.str (acc ++ [c]), [])
      else if c = 'u' then some (.uni 3 (acc ++ [c]), [])
      else none
  | .uni k acc =>
      if isHexDigit c then
        match k with
        | 0 => some (.str (acc ++ [c]), [])
        | k + 1 => some (.uni k (acc ++ [c]), [])
      else none
  | .lit rest tok =>
      match rest with
      | [] => none
      | x :: more =>
          if c = x then
            match more with
            | [] => some (.idle, [tok])
            | _ :: _ => some (.lit more tok, [])
          else none
  | .number ns acc => lexNumber ns acc c

/-- The tokens still pending at the end of the input: a number that is complete
as it stands; inside a string, a word or an unfinished number the input is
rejected. -/
def lexFinish : LexState → Option (List Token)
  | .idle => some []
  | .number .zero acc => some [.num acc]
  | .number .int acc => some [.num acc]
  | .number .frac acc => some [.num acc]
  | .number .expDigits acc => some [.num acc]
  | _ => none

/-- An array or an object under construction: the elements read so far, or the
members read so far and the key of the member being read. -/
inductive Frame where
  | arr (items : List JSONValue)
  | obj (members : List (Str × JSONValue)) (key : Str)

/-- What the parser expects next. -/
inductive Mode where
  | value      -- a value
  | arrOpen    -- just after `[`: a value or `]`
  | objOpen    -- just after `{`: a key or `}`
  | objNext    -- after a comma in an object: a key
  | colon      -- after a key: `:`
  | done (v : JSONValue)   -- a value is complete: `,` or the closing bracket

/-- The parser state: what is expected next, and the enclosing arrays and
objects, innermost first. -/
structure PState where
  mode : Mode
  stack : List Frame

/-- A token where a value is expected. -/
def startValue (stk : List Frame) : Token → Option PState
  | .lbracket => some ⟨.arrOpen, .arr [] :: stk⟩
  | .lbrace => some ⟨.objOpen, .obj [] [] :: stk⟩
  | .str b => some ⟨.done (.str b), stk⟩
  | .num l => some ⟨.done (.num l), stk⟩
  | .tru => some ⟨.done (.bool true), stk⟩
  | .fls => some ⟨.done (.bool false), stk⟩
  | .nul => some ⟨.done .null, stk⟩
  | _ => none

/-- A token where a key is expected. -/
def readKey (stk : List Frame) : Token → Option PState
  | .str k =>
      match stk with
      | .obj ms _ :: rest => some ⟨.colon, .obj ms k :: rest⟩
      | _ => none
  | _ => none

/-- A token after the complete value `v`. -/
def afterValue (v : JSONValue) : List Frame → Token → Option PState
  | .arr items :: rest, .comma => some ⟨.value, .arr (items ++ [v]) :: rest⟩
  | .arr items :: rest, .rbracket => some ⟨.done (.arr (items ++ [v])), rest⟩
  | .obj ms k :: rest, .comma => some ⟨.objNext, .obj (ms ++ [(k, v)]) [] :: rest⟩
  | .obj ms k :: rest, .rbrace => some ⟨.done (.obj (ms ++ [(k, v)])), rest⟩
  | _, _ => none

/-- One step of the parser, on one token. -/
def pstep (ps : PState) (t : Token) : Option PState :=
  match ps.mode with
  | .value => startValue ps.stack t
  | .arrOpen =>
      match t, ps.stack with
      | .rbracket, .arr _ :: rest => some ⟨.done (.arr []), rest⟩
      | _, _ => startValue ps.stack t
  | .objOpen =>
      match t, ps.stack with
      | .rbrace, .obj _ _ :: rest => some ⟨.done (.obj []), rest⟩
      | _, _ => readKey ps.stack t
  | .objNext => readKey ps.stack t
  | .colon =>
      match t with
      | .colon => some ⟨.value, ps.stack⟩
      | _ => none
  | .done v => afterValue v ps.stack t

/-- The parser run over a list of tokens. -/
def feed : PState → List Token → Option PState
  | ps, [] => some ps
  | ps, t :: ts =>
      match pstep ps t with
      | some ps1 => feed ps1 ts
      | none => none

/-- Lexer and parser together. -/
structure JState where
  lex : LexState
  par : PState

/-- The state before the first character. -/
def JState.init : JState := ⟨.idle, ⟨.value, []⟩⟩

/-- One input character: the lexer reads it and the parser takes the tokens it
completes. -/
def jstep (st : JState) (c : Char) : Option JState :=
  match lexStep st.lex c with
  | some (ls, toks) =>
      match feed st.par toks with
      | some ps => some ⟨ls, ps⟩
      | none => none
  | none => none

/-- The characters of `s` read one after the other. -/
def jrun : JState → Str → Option JState
  | st, [] => some st
  | st, c :: cs =>
      match jstep st c with
      | some st1 => jrun st1 cs
      | none => none

/-- The end of the input: pending tokens are taken, and the text is accepted
when exactly one value is complete and nothing is left open. -/
def jfinish (st : JState) : Option JSONValue :=
  match lexFinish st.lex with
  | some toks =>
      match feed st.par toks with
      | some ⟨.done v, []⟩ => some v
      | _ => none
  | none => none

/-- The model of `JSON.parse(s)`: `none` stands for the `SyntaxError` it throws. -/
def parseJSON (s : Str) : Option JSONValue :=
  match jrun JState.init s with
  | some st => jfinish st
  | none => none

/-! ## The response pipeline of `splitContent` (splitter.js, lines 50-84) -/

/-- The three backticks of a Markdown code fence. -/
def fence : Str := [Char.ofNat 0x60, Char.ofNat 0x60, Char.ofNat 0x60]

/-- The lazy group `([\s\S]*?)` followed by the closing fence: the shortest
prefix after which the fence stands. -/
def lazyUntilFence : Str → Option Str
  | [] => none
  | c :: rest =>
      if fence.isPrefixOf (c :: rest) then some []
      else
        match lazyUntilFence rest with
        | some cap => some (c :: cap)
        | none => none

/-- The greedy `\s*` followed by the group and the closing fence, with
backtracking: the longest run of white space is tried first. -/
def spacesThenGroup : Str → Option Str
  | [] => lazyUntilFence []
  | c :: rest =>
      if isJsSpace c then
        match spacesThenGroup rest with
        | some cap => some cap
        | none => lazyUntilFence (c :: rest)
      else lazyUntilFence (c :: rest)

/-- An attempt to match the fence expression with its first character at the
head of `s`: the opening fence, the optional tag (tried first with the tag,
then without), white space, the group, the closing fence.  The result is the
text of the group. -/
def fenceAt (tag : Str) (s : Str) : Option Str :=
  if fence.isPrefixOf s then
    let r := s.drop 3
    if tag.isPrefixOf r then
      match spacesThenGroup (r.drop tag.length) with
      | some cap => some cap
      | none => spacesThenGroup r
    else spacesThenGroup r
  else none

/-- The first group of `s.match(/` + fence + `(?:tag)?\s*([\s\S]*?)` + fence + `/)`:
the leftmost position at which the expression matches wins. -/
def fenceMatch (tag : Str) : Str → Option Str
  | [] => none
  | c :: rest =>
      match fenceAt tag (c :: rest) with
      | some cap => some cap
      | none => fenceMatch tag rest

/-- Steps 1 and 2 of the pipeline: the trimmed response, unwrapped from a code
fence when the fence expression matches, then sliced from the first `[` to the
last `]`, or from the first `[` to the end when no `]` follows it
(lines 50-67). -/
def sliceResponse (result : Str) : Str :=
  let trimmed := trim result
  let jsonStr :=
    match fenceMatch ['j', 's', 'o', 'n'] trimmed with
    | some cap => trim cap
    | none => trimmed
  let startIndex := indexOf jsonStr '['
  let endIndex := lastIndexOf jsonStr ']'
  if startIndex ≠ -1 ∧ endIndex ≠ -1 ∧ endIndex > startIndex then
    substring jsonStr startIndex.toNat (endIndex + 1).toNat
  else if startIndex ≠ -1 then
    jsonStr.drop startIndex.toNat
  else jsonStr

/-- How the parsing part of `splitContent` ends: the value of the direct parse,
the value parsed from the repaired text, or the error
`Failed to parse AI response as JSON` carrying `jsonStr.substring(0, 500)`: the
first 500 UTF-16 code units of the sliced text. -/
inductive SplitOutcome where
  | direct (v : JSONValue)
  | repaired (v : JSONValue)
  | parseError (excerpt : List Nat)

/-- The parsing part of `splitContent` on the text `result` returned by the text
model (lines 50-84).  Inside the second `try`, `parsed.length` is read for the
log line, which throws when the parsed value is `null`. -/
def splitContentParse (result : Str) : SplitOutcome :=
  let jsonStr := sliceResponse result
  match parseJSON jsonStr with
  | some v => .direct v
  | none =>
      match parseJSON (repairTruncatedJSON jsonStr) with
      | some .null => .parseError (substringUnits jsonStr 0 500)
      | some v => .repaired v
      | none => .parseError (substringUnits jsonStr 0 500)

/-! ## Provider detection and the retry policy (aiProxy.js) -/

/-- `s.toLowerCase()`.  Only the letters `A`-`Z` are mapped; the characters
outside ASCII that JavaScript also maps never become one of the letters of
`claude`, the only pattern the code searches a lower-cased string for. -/
def toLowerCase (s : Str) : Str := s.map Char.toLower

/-- `isAnthropicProxy(baseUrl, model)` (lines 21-27); an absent model is the
empty string, which is falsy as well. -/
def isAnthropicProxy (baseUrl model : Str) : Bool :=
  if model ≠ [] ∧ includes (toLowerCase model) "claude".toList = true then true
  else if includes baseUrl "anthropic.com".toList then true
  else if includes baseUrl "claude".toList then true
  else false

/-- The two request formats `callTextModel` chooses between. -/
inductive TextProvider where
  | anthropic | openAICompatible
  deriving DecidableEq, Repr

/-- The branch taken by the function `callTextModel` passes to `withRetry`
(lines 146-151). -/
def callTextModelPath (baseUrl model : Str) : TextProvider :=
  if isAnthropicProxy baseUrl model then .anthropic else .openAICompatible

/-- `isDashScope(baseUrl)` (lines 158-160). -/
def isDashScope (baseUrl : Str) : Bool := includes baseUrl "dashscope.aliyuncs.com".toList

/-- `isModelScope(baseUrl)` (lines 162-164). -/
def isModelScope (baseUrl : Str) : Bool := includes baseUrl "modelscope.cn".toList

/-- The three request formats `callImageModel` chooses between. -/
inductive ImageProvider where
  | dashScope | modelScope | openAICompatible
  deriving DecidableEq, Repr

/-- The branch taken by `callImageModel` (lines 380-388). -/
def callImageModelPath (baseUrl : Str) : ImageProvider :=
  if isDashScope baseUrl then .dashScope
  else if isModelScope baseUrl then .modelScope
  else .openAICompatible

/-- What a run of `withRetry` leaves behind: the value returned or the error
thrown (`none` is `undefined`, thrown when the loop body never ran), the state
of the outside world, the number of times `fn` was invoked and the delays
passed to `setTimeout`, in order. -/
structure RetryRun (ε α σ : Type) where
  outcome : Except (Option ε) α
  world : σ
  invocations : Nat
  waits : List Nat

/-- The loop of `withRetry` (lines 128-138) with `n` iterations left, at loop
counter `i`.  `fn` acts on the outside world `σ`. -/
def withRetryLoop {ε α σ : Type} (fn : σ → Except ε α × σ) (retries delay : Nat) :
    Nat → Nat → Option ε → σ → Nat → List Nat → RetryRun ε α σ
  | 0, _, lastError, w, calls, waits => ⟨.error lastError, w, calls, waits⟩
  | n + 1, i, _, w, calls, waits =>
      match fn w with
      | (.ok v, w1) => ⟨.ok v, w1, calls + 1, waits⟩
      | (.error e, w1) =>
          withRetryLoop fn retries delay n (i + 1) (some e) w1 (calls + 1)
            (if (i : Int) < (retries : Int) - 1 then waits ++ [delay * (i + 1)] else waits)

/-- `withRetry(fn, retries, delay)` (lines 126-140). -/
def withRetry {ε α σ : Type} (fn : σ → Except ε α × σ) (retries delay : Nat) (w : σ) :
    RetryRun ε α σ :=
  withRetryLoop fn retries delay retries 0 none w 0 []

/-- The retry policy of `callTextModel`: `withRetry(fn)` with the default
`retries = 3` and `delay = 1000` (line 146). -/
def callTextModelRetry {ε α σ : Type} (fn : σ → Except ε α × σ) (w : σ) : RetryRun ε α σ :=
  withRetry fn 3 1000 w

/-- The outside world after `j` invocations of `fn`. -/
def worldAfter {ε α σ : Type} (fn : σ → Except ε α × σ) (w : σ) : Nat → σ
  | 0 => w
  | j + 1 => (fn (worldAfter fn w j)).2

/-- The result of invocation number `j + 1` of `fn`, the earlier ones having
taken place. -/
def attempt {ε α σ : Type} (fn : σ → Except ε α × σ) (w : σ) (j : Nat) : Except ε α :=
  (fn (worldAfter fn w j)).1

/-- A provider stub for the retry policy: it counts its invocations, fails on
the first `failures` of them and answers `42` afterwards. -/
def flakyStub (failures : Nat) (calls : Nat) : Except String Nat × Nat :=
  (if calls < failures then .error "unavailable" else .ok 42, calls + 1)

/-! ## Property lookup in object literals -/

/-- The property names an object literal inherits from `Object.prototype`:
`table[key]` finds them when `key` is not an own property of `table`. -/
def objectPrototypeKeys : List Str :=
  ["constructor".toList, "__proto__".toList, "hasOwnProperty".toList,
   "isPrototypeOf".toList, "propertyIsEnumerable".toList, "toLocaleString".toList,
   "toString".toList, "valueOf".toList, "__defineGetter__".toList,
   "__defineSetter__".toList, "__lookupGetter__".toList, "__lookupSetter__".toList]

/-- The value of `table[key]` for an object literal `table`: an own property,
a member of `Object.prototype` (a function, or the prototype object itself for
`__proto__`; all of them truthy), or `undefined`. -/
inductive Lookup (α : Type) where
  | own (v : α)
  | inherited (name : Str)
  | undefined

/-- `table[key]`, where `table` lists the own properties of an object literal. -/
def lookupProperty {α : Type} (table : List (Str × α)) (key : Str) : Lookup α :=
  match table.lookup key with
  | some v => .own v
  | none => if key ∈ objectPrototypeKeys then .inherited key else .undefined

/-! ## `getDimensions` (imageGen.js, lines 11-21) -/

/-- The object `getDimensions` returns, as far as its callers read it:
`dims.width` and `dims.height`, `none` standing for `undefined`. -/
structure Dimensions where
  width : Option Nat
  height : Option Nat
  deriving DecidableEq, Repr

/-- `RATIO_DIMENSIONS`. -/
def RATIO_DIMENSIONS : List (Str × Dimensions) :=
  [("16:9".toList, ⟨some 1280, some 720⟩), ("4:3".toList, ⟨some 1024, some 768⟩),
   ("1:1".toList, ⟨some 1024, some 1024⟩), ("3:4".toList, ⟨some 768, some 1024⟩),
   ("9:16".toList, ⟨some 720, some 1280⟩)]

/-- `getDimensions(ratio)`, that is `RATIO_DIMENSIONS[ratio] || RATIO_DIMENSIONS['16:9']`.
An absent ratio is looked up under the key `undefined`.  A member of
`Object.prototype` is truthy and has neither `width` nor `height`. -/
def getDimensions (ratio : Option Str) : Dimensions :=
  match lookupProperty RATIO_DIMENSIONS (ratio.getD "undefined".toList) with
  | .own d => d
  | .inherited _ => ⟨none, none⟩
  | .undefined => ⟨some 1280, some 720⟩

/-! ## The ModelScope size (aiProxy.js, lines 174-192) -/

/-- `resolutionMap` of `callModelScopeImage`. -/
def resolutionMap : List (Str × Str) :=
  [("16:9".toList, "1664*928".toList), ("4:3".toList, "1472*1104".toList),
   ("1:1".toList, "1328*1328".toList), ("3:4".toList, "1104*1472".toList),
   ("9:16".toList, "928*1664".toList)]

/-- The value of `mappedSize`: a string, or a member of `Object.prototype`
(which `JSON.stringify` does not write as a string into the request body). -/
inductive MappedSize where
  | text (s : Str)
  | inherited (name : Str)
  deriving DecidableEq, Repr

/-- `resolutionMap[size] || (size.includes('*') ? size : '1664*928')`
(line 184); the own properties of `resolutionMap` are non-empty strings. -/
def modelScopeMappedSize (size : Str) : MappedSize :=
  match lookupProperty resolutionMap size with
  | .own s => .text s
  | .inherited name => .inherited name
  | .undefined => if includes size ['*'] then .text size else .text "1664*928".toList

/-- The size `callModelScopeImage` works with when the caller passes `size`
(`none`: the parameter default `'1024x768'` applies). -/
def callModelScopeImageSize (size : Option Str) : MappedSize :=
  modelScopeMappedSize (size.getD "1024x768".toList)

/-! ## Image results and the DashScope response (aiProxy.js, lines 294-346) -/

/-- JavaScript truthiness of an optional string: present and not empty. -/
def truthy (s : Option Str) : Bool :=
  match s with
  | some (_ :: _) => true
  | _ => false

/-- `x || undefined` for an optional string. -/
def orUndefined (s : Option Str) : Option Str := if truthy s then s else none

/-- An element of the list an image path returns: `{ url, b64_json }`,
`none` standing for an absent or `undefined` field. -/
structure ImageResult where
  url : Option Str
  b64_json : Option Str
  deriving DecidableEq, Repr

/-- An element of `output.results` in a DashScope response. -/
structure DashScopeResult where
  url : Option Str
  b64_image : Option Str
  deriving DecidableEq, Repr

/-- An element of `output.choices`: its `message.content` when that is a list
(`none` otherwise), each item reduced to its `image` field. -/
structure DashScopeChoice where
  content : Option (List (Option Str))

/-- The `output` of a DashScope response, as far as the code reads it.  A
field is `none` when it is absent; a list that is present is truthy even when
it is empty. -/
structure DashScopeOutput where
  choices : Option (List DashScopeChoice)
  results : Option (List DashScopeResult)
  task_id : Option Str
  task_status : Option Str
  message : Option Str

/-- `data.output.results.map(r => ({ url: r.url || undefined, b64_json: r.b64_image || undefined }))`. -/
def mapResults (rs : List DashScopeResult) : List ImageResult :=
  rs.map fun r => ⟨orUndefined r.url, orUndefined r.b64_image⟩

/-- What `callDashScopeImage` does with a successful response. -/
inductive DashScopeAction where
  | result (images : List ImageResult)
  | poll (taskId : Str)
  | formatError
  deriving DecidableEq, Repr

/-- The loop `for (const item of content) if (item.image) return [{ url: item.image }]`. -/
def firstImage : List (Option Str) → Option Str
  | [] => none
  | item :: rest => if truthy item then item else firstImage rest

/-- The inline format (lines 297-306): the first item with an image in the
content of the first choice. -/
def inlineImage (out : DashScopeOutput) : Option Str :=
  match out.choices with
  | some (c :: _) =>
      match c.content with
      | some items => firstImage items
      | none => none
  | _ => none

/-- The interpretation of a successful DashScope response (lines 294-323);
`none` is a response without `output`. -/
def interpretDashScope (output : Option DashScopeOutput) : DashScopeAction :=
  match output with
  | none => .formatError
  | some out =>
      match inlineImage out with
      | some img => .result [⟨some img, none⟩]
      | none =>
          match out.results with
          | some rs => .result (mapResults rs)
          | none =>
              match out.task_id with
              | some (c :: cs) => .poll (c :: cs)
              | _ => .formatError

/-! ## The polling loops (aiProxy.js, lines 221-255 and 325-346) -/

/-- The answer to one status request of `pollDashScopeTask`: a non-success HTTP
status, or a body with its `output`. -/
inductive DashScopePoll where
  | httpError
  | body (output : Option DashScopeOutput)

/-- How a polling loop ended, with the number of status requests it issued and
the delays it slept, in order. -/
structure PollRun where
  outcome : Except String (List ImageResult)
  polls : Nat
  sleeps : List Nat

/-- `status === c` for an optional string. -/
def statusIs (status : Option Str) (c : String) : Bool := status == some c.toList

/-- The loop of `pollDashScopeTask` with `n` iterations left; `answers j` is the
answer to status request `j + 1`. -/
def pollDashScopeLoop (answers : Nat → DashScopePoll) : Nat → Nat → List Nat → PollRun
  | 0, polls, sleeps => ⟨.error "DashScope 任务超时", polls, sleeps⟩
  | n + 1, polls, sleeps =>
      match answers polls with
      | .httpError => pollDashScopeLoop answers n (polls + 1) (sleeps ++ [3000])
      | .body output =>
          let status := output.bind fun o => o.task_status
          let results := output.bind fun o => o.results
          match statusIs status "SUCCEEDED", results with
          | true, some rs => ⟨.ok (mapResults rs), polls + 1, sleeps ++ [3000]⟩
          | _, _ =>
              if statusIs status "FAILED" then
                ⟨.error ("DashScope 任务失败: " ++
                    (if truthy (output.bind fun o => o.message)
                      then String.mk ((output.bind fun o => o.message).getD []) else "未知")),
                  polls + 1, sleeps ++ [3000]⟩
              else pollDashScopeLoop answers n (polls + 1) (sleeps ++ [3000])

/-- `pollDashScopeTask(apiKey, taskId)`: at most 60 iterations. -/
def pollDashScopeTask (answers : Nat → DashScopePoll) : PollRun :=
  pollDashScopeLoop answers 60 0 []

/-- The answer to one status request of `pollModelScopeTask`. -/
inductive ModelScopePoll where
  | httpError
  | body (task_status : Option Str) (output_images : Option (List Str)) (message : Option Str)

/-- The loop of `pollModelScopeTask` with `n` iterations left. -/
def pollModelScopeLoop (answers : Nat → ModelScopePoll) : Nat → Nat → List Nat → PollRun
  | 0, polls, sleeps => ⟨.error "ModelScope 任务超时", polls, sleeps⟩
  | n + 1, polls, sleeps =>
      match answers polls with
      | .httpError => pollModelScopeLoop answers n (polls + 1) (sleeps ++ [3000])
      | .body status images message =>
          if statusIs status "SUCCEED" then
            match images with
            | some (first :: _) => ⟨.ok [⟨some first, none⟩], polls + 1, sleeps ++ [3000]⟩
            | _ => ⟨.error "ModelScope 任务成功但未返回图片 URL", polls + 1, sleeps ++ [3000]⟩
          else if statusIs status "FAILED" then
            ⟨.error ("ModelScope 任务失败: " ++
                (if truthy message then String.mk (message.getD []) else "未知原因")),
              polls + 1, sleeps ++ [3000]⟩
          else pollModelScopeLoop answers n (polls + 1) (sleeps ++ [3000])

/-- `pollModelScopeTask(baseUrl, apiKey, taskId)`: at most 40 iterations. -/
def pollModelScopeTask (answers : Nat → ModelScopePoll) : PollRun :=
  pollModelScopeLoop answers 40 0 []

/-- `callDashScopeImage` on a successful submit response `output`, `answers`
being the answers to the status requests that follow (lines 294-323). -/
def callDashScopeImageOk (output : Option DashScopeOutput) (answers : Nat → DashScopePoll) :
    PollRun :=
  match interpretDashScope output with
  | .result images => ⟨.ok images, 0, []⟩
  | .poll _ => pollDashScopeTask answers
  | .formatError => ⟨.error "无法解析 DashScope 响应格式", 0, []⟩

/-- The response carries an inline image: the content of its first choice is a
list with an item whose `image` is truthy. -/
def HasInlineImage (out : DashScopeOutput) : Prop :=
  ∃ c cs items, out.choices = some (c :: cs) ∧ c.content = some items ∧
    ∃ item ∈ items, truthy item = true

/-- A status request of `pollDashScopeTask` that reports no terminal status: a
non-success HTTP status, or a status that is neither `SUCCEEDED` nor `FAILED`. -/
def DashScopePoll.nonTerminal : DashScopePoll → Bool
  | .httpError => true
  | .body output =>
      !statusIs (output.bind fun o => o.task_status) "SUCCEEDED" &&
      !statusIs (output.bind fun o => o.task_status) "FAILED"

/-- A status request of `pollModelScopeTask` that reports no terminal status. -/
def ModelScopePoll.nonTerminal : ModelScopePoll → Bool
  | .httpError => true
  | .body status _ _ => !statusIs status "SUCCEED" && !statusIs status "FAILED"

/-- The text `data.output?.message || '未知'` or `data.message || '未知原因'`. -/
def messageOr (message : Option Str) (dflt : String) : String :=
  if truthy message then String.mk (message.getD []) else dflt

/-! ## The text paths (aiProxy.js, lines 32-118) -/

/-- `baseUrl.replace(/\/+$/, '')`: the expression matches the run of slashes
that reaches the end of the string, at its leftmost slash, and deletes it. -/
def stripTrailingSlashes (s : Str) : Str := s.rdropWhile (· == '/')

/-- A chat message `{ role, content }`. -/
structure ChatMessage where
  role : Str
  content : Str
  deriving DecidableEq, Repr

/-- The loop of lines 38-46: `system` and `filteredMessages` after the
messages `msgs`, from their values so far. -/
def splitSystem : List ChatMessage → Str → List ChatMessage → Str × List ChatMessage
  | [], system, filtered => (system, filtered)
  | msg :: rest, system, filtered =>
      if msg.role = "system".toList then
        splitSystem rest (system ++ (if system ≠ [] then ['\n'] else []) ++ msg.content) filtered
      else splitSystem rest system (filtered ++ [⟨msg.role, msg.content⟩])

/-- The request body of `callAnthropicTextModel` (lines 48-56), `system` being
absent when the collected text is empty. -/
structure AnthropicBody where
  model : Str
  max_tokens : Nat
  messages : List ChatMessage
  system : Option Str
  deriving DecidableEq, Repr

/-- The body built by `callAnthropicTextModel`; the temperature, which is
passed on unchanged, is left out. -/
def anthropicBody (model : Str) (maxTokens : Nat) (messages : List ChatMessage) :
    AnthropicBody :=
  let r := splitSystem messages [] []
  { model := model, max_tokens := maxTokens, messages := r.2,
    system := if r.1 ≠ [] then some r.1 else none }

/-- A segment of the `content` list of an Anthropic response; a segment without
`text` is joined as the empty string. -/
structure AnthropicSegment where
  type : Str
  text : Option Str
  deriving DecidableEq, Repr

/-- The `content` of an Anthropic response: absent, a list of segments, or a
string. -/
inductive AnthropicContent where
  | absent
  | list (segments : List AnthropicSegment)
  | text (s : Str)

/-- The text `callAnthropicTextModel` returns on a successful response
(lines 76-83). -/
def anthropicText : AnthropicContent → Str
  | .absent => []
  | .list segments =>
      ((segments.filter fun c => c.type = "text".toList).map fun c => c.text.getD []).flatten
  | .text s => s

/-- The provider request paths. -/
inductive RequestPath where
  | anthropicText | openAIText | dashScopeImage | modelScopeImage | openAIImage
  deriving DecidableEq, Repr

/-- The URL each path requests (lines 33-34, 90-91, 170-171, 261, 353-354). -/
def requestUrl (path : RequestPath) (baseUrl : Str) : Str :=
  match path with
  | .anthropicText => stripTrailingSlashes baseUrl ++ "/v1/messages".toList
  | .openAIText => stripTrailingSlashes baseUrl ++ "/chat/completions".toList
  | .dashScopeImage => stripTrailingSlashes baseUrl
  | .modelScopeImage => stripTrailingSlashes baseUrl ++ "/v1/images/generations".toList
  | .openAIImage => stripTrailingSlashes baseUrl ++ "/images/generations".toList

/-- The words each path starts its error message with. -/
def errorLabel : RequestPath → Str
  | .anthropicText => "文本模型 API 错误".toList
  | .openAIText => "文本模型 API 错误".toList
  | .dashScopeImage => "DashScope 图片 API 错误".toList
  | .modelScopeImage => "ModelScope 图片 API 错误".toList
  | .openAIImage => "图片模型 API 错误".toList

/-- The message of the error a path throws on a non-success HTTP status
`status` with response text `errText` (lines 68-72, 110-114, 204-208, 282-286,
367-371). -/
def httpErrorMessage (path : RequestPath) (baseUrl : Str) (status : Nat) (errText : Str) : Str :=
  errorLabel path ++ " (".toList ++ Nat.toDigits 10 status ++ "): ".toList ++ errText ++
    "\n请求地址: ".toList ++ requestUrl path baseUrl

/-- `parts.join(sep)` for a list of strings. -/
def jsJoin (sep : Str) : List Str → Str
  | [] => []
  | [s] => s
  | s :: t :: rest => s ++ sep ++ jsJoin sep (t :: rest)

/-- The contents of the messages with role `system`, in order. -/
def systemContents (messages : List ChatMessage) : List Str :=
  (messages.filter fun m => m.role = "system".toList).map fun m => m.content

/-! ## `generatePageImage` (imageGen.js, lines 29-89 and 135-188) -/

/-- A model endpoint `{ apiKey, baseUrl, model }`, each field possibly absent. -/
structure ModelConfig where
  apiKey : Option Str
  baseUrl : Option Str
  model : Option Str
  deriving DecidableEq, Repr

/-- The `method` of an artifact. -/
inductive Method where
  | image_model | html_generation
  deriving DecidableEq, Repr

/-- The object `generatePageImage` returns. -/
structure Artifact where
  imageUrl : Str
  htmlContent : Option Str
  method : Method
  deriving DecidableEq, Repr

/-- The arguments of `generatePageImage` that decide where it goes and what it
returns; the page data, template and style only enter the prompts. -/
structure PageRequest where
  pageIndex : Int
  sessionId : Str
  ratio : Option Str
  imageModelConfig : ModelConfig
  textModelConfig : ModelConfig
  deriving DecidableEq, Repr

/-- What `generatePageImage` passes to `callImageModel` besides the prompt:
the configuration and `size`. -/
structure ImageCall where
  config : ModelConfig
  size : Str
  deriving DecidableEq, Repr

/-- What `generateHTMLSlide` passes to `callTextModel`: the configuration, and
the pixel size and ratio text its system prompt states (line 149). -/
structure HtmlCall where
  config : ModelConfig
  dims : Dimensions
  ratioText : Str
  deriving DecidableEq, Repr

/-- How the download `fetch(images[0].url)` ends: it throws, it answers with a
non-success status, or it delivers the image. -/
inductive FetchOutcome where
  | throws | notOk | ok
  deriving DecidableEq, Repr

/-- The collaborators of `generatePageImage`: the image gateway (`none` is a
result that is `undefined`), the download, the text gateway, and
`writeFileSync` (`true`: the file was written). -/
structure World where
  callImageModel : ImageCall → Except String (Option (List ImageResult))
  fetchImage : Str → FetchOutcome
  callTextModel : HtmlCall → Except String Str
  writeFileSync : Str → Bool

/-- `String(n)` for an integer. -/
def intToStr (n : Int) : Str :=
  match n with
  | Int.ofNat k => Nat.toDigits 10 k
  | Int.negSucc k => '-' :: Nat.toDigits 10 (k + 1)

/-- The file name `page_${sessionId}_${pageIndex}` with its extension. -/
def artifactFilename (req : PageRequest) (ext : String) : Str :=
  "page_".toList ++ req.sessionId ++ "_".toList ++ intToStr req.pageIndex ++ ext.toList

/-- `ratio || '16:9'`. -/
def ratioOrDefault (ratio : Option Str) : Str :=
  if truthy ratio then ratio.getD [] else "16:9".toList

/-- The call `generatePageImage` makes to the image gateway (lines 47-51). -/
def imageCallOf (req : PageRequest) : ImageCall :=
  ⟨req.imageModelConfig, ratioOrDefault req.ratio⟩

/-- The call `generateHTMLSlide` makes to the text gateway (lines 136, 149, 170-178). -/
def htmlCallOf (req : PageRequest) : HtmlCall :=
  ⟨req.textModelConfig, getDimensions req.ratio, ratioOrDefault req.ratio⟩

/-- The HTML taken from the answer of the text model (lines 181-187): the
trimmed answer, or the trimmed content of its first code fence. -/
def extractHtml (result : Str) : Str :=
  match fenceMatch ['h', 't', 'm', 'l'] (trim result) with
  | some cap => trim cap
  | none => trim result

/-- The fallback of `generatePageImage` (lines 83-88): the HTML slide. -/
def htmlFallback (W : World) (req : PageRequest) : Except String Artifact :=
  match W.callTextModel (htmlCallOf req) with
  | .error e => .error e
  | .ok result =>
      if W.writeFileSync (artifactFilename req ".html") then
        .ok ⟨"/generated/".toList ++ artifactFilename req ".html", some (extractHtml result),
          .html_generation⟩
      else .error "writeFileSync failed"

/-- `generatePageImage` (lines 45-88). -/
def generatePageImage (W : World) (req : PageRequest) : Except String Artifact :=
  if truthy req.imageModelConfig.apiKey && truthy req.imageModelConfig.baseUrl then
    match W.callImageModel (imageCallOf req) with
    | .error _ => htmlFallback W req
    | .ok (some (first :: _)) =>
        if truthy first.b64_json then
          if W.writeFileSync (artifactFilename req ".png") then
            .ok ⟨"/generated/".toList ++ artifactFilename req ".png", none, .image_model⟩
          else htmlFallback W req
        else if truthy first.url then
          match W.fetchImage (first.url.getD []) with
          | .ok =>
              if W.writeFileSync (artifactFilename req ".png") then
                .ok ⟨"/generated/".toList ++ artifactFilename req ".png", none, .image_model⟩
              else .ok ⟨first.url.getD [], none, .image_model⟩
          | _ => .ok ⟨first.url.getD [], none, .image_model⟩
        else htmlFallback W req
    | .ok _ => htmlFallback W req
  else htmlFallback W req

/-! ## The page handlers (routes/ai.js, lines 44-137) -/

/-- The fields of the request body the two page handlers read. -/
structure PageBody where
  pageIndex : Int
  sessionId : Option Str
  ratio : Option Str
  imageModelConfig : Option ModelConfig
  textModelConfig : Option ModelConfig
  deriving DecidableEq, Repr

/-- `config || {}`. -/
def configOrEmpty (c : Option ModelConfig) : ModelConfig := c.getD ⟨none, none, none⟩

/-- `sessionId || Date.now().toString()`. -/
def sessionOrNow (s : Option Str) (now : Str) : Str := if truthy s then s.getD [] else now

/-- The arguments the `generate-page` handler passes to `generatePageImage`
(lines 46-56 and 72-82): `ratio` is not among the fields it reads from the body. -/
def generatePageArgs (body : PageBody) (now : Str) : PageRequest :=
  { pageIndex := body.pageIndex, sessionId := sessionOrNow body.sessionId now, ratio := none,
    imageModelConfig := configOrEmpty body.imageModelConfig,
    textModelConfig := configOrEmpty body.textModelConfig }

/-- The arguments the `regenerate-page` handler passes to `generatePageImage`
(lines 97-130). -/
def regeneratePageArgs (body : PageBody) (now : Str) : PageRequest :=
  { pageIndex := body.pageIndex, sessionId := sessionOrNow body.sessionId now,
    ratio := body.ratio,
    imageModelConfig := configOrEmpty body.imageModelConfig,
    textModelConfig := configOrEmpty body.textModelConfig }

/-- A world in which the image gateway fails on every call, the text model
answers with a fenced HTML document and files can be written. -/
def failingImageWorld : World :=
  { callImageModel := fun _ => .error "image provider down",
    fetchImage := fun _ => .throws,
    callTextModel := fun _ => .ok (fence ++ "html\n<html>slide</html>\n".toList ++ fence),
    writeFileSync := fun _ => true }

/-- A request with both models configured, session `s1`, page 2, ratio 4:3. -/
def sampleRequest : PageRequest :=
  { pageIndex := 2, sessionId := "s1".toList, ratio := some "4:3".toList,
    imageModelConfig := ⟨some "k".toList, some "https://img.example".toList, some "m".toList⟩,
    textModelConfig := ⟨some "k".toList, some "https://txt.example".toList, some "t".toList⟩ }

/-- A world in which the image gateway returns a remote URL that cannot be
downloaded. -/
def remoteUrlWorld : World :=
  { callImageModel := fun _ => .ok (some [⟨some "http://x/y.png".toList, none⟩]),
    fetchImage := fun _ => .notOk,
    callTextModel := fun _ => .error "unused",
    writeFileSync := fun _ => true }

/-- A request body with ratio 4:3 and a configured image model. -/
def sampleBody : PageBody :=
  { pageIndex := 0, sessionId := some "s1".toList, ratio := some "4:3".toList,
    imageModelConfig := some ⟨some "k".toList, some "https://img.example".toList, none⟩,
    textModelConfig := none }

/-! ## Notions used to relate the scanner of `repairTruncatedJSON` to `JSON.parse` -/

/-- The parser state `ps` with the frames `K` below its own. -/
def PState.lift (K : List Frame) (ps : PState) : PState := ⟨ps.mode, ps.stack ++ K⟩

/-- The state `st` with the frames `K` below its own. -/
def JState.lift (K : List Frame) (st : JState) : JState := ⟨st.lex, st.par.lift K⟩

/-- The number of objects that are open. -/
def objFrames : List Frame → Nat
  | [] => 0
  | .obj _ _ :: rest => objFrames rest + 1
  | .arr _ :: rest => objFrames rest

/-- The number of arrays that are open. -/
def arrFrames : List Frame → Nat
  | [] => 0
  | .arr _ :: rest => arrFrames rest + 1
  | .obj _ _ :: rest => arrFrames rest

/-- The lexer is inside a string literal. -/
def LexState.inString : LexState → Bool
  | .str _ => true
  | .esc _ => true
  | .uni _ _ => true
  | _ => false

/-- The lexer has just read the backslash of an escape sequence. -/
def LexState.escaped : LexState → Bool
  | .esc _ => true
  | _ => false

/-- The change of the brace depth a token stands for. -/
def Token.braceDelta : Token → Int
  | .lbrace => 1
  | .rbrace => -1
  | _ => 0

/-- The change of the bracket depth a token stands for. -/
def Token.bracketDelta : Token → Int
  | .lbracket => 1
  | .rbracket => -1
  | _ => 0

/-- The change of the brace depth the scanner makes on `c` outside strings. -/
def charBrace (c : Char) : Int := if c = '{' then 1 else if c = '}' then -1 else 0

/-- The change of the bracket depth the scanner makes on `c` outside strings. -/
def charBracket (c : Char) : Int := if c = '[' then 1 else if c = ']' then -1 else 0

/-- A lower-case letter. -/
def isLowerLetter (c : Char) : Bool := 0x61 ≤ c.toNat && c.toNat ≤ 0x7A

/-- Inside a word the lexer expects lower-case letters only and will emit one
of the tokens `true`, `false`, `null`: this holds in every state the lexer
reaches from `idle`. -/
def LexState.ok : LexState → Bool
  | .lit rest tok =>
      rest.all isLowerLetter &&
        (match tok with
          | .tru => true
          | .fls => true
          | .nul => true
          | _ => false)
  | _ => true

/-- The scanner state `σ` agrees with the reader state `st`: the same position
with respect to string literals, and brace and bracket depths that exceed the
numbers of open objects and arrays by `b` and `a`. -/
structure Sim (b a : Int) (st : JState) (σ : ScanState) : Prop where
  lexOk : st.lex.ok = true
  inString : σ.inString = st.lex.inString
  escapeNext : σ.escapeNext = st.lex.escaped
  brace : σ.braceDepth = b + objFrames st.par.stack
  bracket : σ.bracketDepth = a + arrFrames st.par.stack

/-- The outermost open frame is an object. -/
def bottomIsObj : List Frame → Bool
  | [] => false
  | [.obj _ _] => true
  | [.arr _] => false
  | _ :: f :: rest => bottomIsObj (f :: rest)

/-- All characters of `w` are JSON white space. -/
def allJsonWs (w : Str) : Prop := ∀ c ∈ w, isJsonWs c = true

/-- The texts `es` separated by commas. -/
def joinElems : List Str → Str
  | [] => []
  | [e] => e
  | e :: f :: rest => e ++ ',' :: joinElems (f :: rest)

/-- `o` is the text of a JSON object with the members `ms`: it starts with `{`,
ends with `}`, and `JSON.parse` reads it as that object. -/
def IsObjectText (o : Str) (ms : List (Str × JSONValue)) : Prop :=
  o.head? = some '{' ∧ o.getLast? = some '}' ∧ parseJSON o = some (.obj ms)

/-- What may follow the closing brace of the last complete object in a
truncated array text: a prefix of white space, the closing `]` and white space;
or a prefix of white space, a comma, white space and the text of a further
object without its closing brace. -/
def IsIncompleteTail (tail : Str) : Prop :=
  (∃ w1 w2, allJsonWs w1 ∧ allJsonWs w2 ∧ tail <+: w1 ++ ']' :: w2) ∨
  (∃ w1 w2 o ms, allJsonWs w1 ∧ allJsonWs w2 ∧ IsObjectText o ms ∧
    tail <+: w1 ++ ',' :: w2 ++ o.dropLast)

/-! ## The list `callImageModel` returns (aiProxy.js, lines 221-388) -/

/-- Exactly one of the two fields of an image result is populated. -/
def ImageResult.exactlyOne (r : ImageResult) : Bool := truthy r.url != truthy r.b64_json

/-- What the provider answers during one successful call of `callImageModel`:
the `output` of the DashScope submit response and the answers to the status
requests of the two polling loops, and the `data` of the OpenAI-compatible
response. -/
structure ImageAnswers where
  dashScope : Option DashScopeOutput
  dashScopePolls : Nat → DashScopePoll
  modelScopePolls : Nat → ModelScopePoll
  openAI : List ImageResult

/-- The value of `callImageModel` after a successful submit request (lines
380-388, with lines 210-218, 294-323 and 373-374): the DashScope
interpretation, the ModelScope polling loop, or `data.data` as it came. -/
def callImageModelOk (baseUrl : Str) (a : ImageAnswers) : Except String (List ImageResult) :=
  match callImageModelPath baseUrl with
  | .dashScope => (callDashScopeImageOk a.dashScope a.dashScopePolls).outcome
  | .modelScope => (pollModelScopeTask a.modelScopePolls).outcome
  | .openAICompatible => .ok a.openAI

/-! ## The provider calls of `generatePageImage` and the checks of the handlers -/

/-- A call to one of the two gateways. -/
inductive ProviderCall where
  | image (call : ImageCall)
  | text (call : HtmlCall)
  deriving DecidableEq, Repr

/-- The configuration a gateway call is made with. -/
def ProviderCall.config : ProviderCall → ModelConfig
  | .image c => c.config
  | .text c => c.config

/-- Both `baseUrl` and `apiKey` are present and not empty. -/
def ModelConfig.complete (c : ModelConfig) : Bool := truthy c.baseUrl && truthy c.apiKey

/-- The gateway calls of `generatePageImage`, in order (imageGen.js, lines
45-83): the image call when the image model is configured, and the text call
of `generateHTMLSlide` whenever the function reaches its fallback. -/
def generatePageImageCalls (W : World) (req : PageRequest) : List ProviderCall :=
  if truthy req.imageModelConfig.apiKey && truthy req.imageModelConfig.baseUrl then
    .image (imageCallOf req) ::
      match W.callImageModel (imageCallOf req) with
      | .error _ => [.text (htmlCallOf req)]
      | .ok (some (first :: _)) =>
          if truthy first.b64_json then
            if W.writeFileSync (artifactFilename req ".png") then [] else [.text (htmlCallOf req)]
          else if truthy first.url then []
          else [.text (htmlCallOf req)]
      | .ok _ => [.text (htmlCallOf req)]
  else [.text (htmlCallOf req)]

/-- `!config?.apiKey || !config?.baseUrl` negated: the test the `generate-page`
handler applies to each model (routes/ai.js, lines 64-65). -/
def isConfigured (c : Option ModelConfig) : Bool :=
  match c with
  | some c => truthy c.apiKey && truthy c.baseUrl
  | none => false

/-- What a page handler does with a request: it answers with an error status,
or it calls `generatePageImage`. -/
inductive HandlerStep where
  | reject (status : Nat) (error : String)
  | call (req : PageRequest)
  deriving DecidableEq, Repr

/-- The `generate-page` handler up to its call of `generatePageImage`
(routes/ai.js, lines 46-82); `pageData` tells whether the body carries page
data. -/
def generatePageHandler (pageData : Bool) (body : PageBody) (now : Str) : HandlerStep :=
  if !pageData then .reject 400 "请提供页面数据"
  else if !isConfigured body.imageModelConfig && !isConfigured body.textModelConfig then
    .reject 400 "请至少配置一个模型（图片模型或文本模型）"
  else .call (generatePageArgs body now)

/-- The `regenerate-page` handler up to its call of `generatePageImage`
(routes/ai.js, lines 97-130); with a custom prompt and no page data, reading
`pageData.content` throws and the handler answers 500. -/
def regeneratePageHandler (pageData customPrompt : Bool) (body : PageBody) (now : Str) :
    HandlerStep :=
  if customPrompt && !pageData then .reject 500 "TypeError"
  else .call (regeneratePageArgs body now)

/-! ## One attempt of `callTextModel` (aiProxy.js, lines 21-27, 32-34, 58-72, 89-114, 146-151) -/

/-- The errors an attempt ends with: a `TypeError` of the language, the error
built from a non-success HTTP status, or the failure of `fetch` itself. -/
inductive CallError where
  | typeError
  | http (message : Str)
  | network
  deriving DecidableEq, Repr

/-- How a request ends: `fetch` throws, the provider answers with a non-success
status and a text, or it answers with the text of the model. -/
inductive FetchAnswer where
  | throws
  | status (code : Nat) (errText : Str)
  | ok (text : Str)
  deriving DecidableEq, Repr

/-- `isAnthropicProxy(baseUrl, model)` on fields that may be absent:
`baseUrl.includes` on an absent `baseUrl` is a `TypeError`. -/
def isAnthropicProxyOpt (baseUrl model : Option Str) : Except CallError Bool :=
  if truthy model && includes (toLowerCase (model.getD [])) "claude".toList then .ok true
  else
    match baseUrl with
    | none => .error .typeError
    | some b => .ok (includes b "anthropic.com".toList || includes b "claude".toList)

/-- The function `callTextModel` hands to `withRetry`, acting on the number of
requests sent so far; `answers j` is the answer to request `j + 1`.  Nothing is
checked before the request: `baseUrl.replace` on an absent `baseUrl` is a
`TypeError`, and an absent `apiKey` goes into the header as it is. -/
def callTextModelAttempt (cfg : ModelConfig) (answers : Nat → FetchAnswer) (sent : Nat) :
    Except CallError Str × Nat :=
  match isAnthropicProxyOpt cfg.baseUrl cfg.model with
  | .error e => (.error e, sent)
  | .ok anthropic =>
      match cfg.baseUrl with
      | none => (.error .typeError, sent)
      | some b =>
          match answers sent with
          | .throws => (.error .network, sent + 1)
          | .status code errText =>
              (.error (.http (httpErrorMessage
                (if anthropic then .anthropicText else .openAIText) b code errText)), sent + 1)
          | .ok text => (.ok text, sent + 1)

/-- `callTextModel(cfg)` (lines 145-152), no request having been sent before. -/
def callTextModel (cfg : ModelConfig) (answers : Nat → FetchAnswer) :
    RetryRun CallError Str Nat :=
  callTextModelRetry (callTextModelAttempt cfg answers) 0

/-- The call goes to the image gateway. -/
def ProviderCall.isImage : ProviderCall → Bool
  | .image _ => true
  | .text _ => false

/-- A request body for page 0 of session `s1` that configures no model. -/
def unconfiguredBody : PageBody :=
  { pageIndex := 0, sessionId := some "s1".toList, ratio := none,
    imageModelConfig := none, textModelConfig := none }

/-! ## The path of the artifact (imageGen.js, lines 54-56 and 84-86) -/

/-- The segments of a path text, between its `/` separators. -/
def splitSegments : Str → List Str
  | [] => [[]]
  | c :: cs =>
      if c = '/' then [] :: splitSegments cs
      else
        match splitSegments cs with
        | seg :: rest => (c :: seg) :: rest
        | [] => [[c]]

/-- One segment applied to the directory reached so far (innermost segment
first), the way `path.join` normalises: empty and `.` segments stay, `..`
goes up. -/
def normalizeStep (dir : List Str) (seg : Str) : List Str :=
  if seg = [] ∨ seg = ['.'] then dir
  else if seg = ['.', '.'] then dir.drop 1
  else seg :: dir

/-- `path.join(dir, rel)` on a POSIX system, for an absolute directory given by
its segments. -/
def pathJoin (dir : List Str) (rel : Str) : List Str :=
  ((splitSegments rel).foldl normalizeStep dir.reverse).reverse

/-- The file `generatePageImage` writes: `path.join(__dirname, '../../generated',
filename)`, `serverDir` being the directory two levels above `__dirname`. -/
def artifactPath (serverDir : List Str) (req : PageRequest) (ext : String) : List Str :=
  pathJoin (serverDir ++ ["generated".toList]) (artifactFilename req ext)

/-- A request whose session identifier holds path separators and
parent-directory segments. -/
def traversalRequest : PageRequest :=
  { pageIndex := 0, sessionId := "a/../../x".toList, ratio := none,
    imageModelConfig := ⟨none, none, none⟩,
    textModelConfig := ⟨some "k".toList, some "https://txt.example".toList, some "t".toList⟩ }

/-! ## `handleReorderPages` (App.jsx, lines 221-240) -/

/-- The update of the page list (lines 222-227): `next.splice(from, 1)` takes
the page at `fromIdx` out (`undef` stands for the `undefined` that comes out
when there is no such page) and `next.splice(to, 0, moved)` puts it in at
`toIdx`. -/
def reorderPages {α : Type} (undef : α) (fromIdx toIdx : Nat) (prev : List α) : List α :=
  let moved := prev[fromIdx]?.getD undef
  let next := prev.eraseIdx fromIdx
  next.take toIdx ++ moved :: next.drop toIdx

/-- The new key of the artifact stored under `idx` (lines 232-235). -/
def newIndex (fromIdx toIdx idx : Nat) : Nat :=
  if idx = fromIdx then toIdx
  else if fromIdx < toIdx ∧ idx > fromIdx ∧ idx ≤ toIdx then idx - 1
  else if fromIdx > toIdx ∧ idx ≥ toIdx ∧ idx < fromIdx then idx + 1
  else idx

/-- The assignment `obj[k] = v` on an object given by its entries: the value
of an existing key is replaced, a new key is added. -/
def setKey {β : Type} (m : List (Nat × β)) (k : Nat) (v : β) : List (Nat × β) :=
  if (m.lookup k).isSome then m.map fun e => if e.1 = k then (k, v) else e
  else m ++ [(k, v)]

/-- The update of the artifact map (lines 228-239): every entry of the old map
is assigned to its new key in a fresh object. -/
def reorderImages {β : Type} (fromIdx toIdx : Nat) (prev : List (Nat × β)) : List (Nat × β) :=
  prev.foldl (fun newMap e => setKey newMap (newIndex fromIdx toIdx e.1) e.2) []

/-! ## Sample inputs of the scan, and the message of the parse error -/

/-- The scan inside a string value of the first object of an array. -/
def insideStringState : ScanState :=
  { ScanState.init with braceDepth := 1, bracketDepth := 1, inString := true }

/-- A truncated array whose first object holds a brace and a comma inside a
string value. -/
def truncatedSample : Str := "[\x7b\"a\":\"\x7d,\"\x7d,\x7b\"b\":\"x,y\",\"c".toList

/-- The message of the error `splitContent` throws when the repaired text does
not parse either (splitter.js, line 83), as its UTF-16 code units; `reason` is
the message of the error caught, `excerpt` is `jsonStr.substring(0, 500)`. -/
def parseErrorMessage (reason excerpt : List Nat) : List Nat :=
  toUtf16 "Failed to parse AI response as JSON: ".toList ++ reason ++
    toUtf16 "\nResponse (first 500 chars): ".toList ++ excerpt

/-- The grinning face U+1F600, a character of two UTF-16 code units. -/
def grinningFace : Char := Char.ofNat 0x1F600

/-- The answers of a ModelScope provider whose task succeeds at the first
status request with one output image. -/
def modelScopeAnswers : ImageAnswers :=
  { dashScope := none,
    dashScopePolls := fun _ => .httpError,
    modelScopePolls := fun _ =>
      .body (some "SUCCEED".toList) (some ["https://cdn.example/a.png".toList]) none,
    openAI := [] }

/-! # Theorems -/

/-! ## `repairTruncatedJSON` only truncates -/

theorem stripTrailingComma_pfx (s : Str) : stripTrailingComma s <+: s := by
  induction s with
  | nil => simp [stripTrailingComma]
  | cons c rest ih =>
    unfold stripTrailingComma
    split
    · exact List.nil_prefix
    · exact (List.prefix_cons_inj c).2 ih

theorem ensureLeadingBracket_eq (t : Str) :
    ∃ L, ensureLeadingBracket t = L ++ t ∧ (L = [] ∨ L = ['[']) := by
  unfold ensureLeadingBracket
  split
  · exact ⟨[], rfl, Or.inl rfl⟩
  · exact ⟨['['], rfl, Or.inr rfl⟩

/-- C5: the result of `repairTruncatedJSON` is the trimmed input itself, or a
prefix of the trimmed input between an optional leading `[` and a closing `]`
or `}]`; no other character is inserted or changed. -/
theorem repairTruncatedJSON_no_fabrication (s : Str) :
    repairTruncatedJSON s = trim s ∨
    ∃ L p R, repairTruncatedJSON s = L ++ p ++ R ∧ p <+: trim s ∧
      (L = [] ∨ L = ['[']) ∧ (R = [']'] ∨ R = ['}', ']']) := by
  unfold repairTruncatedJSON
  simp only
  generalize scanLoop 0 ScanState.init (trim s) = st
  split
  · right
    generalize hc : List.take (st.lastCompleteObj + 1).toNat (trim s) = cut
    have hcut : cut <+: trim s := hc ▸ List.take_prefix _ _
    split
    · rename_i h2
      obtain ⟨p, hp⟩ := List.isSuffixOf_iff_suffix.1 h2
      obtain ⟨L, hL1, hL2⟩ := ensureLeadingBracket_eq cut
      refine ⟨L, p, [']'], ?_, ?_, hL2, Or.inl rfl⟩
      · rw [hL1, ← hp]; simp
      · exact List.IsPrefix.trans ⟨_, hp⟩ hcut
    · obtain ⟨L, hL1, hL2⟩ := ensureLeadingBracket_eq (stripTrailingComma cut ++ [']'])
      refine ⟨L, stripTrailingComma cut, [']'], ?_, ?_, hL2, Or.inl rfl⟩
      · rw [hL1]; simp
      · exact List.IsPrefix.trans (stripTrailingComma_pfx _) hcut
  · split
    · right
      obtain ⟨L, hL1, hL2⟩ := ensureLeadingBracket_eq
        (List.take st.lastPropertyComma.toNat (trim s) ++ ['}', ']'])
      refine ⟨L, List.take st.lastPropertyComma.toNat (trim s), ['}', ']'], ?_,
        List.take_prefix _ _, hL2, Or.inr rfl⟩
      rw [hL1]; simp
    · left; rfl

/-! ## Provider detection -/

theorem includes_iff (s p : Str) : includes s p = true ↔ p <:+: s := by
  induction s with
  | nil =>
    simp only [includes, List.isPrefixOf_iff_prefix, List.prefix_nil, List.infix_nil]
  | cons c s ih =>
    simp only [includes, Bool.or_eq_true, List.isPrefixOf_iff_prefix, ih, List.infix_cons_iff]

theorem infix_map_iff {α β : Type} (f : α → β) (p : List β) (s : List α) :
    p <:+: s.map f ↔ ∃ w, w <:+: s ∧ w.map f = p := by
  constructor
  · rintro ⟨a, b, h⟩
    obtain ⟨ab, b1, rfl, hab, rfl⟩ := List.map_eq_append_iff.1 h.symm
    obtain ⟨a1, w, rfl, rfl, rfl⟩ := List.map_eq_append_iff.1 hab
    exact ⟨w, ⟨a1, b1, rfl⟩, rfl⟩
  · rintro ⟨w, ⟨a, b, rfl⟩, rfl⟩
    exact ⟨a.map f, b.map f, by simp⟩

/-! ### The two dispatchers -/

/-- C6: `callTextModel` takes the Anthropic path exactly when the model name
contains `claude` up to letter case, or the base URL contains `anthropic.com`,
or the base URL contains `claude`, and the OpenAI-compatible path otherwise;
model `claude-3-opus` is Anthropic for every base URL, and
`https://api.openai.com/v1` with `gpt-4o` is OpenAI-compatible. -/
theorem callTextModel_provider_choice :
    (∀ baseUrl model : Str,
      callTextModelPath baseUrl model = TextProvider.anthropic ↔
        ((∃ w, w <:+: model ∧ w.map Char.toLower = "claude".toList) ∨
          "anthropic.com".toList <:+: baseUrl ∨ "claude".toList <:+: baseUrl)) ∧
    (∀ baseUrl model : Str,
      callTextModelPath baseUrl model = TextProvider.openAICompatible ↔
        ¬ ((∃ w, w <:+: model ∧ w.map Char.toLower = "claude".toList) ∨
          "anthropic.com".toList <:+: baseUrl ∨ "claude".toList <:+: baseUrl)) ∧
    (∀ baseUrl : Str,
      callTextModelPath baseUrl "claude-3-opus".toList = TextProvider.anthropic) ∧
    callTextModelPath "https://api.openai.com/v1".toList "gpt-4o".toList =
      TextProvider.openAICompatible := by
  have key : ∀ baseUrl model : Str, isAnthropicProxy baseUrl model = true ↔
      ((∃ w, w <:+: model ∧ w.map Char.toLower = "claude".toList) ∨
          "anthropic.com".toList <:+: baseUrl ∨ "claude".toList <:+: baseUrl) := by
    intro baseUrl model
    have hm : (model ≠ [] ∧ includes (toLowerCase model) "claude".toList = true) ↔
        ∃ w, w <:+: model ∧ w.map Char.toLower = "claude".toList := by
      rw [includes_iff, toLowerCase, infix_map_iff]
      constructor
      · exact fun h => h.2
      · rintro ⟨w, hw, hc⟩
        refine ⟨?_, w, hw, hc⟩
        rintro rfl
        rw [List.infix_nil] at hw
        subst hw
        simp at hc
    unfold isAnthropicProxy
    rw [← includes_iff, ← includes_iff, ← hm]
    by_cases h1 : model ≠ [] ∧ includes (toLowerCase model) "claude".toList = true
    · simp [h1]
    · by_cases h2 : includes baseUrl "anthropic.com".toList = true
      · simp [h1, h2]
      · by_cases h3 : includes baseUrl "claude".toList = true <;> simp [h1, h2, h3]
  refine ⟨?_, ?_, ?_, ?_⟩
  · intro b m
    rw [← key]; unfold callTextModelPath
    cases isAnthropicProxy b m <;> simp
  · intro b m
    rw [← key]; unfold callTextModelPath
    cases isAnthropicProxy b m <;> simp
  · intro b
    have : isAnthropicProxy b "claude-3-opus".toList = true :=
      (key b _).2 (Or.inl ⟨"claude".toList, ⟨[], "-3-opus".toList, by decide⟩, by decide⟩)
    unfold callTextModelPath
    rw [this]; rfl
  · decide

/-- C7: `callImageModel` takes the DashScope path exactly when the base URL
contains `dashscope.aliyuncs.com`, otherwise the ModelScope path exactly when it
contains `modelscope.cn`, otherwise the OpenAI-compatible path; a base URL that
contains both is DashScope. -/
theorem callImageModel_provider_choice :
    (∀ baseUrl : Str, callImageModelPath baseUrl = ImageProvider.dashScope ↔
      "dashscope.aliyuncs.com".toList <:+: baseUrl) ∧
    (∀ baseUrl : Str, callImageModelPath baseUrl = ImageProvider.modelScope ↔
      (¬ "dashscope.aliyuncs.com".toList <:+: baseUrl ∧ "modelscope.cn".toList <:+: baseUrl)) ∧
    (∀ baseUrl : Str, callImageModelPath baseUrl = ImageProvider.openAICompatible ↔
      (¬ "dashscope.aliyuncs.com".toList <:+: baseUrl ∧
        ¬ "modelscope.cn".toList <:+: baseUrl)) ∧
    (∀ a b c : Str, callImageModelPath
      (a ++ "modelscope.cn".toList ++ b ++ "dashscope.aliyuncs.com".toList ++ c) =
        ImageProvider.dashScope) := by
  have key : ∀ baseUrl : Str,
      (callImageModelPath baseUrl = ImageProvider.dashScope ↔
        "dashscope.aliyuncs.com".toList <:+: baseUrl) ∧
      (callImageModelPath baseUrl = ImageProvider.modelScope ↔
        (¬ "dashscope.aliyuncs.com".toList <:+: baseUrl ∧
          "modelscope.cn".toList <:+: baseUrl)) ∧
      (callImageModelPath baseUrl = ImageProvider.openAICompatible ↔
        (¬ "dashscope.aliyuncs.com".toList <:+: baseUrl ∧
          ¬ "modelscope.cn".toList <:+: baseUrl)) := by
    intro baseUrl
    unfold callImageModelPath isDashScope isModelScope
    rw [← includes_iff, ← includes_iff]
    by_cases h1 : includes baseUrl "dashscope.aliyuncs.com".toList = true
    · rw [if_pos h1]
      exact ⟨⟨fun _ => h1, fun _ => rfl⟩, ⟨fun h => (by cases h), fun h => absurd h1 h.1⟩,
        ⟨fun h => (by cases h), fun h => absurd h1 h.1⟩⟩
    · rw [if_neg h1]
      by_cases h2 : includes baseUrl "modelscope.cn".toList = true
      · rw [if_pos h2]
        exact ⟨⟨fun h => (by cases h), fun h => absurd h h1⟩, ⟨fun _ => ⟨h1, h2⟩, fun _ => rfl⟩,
          ⟨fun h => (by cases h), fun h => absurd h2 h.2⟩⟩
      · rw [if_neg h2]
        exact ⟨⟨fun h => (by cases h), fun h => absurd h h1⟩,
          ⟨fun h => (by cases h), fun h => absurd h.2 h2⟩, ⟨fun _ => ⟨h1, h2⟩, fun _ => rfl⟩⟩
  refine ⟨fun b => (key b).1, fun b => (key b).2.1, fun b => (key b).2.2, ?_⟩
  intro a b c
  exact (key _).1.2 ⟨a ++ "modelscope.cn".toList ++ b, c, by simp⟩

/-! ## The retry policy of `callTextModel` -/

/-- C8: when attempt `k` (`1 ≤ k ≤ 3`) of a text-model call is the first to
succeed, `withRetry` returns the result of that attempt after exactly `k`
invocations of the provider call. -/
theorem withRetry_first_success {ε α σ : Type} (fn : σ → Except ε α × σ) (w : σ)
    (k : Nat) (v : α) (hk1 : 1 ≤ k) (hk3 : k ≤ 3)
    (hfail : ∀ j, j + 1 < k → ∃ e, attempt fn w j = .error e)
    (hok : attempt fn w (k - 1) = .ok v) :
    (callTextModelRetry fn w).outcome = .ok v ∧ (callTextModelRetry fn w).invocations = k := by
  unfold callTextModelRetry withRetry
  rcases h0 : fn w with ⟨r0, w1⟩
  have a0 : attempt fn w 0 = r0 := by simp [attempt, worldAfter, h0]
  have hw1 : worldAfter fn w 1 = w1 := by simp [worldAfter, h0]
  rcases h1 : fn w1 with ⟨r1, w2⟩
  have a1 : attempt fn w 1 = r1 := by simp [attempt, hw1, h1]
  have hw2 : worldAfter fn w 2 = w2 := by
    show (fn (worldAfter fn w 1)).2 = w2
    rw [hw1, h1]
  rcases h2 : fn w2 with ⟨r2, w3⟩
  have a2 : attempt fn w 2 = r2 := by simp [attempt, hw2, h2]
  interval_cases k
  · rw [a0] at hok; subst hok
    simp [withRetryLoop, h0]
  · obtain ⟨e0, he0⟩ := hfail 0 (by omega)
    rw [a0] at he0; subst he0
    rw [a1] at hok; subst hok
    simp [withRetryLoop, h0, h1]
  · obtain ⟨e0, he0⟩ := hfail 0 (by omega)
    obtain ⟨e1, he1⟩ := hfail 1 (by omega)
    rw [a0] at he0; subst he0
    rw [a1] at he1; subst he1
    rw [a2] at hok; subst hok
    simp [withRetryLoop, h0, h1, h2]

theorem withRetry_first_success_witness :
    (callTextModelRetry (flakyStub 2) 0).outcome = .ok 42 ∧
      (callTextModelRetry (flakyStub 2) 0).invocations = 3 :=
  withRetry_first_success (flakyStub 2) 0 3 42 (by decide) (by decide)
    (fun j hj => by
      have : j = 0 ∨ j = 1 := by omega
      rcases this with rfl | rfl <;> exact ⟨_, rfl⟩)
    rfl

/-- C9: when the three attempts of a text-model call fail, `withRetry` invokes
the provider call exactly three times, waits 1000 ms after the first failure
and 2000 ms after the second and not after the third, and throws the error of
the third attempt. -/
theorem withRetry_all_fail {ε α σ : Type} (fn : σ → Except ε α × σ) (w : σ) (e1 e2 e3 : ε)
    (h1 : attempt fn w 0 = .error e1) (h2 : attempt fn w 1 = .error e2)
    (h3 : attempt fn w 2 = .error e3) :
    (callTextModelRetry fn w).outcome = .error (some e3) ∧
      (callTextModelRetry fn w).invocations = 3 ∧
      (callTextModelRetry fn w).waits = [1000, 2000] := by
  unfold callTextModelRetry withRetry
  rcases g0 : fn w with ⟨r0, w1⟩
  have a0 : attempt fn w 0 = r0 := by simp [attempt, worldAfter, g0]
  have hw1 : worldAfter fn w 1 = w1 := by simp [worldAfter, g0]
  rcases g1 : fn w1 with ⟨r1, w2⟩
  have a1 : attempt fn w 1 = r1 := by simp [attempt, hw1, g1]
  have hw2 : worldAfter fn w 2 = w2 := by
    show (fn (worldAfter fn w 1)).2 = w2
    rw [hw1, g1]
  rcases g2 : fn w2 with ⟨r2, w3⟩
  have a2 : attempt fn w 2 = r2 := by simp [attempt, hw2, g2]
  rw [a0] at h1; subst h1
  rw [a1] at h2; subst h2
  rw [a2] at h3; subst h3
  simp [withRetryLoop, g0, g1, g2]

theorem withRetry_all_fail_witness :
    (callTextModelRetry (flakyStub 5) 0).outcome = .error (some "unavailable") ∧
      (callTextModelRetry (flakyStub 5) 0).invocations = 3 ∧
      (callTextModelRetry (flakyStub 5) 0).waits = [1000, 2000] :=
  withRetry_all_fail (flakyStub 5) 0 "unavailable" "unavailable" "unavailable" rfl rfl rfl

/-! ## Ratio tables -/

theorem lookupProperty_of_not_mem {α : Type} (table : List (Str × α)) (key : Str)
    (h1 : table.lookup key = none) (h2 : key ∉ objectPrototypeKeys) :
    lookupProperty table key = .undefined := by
  simp [lookupProperty, h1, h2]

theorem lookup_eq_none_of_not_mem {α : Type} (table : List (Str × α)) (key : Str)
    (h : key ∉ table.map Prod.fst) : table.lookup key = none := by
  rw [List.lookup_eq_none_iff]
  intro p hp
  simp only [bne_iff_ne, ne_eq]
  rintro rfl
  exact h (List.mem_map_of_mem _ hp)

/-- The five ratios map to their pixel sizes, and every other string that is not
the name of a member of `Object.prototype`, as well as an absent ratio, gives
1280x720. -/
theorem getDimensions_table :
    getDimensions (some "16:9".toList) = ⟨some 1280, some 720⟩ ∧
    getDimensions (some "4:3".toList) = ⟨some 1024, some 768⟩ ∧
    getDimensions (some "1:1".toList) = ⟨some 1024, some 1024⟩ ∧
    getDimensions (some "3:4".toList) = ⟨some 768, some 1024⟩ ∧
    getDimensions (some "9:16".toList) = ⟨some 720, some 1280⟩ ∧
    getDimensions none = ⟨some 1280, some 720⟩ ∧
    ∀ r : Str, r ∉ RATIO_DIMENSIONS.map Prod.fst → r ∉ objectPrototypeKeys →
      getDimensions (some r) = ⟨some 1280, some 720⟩ := by
  refine ⟨by decide, by decide, by decide, by decide, by decide, by decide, ?_⟩
  intro r h1 h2
  simp [getDimensions, lookupProperty_of_not_mem _ _ (lookup_eq_none_of_not_mem _ _ h1) h2]

/-- C13 (the code at the failing input): for the ratio `constructor`, a string
other than the five ratios, `RATIO_DIMENSIONS[ratio]` is the inherited
`Object.prototype.constructor`, which is truthy, so `getDimensions` returns it
instead of the 16:9 size: its `width` and `height` are `undefined`. -/
theorem getDimensions_inherited_key :
    "constructor".toList ∉ RATIO_DIMENSIONS.map Prod.fst ∧
    getDimensions (some "constructor".toList) = ⟨none, none⟩ ∧
    getDimensions (some "constructor".toList) ≠ ⟨some 1280, some 720⟩ := by
  decide

/-- The five ratios map to their ModelScope resolutions; every other size that
is not the name of a member of `Object.prototype` is sent verbatim when it
contains `*` and as `1664*928` otherwise, as is the default `1024x768`. -/
theorem modelScopeMappedSize_table :
    modelScopeMappedSize "16:9".toList = .text "1664*928".toList ∧
    modelScopeMappedSize "4:3".toList = .text "1472*1104".toList ∧
    modelScopeMappedSize "1:1".toList = .text "1328*1328".toList ∧
    modelScopeMappedSize "3:4".toList = .text "1104*1472".toList ∧
    modelScopeMappedSize "9:16".toList = .text "928*1664".toList ∧
    callModelScopeImageSize none = .text "1664*928".toList ∧
    ∀ s : Str, s ∉ resolutionMap.map Prod.fst → s ∉ objectPrototypeKeys →
      modelScopeMappedSize s = if '*' ∈ s then .text s else .text "1664*928".toList := by
  refine ⟨by decide, by decide, by decide, by decide, by decide, by decide, ?_⟩
  intro s h1 h2
  have hinc : includes s ['*'] = true ↔ '*' ∈ s := by
    rw [includes_iff]
    constructor
    · rintro ⟨a, b, rfl⟩
      simp
    · intro hm
      obtain ⟨a, b, rfl⟩ := List.append_of_mem hm
      exact ⟨a, b, by simp⟩
  unfold modelScopeMappedSize
  rw [lookupProperty_of_not_mem _ _ (lookup_eq_none_of_not_mem _ _ h1) h2]
  by_cases h : '*' ∈ s
  · simp [h, hinc.2 h]
  · have : ¬ includes s ['*'] = true := fun hh => h (hinc.1 hh)
    simp [h, this]

/-- C14 (the code at the failing input): for the size `toString`, which is
none of the five ratios and contains no `*`, `resolutionMap[size]` is the
inherited `Object.prototype.toString`, which is truthy, so `mappedSize` is that
function and not `1664*928`. -/
theorem modelScopeMappedSize_inherited_key :
    "toString".toList ∉ resolutionMap.map Prod.fst ∧ '*' ∉ "toString".toList ∧
    modelScopeMappedSize "toString".toList = .inherited "toString".toList ∧
    modelScopeMappedSize "toString".toList ≠ .text "1664*928".toList := by
  decide

/-! ## The DashScope response and the polling loops -/

theorem firstImage_eq_none (items : List (Option Str)) :
    firstImage items = none ↔ ∀ item ∈ items, truthy item = false := by
  induction items with
  | nil => simp [firstImage]
  | cons item rest ih =>
    unfold firstImage
    by_cases h : truthy item = true
    · rw [if_pos h]
      constructor
      · intro h0
        subst h0
        simp [truthy] at h
      · intro hall
        have := hall item (List.mem_cons_self _ _)
        rw [h] at this
        cases this
    · rw [if_neg h, ih]
      simp only [Bool.not_eq_true] at h
      simp [h]

theorem firstImage_append (pre post : List (Option Str)) (img : Option Str)
    (hpre : ∀ item ∈ pre, truthy item = false) (himg : truthy img = true) :
    firstImage (pre ++ img :: post) = img := by
  induction pre with
  | nil => simp [firstImage, himg]
  | cons item rest ih =>
    have h1 : truthy item = false := hpre item (List.mem_cons_self _ _)
    have h2 := ih fun x hx => hpre x (List.mem_cons_of_mem _ hx)
    simp [firstImage, h1, h2]

theorem inlineImage_eq_none (out : DashScopeOutput) :
    inlineImage out = none ↔ ¬ HasInlineImage out := by
  unfold inlineImage HasInlineImage
  rcases hc : out.choices with _ | ⟨_ | ⟨c, cs⟩⟩
  · simp
  · simp
  · rcases hi : c.content with _ | items
    · simp [hi]
    · simp only [hi, firstImage_eq_none]
      constructor
      · rintro h ⟨c1, cs1, items1, hcc, hitems, item, hmem, ht⟩
        simp only [Option.some.injEq, List.cons.injEq] at hcc
        obtain ⟨rfl, rfl⟩ := hcc
        rw [hi] at hitems
        cases hitems
        rw [h item hmem] at ht
        cases ht
      · intro h item hmem
        by_contra hne
        exact h ⟨c, cs, items, rfl, hi, item, hmem, by simpa using hne⟩

/-- C15: `callDashScopeImage` reads a successful response in a fixed order:
(a) the first item with an image in the content of the first choice gives the
single result, whatever `results` and `task_id` are; (b) otherwise `results`,
when present, is mapped element by element, whatever `task_id` is;
(c) otherwise a `task_id` makes it poll the task; (d) otherwise the response
is a format error. -/
theorem interpretDashScope_priority (out : DashScopeOutput) :
    (∀ c cs pre post img, out.choices = some (c :: cs) →
      c.content = some (pre ++ some img :: post) → img ≠ [] →
      (∀ item ∈ pre, truthy item = false) →
      interpretDashScope (some out) = .result [⟨some img, none⟩]) ∧
    (¬ HasInlineImage out → ∀ rs, out.results = some rs →
      interpretDashScope (some out) = .result (mapResults rs)) ∧
    (¬ HasInlineImage out → out.results = none → ∀ id, id ≠ [] → out.task_id = some id →
      interpretDashScope (some out) = .poll id) ∧
    (¬ HasInlineImage out → out.results = none → truthy out.task_id = false →
      interpretDashScope (some out) = .formatError) := by
  refine ⟨?_, ?_, ?_, ?_⟩
  · intro c cs pre post img hc hi himg hpre
    have : inlineImage out = some img := by
      unfold inlineImage
      rw [hc]
      simp only [hi]
      apply firstImage_append _ _ _ hpre
      cases img with
      | nil => exact absurd rfl himg
      | cons x xs => rfl
    simp [interpretDashScope, this]
  · intro h rs hrs
    simp [interpretDashScope, (inlineImage_eq_none out).2 h, hrs]
  · intro h hrs id hid htask
    cases id with
    | nil => exact absurd rfl hid
    | cons x xs => simp [interpretDashScope, (inlineImage_eq_none out).2 h, hrs, htask]
  · intro h hrs htask
    rcases ht : out.task_id with _ | ⟨_ | ⟨x, xs⟩⟩
    · simp [interpretDashScope, (inlineImage_eq_none out).2 h, hrs, ht]
    · simp [interpretDashScope, (inlineImage_eq_none out).2 h, hrs, ht]
    · rw [ht] at htask
      simp [truthy] at htask

theorem interpretDashScope_priority_witness :
    interpretDashScope (some
      { choices := some [⟨some [none, some "http://x/y.png".toList]⟩],
        results := some [], task_id := some "t1".toList, task_status := none,
        message := none }) = .result [⟨some "http://x/y.png".toList, none⟩] :=
  (interpretDashScope_priority _).1 _ [] [none] [] _ rfl rfl (by decide) (by decide)

theorem pollDashScopeLoop_continue (answers : Nat → DashScopePoll) (n polls : Nat)
    (sleeps : List Nat) (h : (answers polls).nonTerminal = true) :
    pollDashScopeLoop answers (n + 1) polls sleeps =
      pollDashScopeLoop answers n (polls + 1) (sleeps ++ [3000]) := by
  rw [pollDashScopeLoop]
  rcases ha : answers polls with _ | output
  · rfl
  · rw [ha] at h
    simp only [DashScopePoll.nonTerminal, Bool.and_eq_true, Bool.not_eq_true'] at h
    simp [h.1, h.2]

theorem pollDashScopeLoop_skip (answers : Nat → DashScopePoll) (m n polls : Nat)
    (sleeps : List Nat) (h : ∀ j, j < m → (answers (polls + j)).nonTerminal = true) :
    pollDashScopeLoop answers (m + n) polls sleeps =
      pollDashScopeLoop answers n (polls + m) (sleeps ++ List.replicate m 3000) := by
  induction m generalizing polls sleeps with
  | zero => simp
  | succ m ih =>
    have h0 : (answers polls).nonTerminal = true := by simpa using h 0 (by omega)
    have e : m + 1 + n = (m + n) + 1 := by omega
    rw [e, pollDashScopeLoop_continue _ _ _ _ h0, ih]
    · rw [List.replicate_succ, List.append_assoc]
      congr 1
      omega
    · intro j hj
      have := h (j + 1) (by omega)
      rwa [show polls + (j + 1) = polls + 1 + j by omega] at this

theorem pollDashScopeLoop_bounds (answers : Nat → DashScopePoll) (n polls : Nat)
    (sleeps : List Nat) :
    ∃ d, d ≤ n ∧ (pollDashScopeLoop answers n polls sleeps).polls = polls + d ∧
      (pollDashScopeLoop answers n polls sleeps).sleeps = sleeps ++ List.replicate d 3000 := by
  induction n generalizing polls sleeps with
  | zero => exact ⟨0, le_refl _, by simp [pollDashScopeLoop]⟩
  | succ n ih =>
    have step : ∃ d, d ≤ n + 1 ∧
        (pollDashScopeLoop answers n (polls + 1) (sleeps ++ [3000])).polls = polls + d ∧
        (pollDashScopeLoop answers n (polls + 1) (sleeps ++ [3000])).sleeps =
          sleeps ++ List.replicate d 3000 := by
      obtain ⟨d, hd, h1, h2⟩ := ih (polls + 1) (sleeps ++ [3000])
      refine ⟨d + 1, by omega, by omega, ?_⟩
      rw [h2, List.replicate_succ, List.append_assoc]
      rfl
    have one : ∀ o : Except String (List ImageResult), ∃ d, d ≤ n + 1 ∧
        (PollRun.mk o (polls + 1) (sleeps ++ [3000])).polls = polls + d ∧
        (PollRun.mk o (polls + 1) (sleeps ++ [3000])).sleeps =
          sleeps ++ List.replicate d 3000 :=
      fun o => ⟨1, by omega, rfl, rfl⟩
    rw [pollDashScopeLoop]
    rcases answers polls with _ | output
    · exact step
    · simp only
      split
      · exact one _
      · split
        · exact one _
        · exact step

/-- C16: when the submit response carries only a task id and status request `k`
(`1 ≤ k ≤ 60`) is the first to report `SUCCEEDED`, the earlier ones having
reported no terminal status, the DashScope path returns the results of that
request, mapped to image results, after exactly `k` status requests. -/
theorem callDashScopeImage_poll_success (submit : DashScopeOutput)
    (answers : Nat → DashScopePoll) (k : Nat) (id : Str) (out : DashScopeOutput)
    (rs : List DashScopeResult)
    (hchoices : submit.choices = none) (hresults : submit.results = none)
    (htask : submit.task_id = some id) (hid : id ≠ [])
    (hk1 : 1 ≤ k) (hk60 : k ≤ 60)
    (hearlier : ∀ j, j + 1 < k → (answers j).nonTerminal = true)
    (hkth : answers (k - 1) = .body (some out))
    (hstatus : out.task_status = some "SUCCEEDED".toList) (hrs : out.results = some rs) :
    (callDashScopeImageOk (some submit) answers).outcome = .ok (mapResults rs) ∧
      (callDashScopeImageOk (some submit) answers).polls = k := by
  have hint : interpretDashScope (some submit) = .poll id := by
    cases id with
    | nil => exact absurd rfl hid
    | cons x xs => simp [interpretDashScope, inlineImage, hchoices, hresults, htask]
  unfold callDashScopeImageOk
  rw [hint]
  simp only
  unfold pollDashScopeTask
  have e : 60 = (k - 1) + ((60 - k) + 1) := by omega
  rw [e, pollDashScopeLoop_skip answers (k - 1) _ 0 []
    (fun j hj => by simpa using hearlier j (by omega))]
  rw [pollDashScopeLoop]
  simp only [Nat.zero_add, hkth, Option.bind, hstatus, hrs]
  have : statusIs (some "SUCCEEDED".toList) "SUCCEEDED" = true := by decide
  simp only [this]
  exact ⟨trivial, by omega⟩

theorem callDashScopeImage_poll_success_witness :
    (callDashScopeImageOk
      (some ⟨none, none, some "t1".toList, none, none⟩)
      (fun _ => .body (some ⟨none, some [⟨some "http://x/y.png".toList, none⟩], none,
        some "SUCCEEDED".toList, none⟩))).outcome
        = .ok [⟨some "http://x/y.png".toList, none⟩] ∧
    (callDashScopeImageOk
      (some ⟨none, none, some "t1".toList, none, none⟩)
      (fun _ => .body (some ⟨none, some [⟨some "http://x/y.png".toList, none⟩], none,
        some "SUCCEEDED".toList, none⟩))).polls = 1 :=
  callDashScopeImage_poll_success ⟨none, none, some "t1".toList, none, none⟩ _ 1 "t1".toList
    ⟨none, some [⟨some "http://x/y.png".toList, none⟩], none, some "SUCCEEDED".toList, none⟩
    [⟨some "http://x/y.png".toList, none⟩] rfl rfl rfl (by decide) (by decide) (by decide)
    (fun j hj => absurd hj (by omega)) rfl rfl rfl

theorem pollModelScopeLoop_continue (answers : Nat → ModelScopePoll) (n polls : Nat)
    (sleeps : List Nat) (h : (answers polls).nonTerminal = true) :
    pollModelScopeLoop answers (n + 1) polls sleeps =
      pollModelScopeLoop answers n (polls + 1) (sleeps ++ [3000]) := by
  rw [pollModelScopeLoop]
  rcases ha : answers polls with _ | ⟨status, images, message⟩
  · rfl
  · rw [ha] at h
    simp only [ModelScopePoll.nonTerminal, Bool.and_eq_true, Bool.not_eq_true'] at h
    simp [h.1, h.2]

theorem pollModelScopeLoop_skip (answers : Nat → ModelScopePoll) (m n polls : Nat)
    (sleeps : List Nat) (h : ∀ j, j < m → (answers (polls + j)).nonTerminal = true) :
    pollModelScopeLoop answers (m + n) polls sleeps =
      pollModelScopeLoop answers n (polls + m) (sleeps ++ List.replicate m 3000) := by
  induction m generalizing polls sleeps with
  | zero => simp
  | succ m ih =>
    have h0 : (answers polls).nonTerminal = true := by simpa using h 0 (by omega)
    have e : m + 1 + n = (m + n) + 1 := by omega
    rw [e, pollModelScopeLoop_continue _ _ _ _ h0, ih]
    · rw [List.replicate_succ, List.append_assoc]
      congr 1
      omega
    · intro j hj
      have := h (j + 1) (by omega)
      rwa [show polls + (j + 1) = polls + 1 + j by omega] at this

theorem pollModelScopeLoop_bounds (answers : Nat → ModelScopePoll) (n polls : Nat)
    (sleeps : List Nat) :
    ∃ d, d ≤ n ∧ (pollModelScopeLoop answers n polls sleeps).polls = polls + d ∧
      (pollModelScopeLoop answers n polls sleeps).sleeps = sleeps ++ List.replicate d 3000 := by
  induction n generalizing polls sleeps with
  | zero => exact ⟨0, le_refl _, by simp [pollModelScopeLoop]⟩
  | succ n ih =>
    have step : ∃ d, d ≤ n + 1 ∧
        (pollModelScopeLoop answers n (polls + 1) (sleeps ++ [3000])).polls = polls + d ∧
        (pollModelScopeLoop answers n (polls + 1) (sleeps ++ [3000])).sleeps =
          sleeps ++ List.replicate d 3000 := by
      obtain ⟨d, hd, h1, h2⟩ := ih (polls + 1) (sleeps ++ [3000])
      refine ⟨d + 1, by omega, by omega, ?_⟩
      rw [h2, List.replicate_succ, List.append_assoc]
      rfl
    have one : ∀ o : Except String (List ImageResult), ∃ d, d ≤ n + 1 ∧
        (PollRun.mk o (polls + 1) (sleeps ++ [3000])).polls = polls + d ∧
        (PollRun.mk o (polls + 1) (sleeps ++ [3000])).sleeps =
          sleeps ++ List.replicate d 3000 :=
      fun o => ⟨1, by omega, rfl, rfl⟩
    rw [pollModelScopeLoop]
    rcases answers polls with _ | ⟨status, images, message⟩
    · exact step
    · simp only
      split
      · split
        · exact one _
        · exact one _
      · split
        · exact one _
        · exact step

/-- C17: both polling loops are bounded whatever the provider answers:
`pollDashScopeTask` issues at most 60 status requests and `pollModelScopeTask`
at most 40, each after a sleep of 3000 ms (a non-success HTTP status counts);
when no request up to the cap reports a terminal status the call fails with the
timeout error; a `FAILED` status ends the loop at that request with an error
carrying the provider's message. -/
theorem polling_loops_bounded (ds : Nat → DashScopePoll) (ms : Nat → ModelScopePoll) :
    ((pollDashScopeTask ds).polls ≤ 60 ∧
      (pollDashScopeTask ds).sleeps = List.replicate (pollDashScopeTask ds).polls 3000) ∧
    ((pollModelScopeTask ms).polls ≤ 40 ∧
      (pollModelScopeTask ms).sleeps = List.replicate (pollModelScopeTask ms).polls 3000) ∧
    ((∀ j, j < 60 → (ds j).nonTerminal = true) →
      (pollDashScopeTask ds).outcome = .error "DashScope 任务超时" ∧
        (pollDashScopeTask ds).polls = 60) ∧
    ((∀ j, j < 40 → (ms j).nonTerminal = true) →
      (pollModelScopeTask ms).outcome = .error "ModelScope 任务超时" ∧
        (pollModelScopeTask ms).polls = 40) ∧
    (∀ k out, 1 ≤ k → k ≤ 60 → (∀ j, j + 1 < k → (ds j).nonTerminal = true) →
      ds (k - 1) = .body (some out) → out.task_status = some "FAILED".toList →
      (pollDashScopeTask ds).outcome =
          .error ("DashScope 任务失败: " ++ messageOr out.message "未知") ∧
        (pollDashScopeTask ds).polls = k) ∧
    (∀ k images message, 1 ≤ k → k ≤ 40 → (∀ j, j + 1 < k → (ms j).nonTerminal = true) →
      ms (k - 1) = .body (some "FAILED".toList) images message →
      (pollModelScopeTask ms).outcome =
          .error ("ModelScope 任务失败: " ++ messageOr message "未知原因") ∧
        (pollModelScopeTask ms).polls = k) := by
  refine ⟨?_, ?_, ?_, ?_, ?_, ?_⟩
  · obtain ⟨d, hd, h1, h2⟩ := pollDashScopeLoop_bounds ds 60 0 []
    unfold pollDashScopeTask
    rw [h1, h2]
    exact ⟨by omega, by simp⟩
  · obtain ⟨d, hd, h1, h2⟩ := pollModelScopeLoop_bounds ms 40 0 []
    unfold pollModelScopeTask
    rw [h1, h2]
    exact ⟨by omega, by simp⟩
  · intro h
    unfold pollDashScopeTask
    have := pollDashScopeLoop_skip ds 60 0 0 [] (fun j hj => by simpa using h j hj)
    rw [show 60 + 0 = 60 from rfl] at this
    rw [this]
    exact ⟨rfl, rfl⟩
  · intro h
    unfold pollModelScopeTask
    have := pollModelScopeLoop_skip ms 40 0 0 [] (fun j hj => by simpa using h j hj)
    rw [show 40 + 0 = 40 from rfl] at this
    rw [this]
    exact ⟨rfl, rfl⟩
  · intro k out hk1 hk60 hearlier hkth hstatus
    unfold pollDashScopeTask
    have e : 60 = (k - 1) + ((60 - k) + 1) := by omega
    rw [e, pollDashScopeLoop_skip ds (k - 1) _ 0 []
      (fun j hj => by simpa using hearlier j (by omega))]
    rw [pollDashScopeLoop]
    simp only [Nat.zero_add, hkth, Option.bind, hstatus]
    have h1 : statusIs (some "FAILED".toList) "SUCCEEDED" = false := by decide
    have h2 : statusIs (some "FAILED".toList) "FAILED" = true := by decide
    simp only [h1, h2, messageOr]
    exact ⟨by simp, by simp; omega⟩
  · intro k images message hk1 hk40 hearlier hkth
    unfold pollModelScopeTask
    have e : 40 = (k - 1) + ((40 - k) + 1) := by omega
    rw [e, pollModelScopeLoop_skip ms (k - 1) _ 0 []
      (fun j hj => by simpa using hearlier j (by omega))]
    rw [pollModelScopeLoop]
    simp only [Nat.zero_add, hkth]
    have h1 : statusIs (some "FAILED".toList) "SUCCEED" = false := by decide
    have h2 : statusIs (some "FAILED".toList) "FAILED" = true := by decide
    simp only [h1, h2, messageOr]
    exact ⟨by simp, by simp; omega⟩

theorem polling_loops_bounded_witness :
    (pollDashScopeTask fun _ => .httpError).outcome = .error "DashScope 任务超时" ∧
      (pollDashScopeTask fun _ => .httpError).polls = 60 :=
  (polling_loops_bounded (fun _ => .httpError) (fun _ => .httpError)).2.2.1 (fun _ _ => rfl)

/-! ## The Anthropic request and response -/

theorem jsJoin_cons_of_ne_nil (sep s : Str) (rest : List Str) (h : rest ≠ []) :
    jsJoin sep (s :: rest) = s ++ sep ++ jsJoin sep rest := by
  cases rest with
  | nil => exact absurd rfl h
  | cons t rest => rfl

theorem splitSystem_spec (msgs : List ChatMessage) (system : Str) (filtered : List ChatMessage) :
    splitSystem msgs system filtered =
      (if system ≠ [] then jsJoin ['\n'] (system :: systemContents msgs)
        else jsJoin ['\n'] ((systemContents msgs).dropWhile fun c => c = []),
       filtered ++ msgs.filter fun m => m.role ≠ "system".toList) := by
  induction msgs generalizing system filtered with
  | nil =>
    by_cases hs : system = []
    · simp [splitSystem, systemContents, hs, jsJoin]
    · simp [splitSystem, systemContents, hs, jsJoin]
  | cons msg rest ih =>
    unfold splitSystem
    by_cases hr : msg.role = "system".toList
    · rw [if_pos hr, ih]
      have hsc : systemContents (msg :: rest) = msg.content :: systemContents rest := by
        unfold systemContents
        rw [List.filter_cons_of_pos (by simpa using hr)]
        rfl
      have hf : (msg :: rest).filter (fun m => m.role ≠ "system".toList) =
          rest.filter (fun m => m.role ≠ "system".toList) := by
        rw [List.filter_cons_of_neg (by simpa using hr)]
      rw [hsc, hf]
      by_cases hs : system = []
      · subst hs
        by_cases hc : msg.content = []
        · simp [hc]
        · simp [hc]
      · have hne : system ++ (if system ≠ [] then ['\n'] else []) ++ msg.content ≠ [] := by
          simp [hs]
        rw [if_pos hne, if_pos hs, if_pos hs]
        congr 1
        rw [jsJoin_cons_of_ne_nil _ system _ (List.cons_ne_nil _ _)]
        cases hrest : systemContents rest with
        | nil => simp [jsJoin]
        | cons t more =>
          rw [jsJoin_cons_of_ne_nil _ _ _ (List.cons_ne_nil _ _),
            jsJoin_cons_of_ne_nil _ msg.content _ (List.cons_ne_nil _ _)]
          simp
    · rw [if_neg hr, ih]
      have hsc : systemContents (msg :: rest) = systemContents rest := by
        unfold systemContents
        rw [List.filter_cons_of_neg (by simpa using hr)]
      have hf : (msg :: rest).filter (fun m => m.role ≠ "system".toList) =
          msg :: rest.filter (fun m => m.role ≠ "system".toList) := by
        rw [List.filter_cons_of_pos (by simpa using hr)]
      rw [hsc, hf]
      simp

/-- C18, as the code has it: the `system` text of the Anthropic request body is
the newline-join of the contents of the system-role messages from the first
non-empty one on, and the body has a `system` field exactly when that text is
not empty; the `messages` list is the non-system messages in their original
order, none of them of role `system`. -/
theorem anthropicBody_system_and_messages (model : Str) (maxTokens : Nat)
    (msgs : List ChatMessage) :
    (anthropicBody model maxTokens msgs).system =
      (if jsJoin ['\n'] ((systemContents msgs).dropWhile fun c => c = []) ≠ [] then
        some (jsJoin ['\n'] ((systemContents msgs).dropWhile fun c => c = [])) else none) ∧
    (anthropicBody model maxTokens msgs).messages =
      msgs.filter (fun m => m.role ≠ "system".toList) ∧
    (∀ m ∈ (anthropicBody model maxTokens msgs).messages, m.role ≠ "system".toList) ∧
    ((∀ c ∈ systemContents msgs, c ≠ []) → systemContents msgs ≠ [] →
      (anthropicBody model maxTokens msgs).system = some (jsJoin ['\n'] (systemContents msgs))) := by
  have h := splitSystem_spec msgs [] []
  simp only [ne_eq, not_true_eq_false, if_false, List.nil_append] at h
  have h1 : (anthropicBody model maxTokens msgs).system =
      (if jsJoin ['\n'] ((systemContents msgs).dropWhile fun c => c = []) ≠ [] then
        some (jsJoin ['\n'] ((systemContents msgs).dropWhile fun c => c = [])) else none) := by
    simp only [anthropicBody, h]
  have h2 : (anthropicBody model maxTokens msgs).messages =
      msgs.filter (fun m => m.role ≠ "system".toList) := by
    simp only [anthropicBody, h]
  refine ⟨h1, h2, ?_, ?_⟩
  · intro m hm
    rw [h2] at hm
    simpa using (List.mem_filter.1 hm).2
  · intro hall hne
    rw [h1]
    cases hsc : systemContents msgs with
    | nil => exact absurd hsc hne
    | cons c cs =>
      have hc : c ≠ [] := hall c (by rw [hsc]; exact List.mem_cons_self _ _)
      have hd : (c :: cs).dropWhile (fun c => decide (c = [])) = c :: cs := by
        simp [List.dropWhile, hc]
      rw [hd]
      have : jsJoin ['\n'] (c :: cs) ≠ [] := by
        cases cs with
        | nil => simpa [jsJoin] using hc
        | cons t more => simp [jsJoin, hc]
      rw [if_pos this]

theorem anthropicBody_system_and_messages_witness :
    (anthropicBody "m".toList 1 [⟨"system".toList, "a".toList⟩, ⟨"user".toList, "u".toList⟩,
      ⟨"system".toList, "b".toList⟩]).system = some "a\nb".toList :=
  (anthropicBody_system_and_messages _ _ _).2.2.2 (by decide) (by decide)

/-- C18 fails as stated: with the system messages `""` and `"a"` the `system`
field is `a`, not the two contents joined with a newline; and without any
system message the body has no `system` field. -/
theorem anthropicBody_system_not_plain_join :
    (anthropicBody "m".toList 1 [⟨"system".toList, []⟩, ⟨"system".toList, "a".toList⟩]).system
      = some "a".toList ∧
    jsJoin ['\n'] (systemContents [⟨"system".toList, []⟩, ⟨"system".toList, "a".toList⟩])
      = "\na".toList ∧
    (anthropicBody "m".toList 1 [⟨"user".toList, "u".toList⟩]).system = none := by
  decide

/-- C19: on a successful response the text returned by
`callAnthropicTextModel` is the texts of the segments of type `text`, in list
order and with nothing between them; segments of another type contribute
nothing, and an absent `content` gives the empty string. -/
theorem anthropicText_concatenates_text_segments :
    anthropicText .absent = [] ∧
    anthropicText (.list []) = [] ∧
    (∀ (s : AnthropicSegment) (rest : List AnthropicSegment), s.type = "text".toList →
      anthropicText (.list (s :: rest)) = s.text.getD [] ++ anthropicText (.list rest)) ∧
    (∀ (s : AnthropicSegment) (rest : List AnthropicSegment), s.type ≠ "text".toList →
      anthropicText (.list (s :: rest)) = anthropicText (.list rest)) := by
  refine ⟨rfl, rfl, ?_, ?_⟩
  · intro s rest h
    show ((List.filter (fun c => decide (c.type = "text".toList)) (s :: rest)).map
      fun c => c.text.getD []).flatten = _
    rw [@List.filter_cons_of_pos _ (fun c : AnthropicSegment => decide (c.type = "text".toList))
      s rest (decide_eq_true h)]
    rfl
  · intro s rest h
    show ((List.filter (fun c => decide (c.type = "text".toList)) (s :: rest)).map
      fun c => c.text.getD []).flatten = _
    rw [@List.filter_cons_of_neg _ (fun c : AnthropicSegment => decide (c.type = "text".toList))
      s rest (fun hd => h (of_decide_eq_true hd))]
    rfl

theorem anthropicText_concatenates_text_segments_witness :
    anthropicText (.list [⟨"text".toList, some "ab".toList⟩, ⟨"tool_use".toList, none⟩,
      ⟨"text".toList, some "c".toList⟩]) = "abc".toList := by
  rw [anthropicText_concatenates_text_segments.2.2.1 _ _ rfl,
    anthropicText_concatenates_text_segments.2.2.2 _ _ (by decide),
    anthropicText_concatenates_text_segments.2.2.1 _ _ rfl,
    anthropicText_concatenates_text_segments.2.1]
  rfl

/-! ## HTTP errors of the request paths -/

theorem stripTrailingSlashes_spec (baseUrl : Str) :
    (∃ k, baseUrl = stripTrailingSlashes baseUrl ++ List.replicate k '/') ∧
    (stripTrailingSlashes baseUrl).getLast? ≠ some '/' := by
  unfold stripTrailingSlashes
  constructor
  · induction baseUrl using List.reverseRecOn with
    | nil => exact ⟨0, rfl⟩
    | append_singleton l a ih =>
      by_cases h : a = '/'
      · subst h
        obtain ⟨k, hk⟩ := ih
        rw [List.rdropWhile_concat_pos _ _ _ (by simp)]
        refine ⟨k + 1, ?_⟩
        nth_rewrite 1 [hk]
        rw [List.append_assoc]
        congr 1
        rw [← List.replicate_succ']
      · rw [List.rdropWhile_concat_neg _ _ _ (by simpa using h)]
        exact ⟨0, by simp⟩
  · intro hlast
    cases hnil : List.rdropWhile (fun x => x == '/') baseUrl with
    | nil => rw [hnil] at hlast; simp at hlast
    | cons x xs =>
      have hne : List.rdropWhile (fun x => x == '/') baseUrl ≠ [] := by rw [hnil]; simp
      have := List.rdropWhile_last_not (fun x => x == '/') baseUrl hne
      rw [List.getLast?_eq_getLast _ hne] at hlast
      simp only [Option.some.injEq] at hlast
      rw [hlast] at this
      simp at this

/-- C20: on each of the five request paths a non-success HTTP status makes the
call fail with a message that contains the status code in decimal, the raw
response text, and the URL that was requested: the base URL without its
trailing slashes followed by the endpoint suffix of the path. -/
theorem httpErrorMessage_contents (path : RequestPath) (baseUrl : Str) (status : Nat)
    (errText : Str) :
    Nat.toDigits 10 status <:+: httpErrorMessage path baseUrl status errText ∧
    errText <:+: httpErrorMessage path baseUrl status errText ∧
    requestUrl path baseUrl <:+: httpErrorMessage path baseUrl status errText ∧
    requestUrl .anthropicText baseUrl = stripTrailingSlashes baseUrl ++ "/v1/messages".toList ∧
    requestUrl .openAIText baseUrl = stripTrailingSlashes baseUrl ++ "/chat/completions".toList ∧
    requestUrl .dashScopeImage baseUrl = stripTrailingSlashes baseUrl ∧
    requestUrl .modelScopeImage baseUrl =
      stripTrailingSlashes baseUrl ++ "/v1/images/generations".toList ∧
    requestUrl .openAIImage baseUrl = stripTrailingSlashes baseUrl ++ "/images/generations".toList ∧
    (∃ k, baseUrl = stripTrailingSlashes baseUrl ++ List.replicate k '/') ∧
    (stripTrailingSlashes baseUrl).getLast? ≠ some '/' := by
  refine ⟨?_, ?_, ?_, rfl, rfl, rfl, rfl, rfl, (stripTrailingSlashes_spec baseUrl).1,
    (stripTrailingSlashes_spec baseUrl).2⟩
  · exact ⟨errorLabel path ++ " (".toList,
      "): ".toList ++ errText ++ "\n请求地址: ".toList ++ requestUrl path baseUrl,
      by simp [httpErrorMessage]⟩
  · exact ⟨errorLabel path ++ " (".toList ++ Nat.toDigits 10 status ++ "): ".toList,
      "\n请求地址: ".toList ++ requestUrl path baseUrl, by simp [httpErrorMessage]⟩
  · exact ⟨errorLabel path ++ " (".toList ++ Nat.toDigits 10 status ++ "): ".toList ++ errText ++
      "\n请求地址: ".toList, [], by simp [httpErrorMessage]⟩

/-! ## `trim` -/

theorem dropWhile_append_all {α : Type} (p : α → Bool) (w s : List α)
    (hw : ∀ x ∈ w, p x = true) : (w ++ s).dropWhile p = s.dropWhile p := by
  induction w with
  | nil => rfl
  | cons x w ih =>
    have hx : p x = true := hw x (List.mem_cons_self _ _)
    rw [List.cons_append, List.dropWhile_cons_of_pos hx]
    exact ih fun y hy => hw y (List.mem_cons_of_mem _ hy)

theorem dropWhile_append_of_exists {α : Type} (p : α → Bool) (s t : List α)
    (h : ∃ x ∈ s, p x = false) : (s ++ t).dropWhile p = s.dropWhile p ++ t := by
  induction s with
  | nil => obtain ⟨x, hx, _⟩ := h; cases hx
  | cons a s ih =>
    by_cases ha : p a = true
    · rw [List.cons_append, List.dropWhile_cons_of_pos ha, List.dropWhile_cons_of_pos ha]
      apply ih
      obtain ⟨x, hx, hpx⟩ := h
      rcases List.mem_cons.1 hx with rfl | hx
      · rw [ha] at hpx; cases hpx
      · exact ⟨x, hx, hpx⟩
    · rw [List.cons_append, List.dropWhile_cons_of_neg ha, List.dropWhile_cons_of_neg ha]
      rfl

theorem dropWhile_eq_nil_of_all {α : Type} (p : α → Bool) (s : List α)
    (h : ∀ x ∈ s, p x = true) : s.dropWhile p = [] := by
  have := dropWhile_append_all p s [] h
  simpa using this

theorem rdropWhile_append_all {α : Type} (p : α → Bool) (s w : List α)
    (hw : ∀ x ∈ w, p x = true) : (s ++ w).rdropWhile p = s.rdropWhile p := by
  unfold List.rdropWhile
  rw [List.reverse_append, dropWhile_append_all p _ _ (fun x hx => hw x (List.mem_reverse.1 hx))]

theorem rdropWhile_append_of_exists {α : Type} (p : α → Bool) (s t : List α)
    (h : ∃ x ∈ t, p x = false) : (s ++ t).rdropWhile p = s ++ t.rdropWhile p := by
  unfold List.rdropWhile
  rw [List.reverse_append, dropWhile_append_of_exists p _ _
    (by obtain ⟨x, hx, hpx⟩ := h; exact ⟨x, List.mem_reverse.2 hx, hpx⟩)]
  simp

theorem rdropWhile_is_pfx {α : Type} (p : α → Bool) (s : List α) : s.rdropWhile p <+: s :=
  List.rdropWhile_prefix p s

theorem trim_pad (w s w1 : Str) (hw : ∀ x ∈ w, isJsSpace x = true)
    (hw1 : ∀ x ∈ w1, isJsSpace x = true) : trim (w ++ s ++ w1) = trim s := by
  unfold trim
  rw [List.append_assoc, dropWhile_append_all _ _ _ hw]
  by_cases h : ∃ x ∈ s, isJsSpace x = false
  · rw [dropWhile_append_of_exists _ _ _ h, rdropWhile_append_all _ _ _ hw1]
  · have hall : ∀ x ∈ s, isJsSpace x = true := by
      intro x hx
      by_contra hc
      exact h ⟨x, hx, by simpa using hc⟩
    rw [dropWhile_eq_nil_of_all _ s hall, dropWhile_eq_nil_of_all _ (s ++ w1)]
    intro x hx
    rcases List.mem_append.1 hx with hx | hx
    · exact hall x hx
    · exact hw1 x hx

theorem trim_dropWhile (s : Str) : trim (s.dropWhile isJsSpace) = trim s := by
  unfold trim
  congr 1
  induction s with
  | nil => rfl
  | cons a s ih =>
    by_cases ha : isJsSpace a = true
    · rw [List.dropWhile_cons_of_pos ha]; exact ih
    · rw [List.dropWhile_cons_of_neg ha, List.dropWhile_cons_of_neg ha]

/-- A string whose first and last characters are not white space is its own trim. -/
theorem trim_eq_self (a : Char) (mid : Str) (b : Char) (ha : isJsSpace a = false)
    (hb : isJsSpace b = false) : trim (a :: mid ++ [b]) = a :: mid ++ [b] := by
  unfold trim
  rw [List.cons_append, List.dropWhile_cons_of_neg (by simp [ha]), ← List.cons_append,
    rdropWhile_append_of_exists _ _ _ ⟨b, List.mem_singleton_self b, hb⟩]
  simp [List.rdropWhile, hb]

theorem trim_singleton (a : Char) (ha : isJsSpace a = false) : trim [a] = [a] := by
  simp [trim, List.rdropWhile, ha]

/-! ## The fence expression -/

theorem lazyUntilFence_append (d x : Str) (hd : Char.ofNat 0x60 ∉ d) :
    lazyUntilFence (d ++ fence ++ x) = some d := by
  induction d with
  | nil => simp [lazyUntilFence, fence]
  | cons c d ih =>
    have hc : c ≠ Char.ofNat 0x60 := fun h => hd (h ▸ List.mem_cons_self _ _)
    have hd1 : Char.ofNat 0x60 ∉ d := fun h => hd (List.mem_cons_of_mem _ h)
    have hnp : fence.isPrefixOf (c :: (d ++ fence ++ x)) = false := by
      have hc1 : Char.ofNat 0x60 ≠ c := fun h => hc h.symm
      simp [fence, List.isPrefixOf, hc1]
    rw [List.cons_append, List.cons_append, lazyUntilFence, hnp, ih hd1]
    rfl

theorem spacesThenGroup_of_dropWhile (s cap : Str)
    (h : lazyUntilFence (s.dropWhile isJsSpace) = some cap) : spacesThenGroup s = some cap := by
  induction s with
  | nil => simpa [spacesThenGroup] using h
  | cons c s ih =>
    by_cases hc : isJsSpace c = true
    · rw [List.dropWhile_cons_of_pos hc] at h
      rw [spacesThenGroup, if_pos hc, ih h]
    · rw [List.dropWhile_cons_of_neg hc] at h
      rw [spacesThenGroup, if_neg hc, h]

/-- The fence expression on a text that starts with a fence, the tag, white
space and a document without backticks, followed by a closing fence: the group
is the document from its first character that is not white space on, with the
white space before the closing fence. -/
theorem fenceMatch_fenced (tag w2 doc w3 rest : Str) (hdoc : Char.ofNat 0x60 ∉ doc)
    (hw2 : ∀ x ∈ w2, isJsSpace x = true) (hw3 : ∀ x ∈ w3, isJsSpace x = true) :
    ∃ cap, fenceMatch tag (fence ++ tag ++ w2 ++ doc ++ w3 ++ fence ++ rest) = some cap ∧
      trim cap = trim doc := by
  have hnb : ∀ x, isJsSpace x = true → x ≠ Char.ofNat 0x60 := by
    intro x hx h
    subst h
    simp [isJsSpace] at hx
  have key : spacesThenGroup (w2 ++ doc ++ w3 ++ fence ++ rest) =
      some ((doc ++ w3).dropWhile isJsSpace) := by
    apply spacesThenGroup_of_dropWhile
    have e : w2 ++ doc ++ w3 ++ fence ++ rest = w2 ++ ((doc ++ w3) ++ fence ++ rest) := by simp
    rw [e, dropWhile_append_all _ _ _ hw2]
    obtain ⟨sfx, hsfx⟩ : ∃ pre, pre ++ (doc ++ w3).dropWhile isJsSpace = doc ++ w3 :=
      List.dropWhile_suffix _
    have hnot : Char.ofNat 0x60 ∉ (doc ++ w3).dropWhile isJsSpace := by
      intro hm
      have : Char.ofNat 0x60 ∈ doc ++ w3 := by rw [← hsfx]; exact List.mem_append_right _ hm
      rcases List.mem_append.1 this with h | h
      · exact hdoc h
      · exact hnb _ (hw3 _ h) rfl
    by_cases hex : ∃ x ∈ doc ++ w3, isJsSpace x = false
    · rw [List.append_assoc (doc ++ w3), dropWhile_append_of_exists _ _ _ hex,
        ← List.append_assoc]
      exact lazyUntilFence_append _ _ hnot
    · have hall : ∀ x ∈ doc ++ w3, isJsSpace x = true := by
        intro x hx
        by_contra hc
        exact hex ⟨x, hx, by simpa using hc⟩
      rw [List.append_assoc (doc ++ w3), dropWhile_append_all _ _ _ hall,
        dropWhile_eq_nil_of_all _ _ hall]
      have : List.dropWhile isJsSpace (fence ++ rest) = [] ++ fence ++ rest := by
        simp [fence, List.dropWhile, isJsSpace]
      rw [this]
      exact lazyUntilFence_append [] rest (by simp)
  refine ⟨(doc ++ w3).dropWhile isJsSpace, ?_, ?_⟩
  · have e : fence ++ tag ++ w2 ++ doc ++ w3 ++ fence ++ rest =
        Char.ofNat 0x60 :: (Char.ofNat 0x60 :: Char.ofNat 0x60 ::
          (tag ++ (w2 ++ doc ++ w3 ++ fence ++ rest))) := by
      simp [fence]
    rw [e, fenceMatch]
    have hat : fenceAt tag (Char.ofNat 0x60 :: (Char.ofNat 0x60 :: Char.ofNat 0x60 ::
        (tag ++ (w2 ++ doc ++ w3 ++ fence ++ rest)))) =
        some ((doc ++ w3).dropWhile isJsSpace) := by
      unfold fenceAt
      have hp : fence.isPrefixOf (Char.ofNat 0x60 :: (Char.ofNat 0x60 :: Char.ofNat 0x60 ::
          (tag ++ (w2 ++ doc ++ w3 ++ fence ++ rest)))) = true := by
        simp [fence, List.isPrefixOf]
      rw [if_pos hp]
      simp only [List.drop_succ_cons, List.drop_zero]
      have ht : tag.isPrefixOf (tag ++ (w2 ++ doc ++ w3 ++ fence ++ rest)) = true := by
        rw [List.isPrefixOf_iff_prefix]
        exact List.prefix_append _ _
      rw [if_pos ht, List.drop_left, key]
    rw [hat]
  · rw [trim_dropWhile]
    have := trim_pad [] doc w3 (by simp) hw3
    simpa using this

theorem extractHtml_plain (answer : Str)
    (h : fenceMatch ['h', 't', 'm', 'l'] (trim answer) = none) :
    extractHtml answer = trim answer := by
  unfold extractHtml
  rw [h]

theorem extractHtml_fenced (w1 w2 doc w3 w4 : Str) (hdoc : Char.ofNat 0x60 ∉ doc)
    (hw1 : ∀ x ∈ w1, isJsSpace x = true) (hw2 : ∀ x ∈ w2, isJsSpace x = true)
    (hw3 : ∀ x ∈ w3, isJsSpace x = true) (hw4 : ∀ x ∈ w4, isJsSpace x = true) :
    extractHtml (w1 ++ (fence ++ ['h', 't', 'm', 'l'] ++ w2 ++ doc ++ w3 ++ fence) ++ w4) =
      trim doc := by
  have ht : trim (w1 ++ (fence ++ ['h', 't', 'm', 'l'] ++ w2 ++ doc ++ w3 ++ fence) ++ w4) =
      fence ++ ['h', 't', 'm', 'l'] ++ w2 ++ doc ++ w3 ++ fence ++ [] := by
    rw [trim_pad _ _ _ hw1 hw4]
    have e : fence ++ ['h', 't', 'm', 'l'] ++ w2 ++ doc ++ w3 ++ fence =
        Char.ofNat 0x60 :: ([Char.ofNat 0x60, Char.ofNat 0x60] ++ ['h', 't', 'm', 'l'] ++ w2 ++
          doc ++ w3 ++ [Char.ofNat 0x60, Char.ofNat 0x60]) ++ [Char.ofNat 0x60] := by
      simp [fence]
    rw [List.append_nil, e]
    exact trim_eq_self _ _ _ (by decide) (by decide)
  obtain ⟨cap, hcap, htrim⟩ := fenceMatch_fenced ['h', 't', 'm', 'l'] w2 doc w3 [] hdoc hw2 hw3
  unfold extractHtml
  rw [ht, hcap]
  exact htrim

/-! ## `generatePageImage` -/

/-- C10: with a configured image model whose gateway call throws or returns no
image, `generatePageImage` does not raise the failure: when the text model
answers and the file can be written it returns the artifact with method
`html_generation`, the HTML taken from the answer and the URL
`/generated/page_{sessionId}_{pageIndex}.html`.  The HTML is the trimmed answer
when the answer has no code fence, and the trimmed document when the answer is
a document without backticks inside a fence tagged `html`. -/
theorem generatePageImage_image_failure_falls_back (W : World) (req : PageRequest)
    (answer : Str)
    (hkey : truthy req.imageModelConfig.apiKey = true)
    (hurl : truthy req.imageModelConfig.baseUrl = true)
    (hfail : (∃ e, W.callImageModel (imageCallOf req) = .error e) ∨
      W.callImageModel (imageCallOf req) = .ok none ∨
      W.callImageModel (imageCallOf req) = .ok (some []))
    (htext : W.callTextModel (htmlCallOf req) = .ok answer)
    (hwrite : W.writeFileSync (artifactFilename req ".html") = true) :
    generatePageImage W req =
        .ok ⟨"/generated/page_".toList ++ req.sessionId ++ "_".toList ++
              intToStr req.pageIndex ++ ".html".toList,
            some (extractHtml answer), .html_generation⟩ ∧
      (fenceMatch ['h', 't', 'm', 'l'] (trim answer) = none → extractHtml answer = trim answer) ∧
      (∀ w1 w2 doc w3 w4 : Str, Char.ofNat 0x60 ∉ doc →
        (∀ x ∈ w1 ++ w2 ++ w3 ++ w4, isJsSpace x = true) →
        answer = w1 ++ (fence ++ ['h', 't', 'm', 'l'] ++ w2 ++ doc ++ w3 ++ fence) ++ w4 →
        extractHtml answer = trim doc) := by
  have hfb : htmlFallback W req =
      .ok ⟨"/generated/page_".toList ++ req.sessionId ++ "_".toList ++
              intToStr req.pageIndex ++ ".html".toList,
            some (extractHtml answer), .html_generation⟩ := by
    unfold htmlFallback
    rw [htext]
    simp only [hwrite, if_true]
    simp [artifactFilename]
  refine ⟨?_, extractHtml_plain answer, ?_⟩
  · unfold generatePageImage
    rw [hkey, hurl]
    simp only [Bool.and_self, if_true]
    rcases hfail with ⟨e, he⟩ | he | he
    · rw [he]; exact hfb
    · rw [he]; exact hfb
    · rw [he]; exact hfb
  · intro w1 w2 doc w3 w4 hdoc hw hans
    rw [hans]
    apply extractHtml_fenced _ _ _ _ _ hdoc <;> intro x hx <;> apply hw x <;> simp [hx]

theorem generatePageImage_image_failure_falls_back_witness :
    generatePageImage failingImageWorld sampleRequest =
      .ok ⟨"/generated/page_".toList ++ "s1".toList ++ "_".toList ++ intToStr 2 ++ ".html".toList,
        some (extractHtml (fence ++ "html\n<html>slide</html>\n".toList ++ fence)),
        .html_generation⟩ :=
  (generatePageImage_image_failure_falls_back failingImageWorld sampleRequest
    (fence ++ "html\n<html>slide</html>\n".toList ++ fence) rfl rfl (Or.inl ⟨_, rfl⟩) rfl rfl).1

/-- C11: when the image gateway returns a non-empty list, only its first
element decides: an inline base64 image that is written gives the local `.png`
URL; a remote URL that is downloaded and written gives the same local URL; a
remote URL whose download throws or answers with a non-success status gives the
remote URL itself; all with method `image_model`. -/
theorem generatePageImage_first_image (W : World) (req : PageRequest) (first : ImageResult)
    (rest : List ImageResult)
    (hkey : truthy req.imageModelConfig.apiKey = true)
    (hurl : truthy req.imageModelConfig.baseUrl = true)
    (hcall : W.callImageModel (imageCallOf req) = .ok (some (first :: rest))) :
    (truthy first.b64_json = true → W.writeFileSync (artifactFilename req ".png") = true →
      generatePageImage W req =
        .ok ⟨"/generated/page_".toList ++ req.sessionId ++ "_".toList ++
          intToStr req.pageIndex ++ ".png".toList, none, .image_model⟩) ∧
    (truthy first.b64_json = false → ∀ u, first.url = some u → u ≠ [] →
      W.fetchImage u = .ok → W.writeFileSync (artifactFilename req ".png") = true →
      generatePageImage W req =
        .ok ⟨"/generated/page_".toList ++ req.sessionId ++ "_".toList ++
          intToStr req.pageIndex ++ ".png".toList, none, .image_model⟩) ∧
    (truthy first.b64_json = false → ∀ u, first.url = some u → u ≠ [] →
      (W.fetchImage u = .throws ∨ W.fetchImage u = .notOk) →
      generatePageImage W req = .ok ⟨u, none, .image_model⟩) := by
  have hu : ∀ u : Str, u ≠ [] → truthy (some u) = true := by
    intro u hne
    cases u with
    | nil => exact absurd rfl hne
    | cons c cs => rfl
  refine ⟨?_, ?_, ?_⟩
  · intro hb hw
    unfold generatePageImage
    rw [hkey, hurl, hcall]
    simp only [Bool.and_self, if_true, hb, hw]
    simp [artifactFilename]
  · intro hb u hfu hne hf hw
    unfold generatePageImage
    rw [hkey, hurl, hcall]
    simp only [Bool.and_self, if_true, hb, hfu, hu u hne, Option.getD, hf, hw]
    simp [artifactFilename]
  · intro hb u hfu hne hf
    unfold generatePageImage
    rw [hkey, hurl, hcall]
    rcases hf with hf | hf <;> simp [hb, hfu, hu u hne, hf]

theorem generatePageImage_first_image_witness :
    generatePageImage remoteUrlWorld sampleRequest =
      .ok ⟨"http://x/y.png".toList, none, .image_model⟩ :=
  (generatePageImage_first_image remoteUrlWorld sampleRequest
    ⟨some "http://x/y.png".toList, none⟩ [] rfl rfl rfl).2.2 rfl _ rfl (by decide) (Or.inr rfl)

/-- C12 (the code at the failing input): the `generate-page` handler does not
read `ratio` from the request body, so for a body with ratio 4:3 and a
configured image model the image gateway is called with size `16:9` and the
HTML fallback states 1280x720, whereas the `regenerate-page` handler passes the
ratio on: size `4:3` and 1024x768. -/
theorem generatePage_drops_ratio :
    sampleBody.ratio = some "4:3".toList ∧
    (imageCallOf (generatePageArgs sampleBody "0".toList)).size = "16:9".toList ∧
    (htmlCallOf (generatePageArgs sampleBody "0".toList)).dims = ⟨some 1280, some 720⟩ ∧
    (imageCallOf (regeneratePageArgs sampleBody "0".toList)).size = "4:3".toList ∧
    (htmlCallOf (regeneratePageArgs sampleBody "0".toList)).dims = ⟨some 1024, some 768⟩ := by
  decide

/-- The `regenerate-page` handler passes the ratio of the body on, and the
`generate-page` handler never does. -/
theorem handlers_ratio (body : PageBody) (now : Str) :
    (regeneratePageArgs body now).ratio = body.ratio ∧
    (generatePageArgs body now).ratio = none ∧
    (imageCallOf (generatePageArgs body now)).size = "16:9".toList ∧
    (∀ r, body.ratio = some r → r ≠ [] →
      (imageCallOf (regeneratePageArgs body now)).size = r ∧
      (htmlCallOf (regeneratePageArgs body now)).dims = getDimensions (some r)) := by
  refine ⟨rfl, rfl, rfl, ?_⟩
  intro r hr hne
  cases r with
  | nil => exact absurd rfl hne
  | cons c cs => simp [imageCallOf, htmlCallOf, regeneratePageArgs, hr, ratioOrDefault, truthy]

/-! ## Runs of the scanner and of the JSON reader over concatenations -/

theorem scanLoop_append (a b : Str) (i : Nat) (st : ScanState) :
    scanLoop i st (a ++ b) = scanLoop (i + a.length) (scanLoop i st a) b := by
  induction a generalizing i st with
  | nil => simp [scanLoop]
  | cons c a ih =>
    show scanLoop (i + 1) (scanStep i st c) (a ++ b) =
      scanLoop (i + (a.length + 1)) (scanLoop (i + 1) (scanStep i st c) a) b
    rw [ih]
    congr 1
    omega

theorem jrun_append (st : JState) (a b : Str) :
    jrun st (a ++ b) = (jrun st a).bind fun st1 => jrun st1 b := by
  induction a generalizing st with
  | nil => simp [jrun]
  | cons c a ih =>
    simp only [List.cons_append, jrun]
    cases h : jstep st c with
    | none => simp
    | some st1 => simp [ih]

theorem jrun_append_some {st st1 st2 : JState} {a b : Str}
    (h1 : jrun st a = some st1) (h2 : jrun st1 b = some st2) :
    jrun st (a ++ b) = some st2 := by
  rw [jrun_append, h1]; simpa using h2

theorem jrun_append_inv {st st2 : JState} {a b : Str}
    (h : jrun st (a ++ b) = some st2) :
    ∃ st1, jrun st a = some st1 ∧ jrun st1 b = some st2 := by
  rw [jrun_append] at h
  cases h1 : jrun st a with
  | none => simp [h1] at h
  | some st1 => exact ⟨st1, rfl, by simpa [h1] using h⟩

theorem jrun_cons_inv {st st2 : JState} {c : Char} {b : Str}
    (h : jrun st (c :: b) = some st2) :
    ∃ st1, jstep st c = some st1 ∧ jrun st1 b = some st2 := by
  rw [jrun] at h
  cases h1 : jstep st c with
  | none => simp [h1] at h
  | some st1 => exact ⟨st1, rfl, by simpa [h1] using h⟩

theorem jstep_inv {st st1 : JState} {c : Char} (h : jstep st c = some st1) :
    ∃ toks, lexStep st.lex c = some (st1.lex, toks) ∧ feed st.par toks = some st1.par := by
  unfold jstep at h
  cases hl : lexStep st.lex c with
  | none => simp [hl] at h
  | some r =>
    obtain ⟨ls, toks⟩ := r
    simp only [hl] at h
    cases hf : feed st.par toks with
    | none => simp [hf] at h
    | some ps =>
      simp only [hf, Option.some.injEq] at h
      subst h
      exact ⟨toks, rfl, hf⟩

/-! ## The frame property: a run is not affected by enclosing frames -/

theorem pstep_lift (K : List Frame) {ps ps1 : PState} {t : Token}
    (h : pstep ps t = some ps1) : pstep (ps.lift K) t = some (ps1.lift K) := by
  obtain ⟨mode, stack⟩ := ps
  cases mode <;> cases t <;> rcases stack with _ | ⟨⟨_⟩ | ⟨_, _⟩, rest⟩ <;>
    simp_all [pstep, PState.lift, startValue, readKey, afterValue] <;>
    (try subst h) <;> simp

theorem feed_lift (K : List Frame) {ps ps1 : PState} {toks : List Token}
    (h : feed ps toks = some ps1) : feed (ps.lift K) toks = some (ps1.lift K) := by
  induction toks generalizing ps with
  | nil => simp only [feed, Option.some.injEq] at h; subst h; rfl
  | cons t ts ih =>
    rw [feed] at h
    cases hp : pstep ps t with
    | none => simp [hp] at h
    | some ps2 =>
      simp only [hp] at h
      rw [feed, pstep_lift K hp]
      exact ih h

theorem jstep_lift (K : List Frame) {st st1 : JState} {c : Char}
    (h : jstep st c = some st1) : jstep (st.lift K) c = some (st1.lift K) := by
  obtain ⟨toks, hl, hf⟩ := jstep_inv h
  unfold jstep
  simp only [JState.lift, hl, feed_lift K hf]

theorem jrun_lift (K : List Frame) {st st1 : JState} {s : Str}
    (h : jrun st s = some st1) : jrun (st.lift K) s = some (st1.lift K) := by
  induction s generalizing st with
  | nil => simp only [jrun, Option.some.injEq] at h; subst h; rfl
  | cons c s ih =>
    obtain ⟨st2, h1, h2⟩ := jrun_cons_inv h
    rw [jrun, jstep_lift K h1]
    exact ih h2

/-! ## Reading a value just after `[` and the end of the input -/

theorem feed_arrOpen {S : List Frame} {toks : List Token} {ps : PState}
    (h : feed ⟨.value, S⟩ toks = some ps) (hne : toks ≠ []) :
    feed ⟨.arrOpen, S⟩ toks = some ps := by
  cases toks with
  | nil => exact absurd rfl hne
  | cons t ts =>
    rw [feed] at h ⊢
    cases hp : pstep ⟨.value, S⟩ t with
    | none => simp [hp] at h
    | some ps2 =>
      have : pstep ⟨.arrOpen, S⟩ t = some ps2 := by
        cases t <;> rcases S with _ | ⟨⟨_⟩ | ⟨_, _⟩, rest⟩ <;>
          simp_all [pstep, startValue]
      rw [this]
      simpa [hp] using h

theorem jrun_arrOpen {ls ls1 : LexState} {S S1 : List Frame} {s : Str} {v : JSONValue}
    (h : jrun ⟨ls, ⟨.value, S⟩⟩ s = some ⟨ls1, ⟨.done v, S1⟩⟩) :
    jrun ⟨ls, ⟨.arrOpen, S⟩⟩ s = some ⟨ls1, ⟨.done v, S1⟩⟩ := by
  induction s generalizing ls with
  | nil => simp [jrun] at h
  | cons c s ih =>
    obtain ⟨st2, h1, h2⟩ := jrun_cons_inv h
    obtain ⟨toks, hl, hf⟩ := jstep_inv h1
    simp only at hl hf
    cases toks with
    | nil =>
      simp only [feed, Option.some.injEq] at hf
      have hst2 : st2 = ⟨st2.lex, ⟨.value, S⟩⟩ := by
        cases st2; simp only at hf; subst hf; rfl
      rw [hst2] at h2
      rw [jrun]
      simp only [jstep, hl, feed]
      exact ih h2
    | cons t ts =>
      have := feed_arrOpen hf (List.cons_ne_nil _ _)
      rw [jrun]
      simp only [jstep, hl, this]
      cases st2
      exact h2

theorem parseJSON_obj_inv {e : Str} {ms : List (Str × JSONValue)}
    (h : parseJSON e = some (.obj ms)) :
    jrun JState.init e = some ⟨.idle, ⟨.done (.obj ms), []⟩⟩ := by
  unfold parseJSON at h
  cases hr : jrun JState.init e with
  | none => simp [hr] at h
  | some st =>
    simp only [hr] at h
    obtain ⟨ls, mode, stack⟩ := st
    unfold jfinish at h
    cases ls with
    | idle =>
      simp only [lexFinish, feed] at h
      cases mode <;> cases stack <;> simp_all
    | number ns acc =>
      cases ns <;> simp only [lexFinish] at h <;> try (simp at h)
      all_goals
        cases mode <;> rcases stack with _ | ⟨⟨_⟩ | ⟨_, _⟩, rest⟩ <;>
          simp [feed, pstep, startValue, readKey, afterValue] at h
    | str acc => simp [lexFinish] at h
    | esc acc => simp [lexFinish] at h
    | uni k acc => simp [lexFinish] at h
    | lit r t => simp [lexFinish] at h

theorem parseJSON_of_jrun {e : Str} {v : JSONValue}
    (h : jrun JState.init e = some ⟨.idle, ⟨.done v, []⟩⟩) : parseJSON e = some v := by
  unfold parseJSON
  rw [h]
  rfl

/-! ## The scanner and the reader move together -/

theorem pstep_frames {ps ps1 : PState} {t : Token} (h : pstep ps t = some ps1) :
    (objFrames ps1.stack : Int) = objFrames ps.stack + t.braceDelta ∧
    (arrFrames ps1.stack : Int) = arrFrames ps.stack + t.bracketDelta := by
  obtain ⟨mode, stack⟩ := ps
  cases mode <;> cases t <;> rcases stack with _ | ⟨⟨_⟩ | ⟨_, _⟩, rest⟩ <;>
    simp_all [pstep, startValue, readKey, afterValue] <;>
    (try subst h) <;> simp [objFrames, arrFrames, Token.braceDelta, Token.bracketDelta]

theorem feed_frames {ps ps1 : PState} {toks : List Token} (h : feed ps toks = some ps1) :
    (objFrames ps1.stack : Int) = objFrames ps.stack + (toks.map Token.braceDelta).sum ∧
    (arrFrames ps1.stack : Int) = arrFrames ps.stack + (toks.map Token.bracketDelta).sum := by
  induction toks generalizing ps with
  | nil => simp only [feed, Option.some.injEq] at h; subst h; simp
  | cons t ts ih =>
    rw [feed] at h
    cases hp : pstep ps t with
    | none => simp [hp] at h
    | some ps2 =>
      simp only [hp] at h
      obtain ⟨h1, h2⟩ := pstep_frames hp
      obtain ⟨h3, h4⟩ := ih h
      simp only [List.map_cons, List.sum_cons]
      constructor <;> omega

theorem lexIdle_spec {c : Char} {ls1 : LexState} {toks : List Token}
    (h : lexIdle c = some (ls1, toks)) :
    c ≠ '\\' ∧ ls1.ok = true ∧ ls1.escaped = false ∧ ls1.inString = decide (c = '"') ∧
      (toks.map Token.braceDelta).sum = charBrace c ∧
      (toks.map Token.bracketDelta).sum = charBracket c := by
  unfold lexIdle at h
  by_cases h0 : isJsonWs c = true
  · rw [if_pos h0] at h
    cases h
    have : c = ' ' ∨ c = '\t' ∨ c = '\n' ∨ c = '\r' := by
      simpa [isJsonWs, or_assoc] using h0
    rcases this with rfl | rfl | rfl | rfl <;> decide
  rw [if_neg h0] at h
  by_cases h1 : c = '['
  · rw [if_pos h1] at h
    cases h
    subst h1
    decide
  rw [if_neg h1] at h
  by_cases h2 : c = ']'
  · rw [if_pos h2] at h
    cases h
    subst h2
    decide
  rw [if_neg h2] at h
  by_cases h3 : c = '{'
  · rw [if_pos h3] at h
    cases h
    subst h3
    decide
  rw [if_neg h3] at h
  by_cases h4 : c = '}'
  · rw [if_pos h4] at h
    cases h
    subst h4
    decide
  rw [if_neg h4] at h
  by_cases h5 : c = ','
  · rw [if_pos h5] at h
    cases h
    subst h5
    decide
  rw [if_neg h5] at h
  by_cases h6 : c = ':'
  · rw [if_pos h6] at h
    cases h
    subst h6
    decide
  rw [if_neg h6] at h
  by_cases h7 : c = '"'
  · rw [if_pos h7] at h
    cases h
    subst h7
    decide
  rw [if_neg h7] at h
  by_cases h8 : c = 't'
  · rw [if_pos h8] at h
    cases h
    subst h8
    decide
  rw [if_neg h8] at h
  by_cases h9 : c = 'f'
  · rw [if_pos h9] at h
    cases h
    subst h9
    decide
  rw [if_neg h9] at h
  by_cases h10 : c = 'n'
  · rw [if_pos h10] at h
    cases h
    subst h10
    decide
  rw [if_neg h10] at h
  by_cases h11 : c = '-'
  · rw [if_pos h11] at h
    cases h
    subst h11
    decide
  rw [if_neg h11] at h
  by_cases h12 : c = '0'
  · rw [if_pos h12] at h
    cases h
    subst h12
    decide
  rw [if_neg h12] at h
  by_cases hd : isDigit c = true
  · rw [if_pos hd] at h
    cases h
    have hr : 0x30 ≤ c.toNat ∧ c.toNat ≤ 0x39 := by simpa [isDigit] using hd
    have e1 : c ≠ '\\' := by rintro rfl; revert hr; decide
    refine ⟨e1, rfl, rfl, ?_, ?_, ?_⟩
    · simp [LexState.inString, h7]
    · simp [charBrace, h3, h4, Token.braceDelta]
    · simp [charBracket, h1, h2, Token.bracketDelta]
  · rw [if_neg hd] at h
    cases h

theorem plain_char_step {c : Char} {ls1 : LexState} {toks : List Token}
    (hc : c ≠ '"' ∧ c ≠ '\\' ∧ c ≠ '[' ∧ c ≠ ']' ∧ c ≠ '{' ∧ c ≠ '}')
    (hok : ls1.ok = true) (hs : ls1.inString = false) (he : ls1.escaped = false)
    (hb : (toks.map Token.braceDelta).sum = 0) (ha : (toks.map Token.bracketDelta).sum = 0) :
    c ≠ '\\' ∧ ls1.ok = true ∧ ls1.escaped = false ∧ ls1.inString = decide (c = '"') ∧
      (toks.map Token.braceDelta).sum = charBrace c ∧
      (toks.map Token.bracketDelta).sum = charBracket c := by
  obtain ⟨h1, h2, h3, h4, h5, h6⟩ := hc
  refine ⟨h2, hok, he, ?_, ?_, ?_⟩
  · simp [hs, h1]
  · simp [hb, charBrace, h5, h6]
  · simp [ha, charBracket, h3, h4]

theorem digit_plain {c : Char} (h : isDigit c = true) :
    c ≠ '"' ∧ c ≠ '\\' ∧ c ≠ '[' ∧ c ≠ ']' ∧ c ≠ '{' ∧ c ≠ '}' := by
  have hr : 0x30 ≤ c.toNat ∧ c.toNat ≤ 0x39 := by simpa [isDigit] using h
  refine ⟨?_, ?_, ?_, ?_, ?_, ?_⟩ <;> (rintro rfl; revert hr; decide)

theorem letter_plain {c : Char} (h : isLowerLetter c = true) :
    c ≠ '"' ∧ c ≠ '\\' ∧ c ≠ '[' ∧ c ≠ ']' ∧ c ≠ '{' ∧ c ≠ '}' := by
  have hr : 0x61 ≤ c.toNat ∧ c.toNat ≤ 0x7A := by simpa [isLowerLetter] using h
  refine ⟨?_, ?_, ?_, ?_, ?_, ?_⟩ <;> (rintro rfl; revert hr; decide)

theorem lexNumberEnd_spec {acc : Str} {c : Char} {ls1 : LexState} {toks : List Token}
    (h : lexNumberEnd acc c = some (ls1, toks)) :
    c ≠ '\\' ∧ ls1.ok = true ∧ ls1.escaped = false ∧ ls1.inString = decide (c = '"') ∧
      (toks.map Token.braceDelta).sum = charBrace c ∧
      (toks.map Token.bracketDelta).sum = charBracket c := by
  unfold lexNumberEnd at h
  cases hi : lexIdle c with
  | none => simp [hi] at h
  | some r =>
    obtain ⟨ls, toks1⟩ := r
    simp only [hi, Option.some.injEq, Prod.mk.injEq] at h
    obtain ⟨rfl, rfl⟩ := h
    obtain ⟨h1, h2, h3, h4, h5, h6⟩ := lexIdle_spec hi
    refine ⟨h1, h2, h3, h4, ?_, ?_⟩
    · simpa [Token.braceDelta] using h5
    · simpa [Token.bracketDelta] using h6

theorem lexNumber_spec {ns : NumState} {acc : Str} {c : Char} {ls1 : LexState}
    {toks : List Token} (h : lexNumber ns acc c = some (ls1, toks)) :
    c ≠ '\\' ∧ ls1.ok = true ∧ ls1.escaped = false ∧ ls1.inString = decide (c = '"') ∧
      (toks.map Token.braceDelta).sum = charBrace c ∧
      (toks.map Token.bracketDelta).sum = charBracket c := by
  have plain : ∀ (ns1 : NumState), c ≠ '"' ∧ c ≠ '\\' ∧ c ≠ '[' ∧ c ≠ ']' ∧ c ≠ '{' ∧ c ≠ '}' →
      (ls1, toks) = (LexState.number ns1 (acc ++ [c]), []) →
      c ≠ '\\' ∧ ls1.ok = true ∧ ls1.escaped = false ∧ ls1.inString = decide (c = '"') ∧
      (toks.map Token.braceDelta).sum = charBrace c ∧
      (toks.map Token.bracketDelta).sum = charBracket c := by
    intro ns1 hc he
    cases he
    exact plain_char_step hc rfl rfl rfl rfl rfl
  have p0 : c = '0' → c ≠ '"' ∧ c ≠ '\\' ∧ c ≠ '[' ∧ c ≠ ']' ∧ c ≠ '{' ∧ c ≠ '}' := by
    rintro rfl; decide
  have pdot : c = '.' → c ≠ '"' ∧ c ≠ '\\' ∧ c ≠ '[' ∧ c ≠ ']' ∧ c ≠ '{' ∧ c ≠ '}' := by
    rintro rfl; decide
  have pe : c = 'e' ∨ c = 'E' → c ≠ '"' ∧ c ≠ '\\' ∧ c ≠ '[' ∧ c ≠ ']' ∧ c ≠ '{' ∧ c ≠ '}' := by
    rintro (rfl | rfl) <;> decide
  have ps : c = '+' ∨ c = '-' → c ≠ '"' ∧ c ≠ '\\' ∧ c ≠ '[' ∧ c ≠ ']' ∧ c ≠ '{' ∧ c ≠ '}' := by
    rintro (rfl | rfl) <;> decide
  cases ns <;> simp only [lexNumber] at h
  · by_cases h1 : c = '0'
    · rw [if_pos h1] at h; exact plain _ (p0 h1) (Option.some.inj h).symm
    · rw [if_neg h1] at h
      by_cases h2 : isDigit c = true
      · rw [if_pos h2] at h; exact plain _ (digit_plain h2) (Option.some.inj h).symm
      · rw [if_neg h2] at h; cases h
  · by_cases h1 : c = '.'
    · rw [if_pos h1] at h; exact plain _ (pdot h1) (Option.some.inj h).symm
    · rw [if_neg h1] at h
      by_cases h2 : c = 'e' ∨ c = 'E'
      · rw [if_pos h2] at h; exact plain _ (pe h2) (Option.some.inj h).symm
      · rw [if_neg h2] at h; exact lexNumberEnd_spec h
  · by_cases h0 : isDigit c = true
    · rw [if_pos h0] at h; exact plain _ (digit_plain h0) (Option.some.inj h).symm
    · rw [if_neg h0] at h
      by_cases h1 : c = '.'
      · rw [if_pos h1] at h; exact plain _ (pdot h1) (Option.some.inj h).symm
      · rw [if_neg h1] at h
        by_cases h2 : c = 'e' ∨ c = 'E'
        · rw [if_pos h2] at h; exact plain _ (pe h2) (Option.some.inj h).symm
        · rw [if_neg h2] at h; exact lexNumberEnd_spec h
  · by_cases h0 : isDigit c = true
    · rw [if_pos h0] at h; exact plain _ (digit_plain h0) (Option.some.inj h).symm
    · rw [if_neg h0] at h; cases h
  · by_cases h0 : isDigit c = true
    · rw [if_pos h0] at h; exact plain _ (digit_plain h0) (Option.some.inj h).symm
    · rw [if_neg h0] at h
      by_cases h2 : c = 'e' ∨ c = 'E'
      · rw [if_pos h2] at h; exact plain _ (pe h2) (Option.some.inj h).symm
      · rw [if_neg h2] at h; exact lexNumberEnd_spec h
  · by_cases h1 : c = '+' ∨ c = '-'
    · rw [if_pos h1] at h; exact plain _ (ps h1) (Option.some.inj h).symm
    · rw [if_neg h1] at h
      by_cases h2 : isDigit c = true
      · rw [if_pos h2] at h; exact plain _ (digit_plain h2) (Option.some.inj h).symm
      · rw [if_neg h2] at h; cases h
  · by_cases h0 : isDigit c = true
    · rw [if_pos h0] at h; exact plain _ (digit_plain h0) (Option.some.inj h).symm
    · rw [if_neg h0] at h; cases h
  · by_cases h0 : isDigit c = true
    · rw [if_pos h0] at h; exact plain _ (digit_plain h0) (Option.some.inj h).symm
    · rw [if_neg h0] at h; exact lexNumberEnd_spec h

theorem lexStep_clean {ls ls1 : LexState} {c : Char} {toks : List Token}
    (hok : ls.ok = true) (hs : ls.inString = false) (h : lexStep ls c = some (ls1, toks)) :
    c ≠ '\\' ∧ ls1.ok = true ∧ ls1.escaped = false ∧ ls1.inString = decide (c = '"') ∧
      (toks.map Token.braceDelta).sum = charBrace c ∧
      (toks.map Token.bracketDelta).sum = charBracket c := by
  cases ls with
  | idle => exact lexIdle_spec h
  | str acc => simp [LexState.inString] at hs
  | esc acc => simp [LexState.inString] at hs
  | uni k acc => simp [LexState.inString] at hs
  | number ns acc => exact lexNumber_spec h
  | lit rest tok =>
    simp only [LexState.ok, Bool.and_eq_true] at hok
    obtain ⟨hall, htok⟩ := hok
    cases rest with
    | nil => simp [lexStep] at h
    | cons x more =>
      simp only [lexStep] at h
      by_cases hcx : c = x
      · rw [if_pos hcx] at h
        subst hcx
        have hx : isLowerLetter c = true := by
          simp only [List.all_cons, Bool.and_eq_true] at hall
          exact hall.1
        have hmore : more.all isLowerLetter = true := by
          simp only [List.all_cons, Bool.and_eq_true] at hall
          exact hall.2
        have hzero : (Token.braceDelta tok = 0) ∧ (Token.bracketDelta tok = 0) := by
          cases tok <;> simp_all [Token.braceDelta, Token.bracketDelta]
        cases more with
        | nil =>
          simp only [Option.some.injEq, Prod.mk.injEq] at h
          obtain ⟨rfl, rfl⟩ := h
          exact plain_char_step (letter_plain hx) rfl rfl rfl (by simp [hzero.1])
            (by simp [hzero.2])
        | cons y ys =>
          simp only [Option.some.injEq, Prod.mk.injEq] at h
          obtain ⟨rfl, rfl⟩ := h
          refine plain_char_step (letter_plain hx) ?_ rfl rfl rfl rfl
          simp only [LexState.ok, Bool.and_eq_true]
          exact ⟨hmore, htok⟩
      · rw [if_neg hcx] at h
        cases h

theorem lexStep_inString {ls ls1 : LexState} {c : Char} {toks : List Token}
    (hs : ls.inString = true) (h : lexStep ls c = some (ls1, toks)) :
    ls1.ok = true ∧ (toks.map Token.braceDelta).sum = 0 ∧
      (toks.map Token.bracketDelta).sum = 0 ∧
      (ls.escaped = true → ls1.inString = true ∧ ls1.escaped = false) ∧
      (ls.escaped = false → c = '\\' → ls1.inString = true ∧ ls1.escaped = true) ∧
      (ls.escaped = false → c ≠ '\\' → c = '"' → ls1.inString = false ∧ ls1.escaped = false) ∧
      (ls.escaped = false → c ≠ '\\' → c ≠ '"' →
        ls1.inString = true ∧ ls1.escaped = false) := by
  cases ls with
  | idle => simp [LexState.inString] at hs
  | number ns acc => simp [LexState.inString] at hs
  | lit rest tok => simp [LexState.inString] at hs
  | str acc =>
    simp only [lexStep] at h
    by_cases h1 : c = '"'
    · rw [if_pos h1] at h
      cases h
      subst h1
      simp [LexState.ok, LexState.inString, LexState.escaped, Token.braceDelta,
        Token.bracketDelta]
    · rw [if_neg h1] at h
      by_cases h2 : c = '\\'
      · rw [if_pos h2] at h
        cases h
        simp [LexState.ok, LexState.inString, LexState.escaped, h2]
      · rw [if_neg h2] at h
        by_cases h3 : c.toNat < 0x20
        · rw [if_pos h3] at h; cases h
        · rw [if_neg h3] at h
          cases h
          simp [LexState.ok, LexState.inString, LexState.escaped, h1, h2]
  | esc acc =>
    simp only [lexStep] at h
    by_cases h1 : isSimpleEscape c = true
    · rw [if_pos h1] at h
      cases h
      simp [LexState.ok, LexState.inString, LexState.escaped]
    · rw [if_neg h1] at h
      by_cases h2 : c = 'u'
      · rw [if_pos h2] at h
        cases h
        simp [LexState.ok, LexState.inString, LexState.escaped]
      · rw [if_neg h2] at h; cases h
  | uni k acc =>
    simp only [lexStep] at h
    by_cases h1 : isHexDigit c = true
    · rw [if_pos h1] at h
      have hne : c ≠ '\\' ∧ c ≠ '"' := by
        have hr : (0x30 ≤ c.toNat ∧ c.toNat ≤ 0x39) ∨ (0x41 ≤ c.toNat ∧ c.toNat ≤ 0x46) ∨
            (0x61 ≤ c.toNat ∧ c.toNat ≤ 0x66) := by
          simpa [isHexDigit, isDigit, or_assoc] using h1
        constructor <;> (rintro rfl; revert hr; decide)
      cases k with
      | zero =>
        cases h
        simp [LexState.ok, LexState.inString, LexState.escaped, hne.1, hne.2]
      | succ k =>
        cases h
        simp [LexState.ok, LexState.inString, LexState.escaped, hne.1, hne.2]
    · rw [if_neg h1] at h; cases h

theorem scanStep_clean (i : Nat) (σ : ScanState) (c : Char)
    (hs : σ.inString = false) (he : σ.escapeNext = false) :
    (scanStep i σ c).escapeNext = false ∧
    (scanStep i σ c).inString = decide (c = '"') ∧
    (scanStep i σ c).braceDepth = σ.braceDepth + charBrace c ∧
    (scanStep i σ c).bracketDepth = σ.bracketDepth + charBracket c := by
  unfold scanStep
  rw [he, hs]
  simp only [Bool.false_eq_true, if_false, and_false]
  by_cases hq : c = '"'
  · subst hq
    simp [hs, he, charBrace, charBracket]
  · rw [if_neg hq]
    unfold scanStructural
    by_cases h1 : c = '['
    · subst h1; simp [hs, he, charBrace, charBracket]
    by_cases h2 : c = ']'
    · subst h2; simp [hs, he, charBrace, charBracket]; omega
    by_cases h3 : c = '{'
    · subst h3; simp [hs, he, charBrace, charBracket]
    by_cases h4 : c = '}'
    · subst h4
      simp only [charBrace, charBracket]
      split_ifs <;> simp_all <;> omega
    · simp only [h1, h2, h3, h4, if_false, charBrace, charBracket]
      split_ifs <;> simp_all

theorem scanStep_inString (i : Nat) (σ : ScanState) (c : Char) (hs : σ.inString = true) :
    (scanStep i σ c).braceDepth = σ.braceDepth ∧
    (scanStep i σ c).bracketDepth = σ.bracketDepth ∧
    (scanStep i σ c).lastCompleteObj = σ.lastCompleteObj ∧
    (scanStep i σ c).lastPropertyComma = σ.lastPropertyComma ∧
    (σ.escapeNext = true →
      (scanStep i σ c).inString = true ∧ (scanStep i σ c).escapeNext = false) ∧
    (σ.escapeNext = false → c = '\\' →
      (scanStep i σ c).inString = true ∧ (scanStep i σ c).escapeNext = true) ∧
    (σ.escapeNext = false → c ≠ '\\' → c = '"' →
      (scanStep i σ c).inString = false ∧ (scanStep i σ c).escapeNext = false) ∧
    (σ.escapeNext = false → c ≠ '\\' → c ≠ '"' →
      (scanStep i σ c).inString = true ∧ (scanStep i σ c).escapeNext = false) := by
  unfold scanStep
  by_cases he : σ.escapeNext = true
  · simp [he, hs]
  · have he1 : σ.escapeNext = false := by simpa using he
    by_cases h1 : c = '\\'
    · simp [he1, hs, h1]
    · by_cases h2 : c = '"'
      · simp [he1, hs, h1, h2]
      · simp [he1, hs, h1, h2]

/-- One character keeps the scanner and the reader in agreement. -/
theorem jstep_sim {b a : Int} {st st1 : JState} {σ : ScanState} (i : Nat) {c : Char}
    (h : jstep st c = some st1) (hsim : Sim b a st σ) : Sim b a st1 (scanStep i σ c) := by
  obtain ⟨toks, hl, hf⟩ := jstep_inv h
  obtain ⟨hfb, hfa⟩ := feed_frames hf
  by_cases hs : st.lex.inString = true
  · have hσ : σ.inString = true := by rw [hsim.inString, hs]
    obtain ⟨k1, k2, k3, k4, k5, k6, k7⟩ := lexStep_inString hs hl
    obtain ⟨s1, s2, _, _, s5, s6, s7, s8⟩ := scanStep_inString i σ c hσ
    have hb : (scanStep i σ c).braceDepth = b + objFrames st1.par.stack := by
      rw [s1, hsim.brace]; omega
    have ha : (scanStep i σ c).bracketDepth = a + arrFrames st1.par.stack := by
      rw [s2, hsim.bracket]; omega
    by_cases he : st.lex.escaped = true
    · have heσ : σ.escapeNext = true := by rw [hsim.escapeNext, he]
      exact ⟨k1, by rw [(s5 heσ).1, (k4 he).1], by rw [(s5 heσ).2, (k4 he).2], hb, ha⟩
    · have he1 : st.lex.escaped = false := by simpa using he
      have heσ : σ.escapeNext = false := by rw [hsim.escapeNext, he1]
      by_cases h1 : c = '\\'
      · exact ⟨k1, by rw [(s6 heσ h1).1, (k5 he1 h1).1], by rw [(s6 heσ h1).2, (k5 he1 h1).2],
          hb, ha⟩
      · by_cases h2 : c = '"'
        · exact ⟨k1, by rw [(s7 heσ h1 h2).1, (k6 he1 h1 h2).1],
            by rw [(s7 heσ h1 h2).2, (k6 he1 h1 h2).2], hb, ha⟩
        · exact ⟨k1, by rw [(s8 heσ h1 h2).1, (k7 he1 h1 h2).1],
            by rw [(s8 heσ h1 h2).2, (k7 he1 h1 h2).2], hb, ha⟩
  · have hs1 : st.lex.inString = false := by simpa using hs
    have hσ : σ.inString = false := by rw [hsim.inString, hs1]
    have heσ : σ.escapeNext = false := by
      rw [hsim.escapeNext]
      cases hlex : st.lex <;> simp_all [LexState.escaped, LexState.inString]
    obtain ⟨_, k2, k3, k4, k5, k6⟩ := lexStep_clean hsim.lexOk hs1 hl
    obtain ⟨s1, s2, s3, s4⟩ := scanStep_clean i σ c hσ heσ
    refine ⟨k2, by rw [s2, k4], by rw [s1, k3], ?_, ?_⟩
    · rw [s3, hsim.brace]; omega
    · rw [s4, hsim.bracket]; omega

theorem jrun_sim {b a : Int} {st st1 : JState} {σ : ScanState} (i : Nat) {s : Str}
    (h : jrun st s = some st1) (hsim : Sim b a st σ) : Sim b a st1 (scanLoop i σ s) := by
  induction s generalizing st σ i with
  | nil => simp only [jrun, Option.some.injEq] at h; subst h; exact hsim
  | cons c s ih =>
    obtain ⟨st2, h1, h2⟩ := jrun_cons_inv h
    exact ih (i + 1) h2 (jstep_sim i h1 hsim)

/-! ## When the scanner records an offset -/

theorem scanStep_lastCompleteObj (i : Nat) (σ : ScanState) (c : Char) :
    (scanStep i σ c).lastCompleteObj =
      if σ.escapeNext = false ∧ σ.inString = false ∧ c = '}' ∧ σ.braceDepth = 1 then (i : Int)
      else σ.lastCompleteObj := by
  unfold scanStep
  by_cases he : σ.escapeNext = true
  · simp [he]
  have he1 : σ.escapeNext = false := by simpa using he
  by_cases hs : σ.inString = true
  · by_cases h1 : c = '\\'
    · simp [he1, hs, h1]
    · by_cases h2 : c = '"' <;> simp [he1, hs, h1, h2]
  have hs1 : σ.inString = false := by simpa using hs
  by_cases hq : c = '"'
  · subst hq; simp [he1, hs1]
  unfold scanStructural
  by_cases h4 : c = '}'
  · subst h4
    by_cases hd : σ.braceDepth = 1
    · simp [he1, hs1, hd]
    · have : ¬ σ.braceDepth - 1 = 0 := by omega
      simp [he1, hs1, hd, this]
  · simp only [he1, hs1, hq, h4, if_false, and_false, false_and, Bool.false_eq_true]
    split_ifs <;> rfl

theorem scanStep_lastPropertyComma (i : Nat) (σ : ScanState) (c : Char) :
    (scanStep i σ c).lastPropertyComma =
      if σ.escapeNext = false ∧ σ.inString = false ∧ c = ',' ∧ σ.braceDepth = 1 ∧
          σ.bracketDepth = 1 then (i : Int)
      else σ.lastPropertyComma := by
  unfold scanStep
  by_cases he : σ.escapeNext = true
  · simp [he]
  have he1 : σ.escapeNext = false := by simpa using he
  by_cases hs : σ.inString = true
  · by_cases h1 : c = '\\'
    · simp [he1, hs, h1]
    · by_cases h2 : c = '"' <;> simp [he1, hs, h1, h2]
  have hs1 : σ.inString = false := by simpa using hs
  by_cases hq : c = '"'
  · subst hq; simp [he1, hs1]
  unfold scanStructural
  by_cases h5 : c = ','
  · subst h5
    simp [he1, hs1]
    split_ifs <;> rfl
  · simp only [he1, hs1, hq, h5, if_false, and_false, false_and, Bool.false_eq_true]
    split_ifs <;> rfl

theorem sim_clean_escape {b a : Int} {st : JState} {σ : ScanState} (hsim : Sim b a st σ)
    (hs : σ.inString = false) : σ.escapeNext = false := by
  rw [hsim.escapeNext]
  have : st.lex.inString = false := by rw [← hsim.inString, hs]
  cases hlex : st.lex <;> simp_all [LexState.escaped, LexState.inString]

/-- Inside a text read from a state whose brace depth stays at least one above
the reader's open objects, no closing brace is recorded. -/
theorem jrun_keeps_lastCompleteObj {b a : Int} (hb : 1 ≤ b) {st st1 : JState} {σ : ScanState}
    (i : Nat) {s : Str} (h : jrun st s = some st1) (hsim : Sim b a st σ) :
    (scanLoop i σ s).lastCompleteObj = σ.lastCompleteObj := by
  induction s generalizing st σ i with
  | nil => rfl
  | cons c s ih =>
    obtain ⟨st2, h1, h2⟩ := jrun_cons_inv h
    have hsim2 := jstep_sim i h1 hsim
    rw [scanLoop, ih (i + 1) h2 hsim2, scanStep_lastCompleteObj]
    split_ifs with hev
    · obtain ⟨he, hs, hc, hd⟩ := hev
      have := (scanStep_clean i σ c hs he).2.2.1
      rw [hsim2.brace, hd, hc] at this
      simp only [charBrace] at this
      have h0 : (0 : Int) ≤ objFrames st2.par.stack := Int.ofNat_nonneg _
      revert this
      simp
      omega
    · rfl

theorem frames_zero {stk : List Frame} (h1 : objFrames stk = 0) (h2 : arrFrames stk = 0) :
    stk = [] := by
  cases stk with
  | nil => rfl
  | cons f rest => cases f <;> simp [objFrames, arrFrames] at h1 h2

theorem pstep_comma_stack {ps ps1 : PState} (h : pstep ps .comma = some ps1) :
    ps.stack ≠ [] := by
  obtain ⟨mode, stack⟩ := ps
  cases mode <;> cases stack <;> simp_all [pstep, startValue, readKey, afterValue]

theorem pstep_num_stack {ps ps1 : PState} {l : Str} (h : pstep ps (.num l) = some ps1) :
    ps1.stack = ps.stack := by
  obtain ⟨mode, stack⟩ := ps
  cases mode <;> rcases stack with _ | ⟨⟨_⟩ | ⟨_, _⟩, rest⟩ <;>
    simp_all [pstep, startValue, readKey, afterValue] <;> (try subst h) <;> rfl

theorem jstep_comma_stack {st st1 : JState} (h : jstep st ',' = some st1)
    (hok : st.lex.ok = true) (hs : st.lex.inString = false) : st.par.stack ≠ [] := by
  obtain ⟨toks, hl, hf⟩ := jstep_inv h
  have hidle : lexIdle ',' = some (LexState.idle, [Token.comma]) := by rfl
  have hend : ∀ acc, lexNumberEnd acc ',' = some (LexState.idle, [Token.num acc, Token.comma]) := by
    intro acc
    simp [lexNumberEnd, hidle]
  have fromNum : ∀ acc, toks = [Token.num acc, Token.comma] → st.par.stack ≠ [] := by
    intro acc ht
    rw [ht, feed] at hf
    cases hp : pstep st.par (.num acc) with
    | none => simp [hp] at hf
    | some ps2 =>
      simp only [hp, feed] at hf
      cases hp2 : pstep ps2 .comma with
      | none => simp [hp2] at hf
      | some ps3 =>
        rw [← pstep_num_stack hp]
        exact pstep_comma_stack hp2
  cases hlex : st.lex with
  | idle =>
    rw [hlex] at hl
    simp only [lexStep, hidle, Option.some.injEq, Prod.mk.injEq] at hl
    obtain ⟨_, rfl⟩ := hl
    rw [feed] at hf
    cases hp : pstep st.par .comma with
    | none => simp [hp] at hf
    | some ps2 => exact pstep_comma_stack hp
  | str acc => rw [hlex] at hs; simp [LexState.inString] at hs
  | esc acc => rw [hlex] at hs; simp [LexState.inString] at hs
  | uni k acc => rw [hlex] at hs; simp [LexState.inString] at hs
  | lit rest tok =>
    rw [hlex] at hl hok
    cases rest with
    | nil => simp [lexStep] at hl
    | cons x more =>
      simp only [LexState.ok, List.all_cons, Bool.and_eq_true] at hok
      simp only [lexStep] at hl
      by_cases hx : ',' = x
      · subst hx
        have hl1 : isLowerLetter ',' = true := hok.1.1
        have hl2 : isLowerLetter ',' = false := by decide
        rw [hl2] at hl1
        cases hl1
      · rw [if_neg hx] at hl; cases hl
  | number ns acc =>
    rw [hlex] at hl
    have hd : isDigit ',' = false := by decide
    have e0 : ¬ (',' : Char) = '0' := by decide
    have e1 : ¬ (',' : Char) = '.' := by decide
    have e2 : ¬ ((',' : Char) = 'e' ∨ (',' : Char) = 'E') := by decide
    have e3 : ¬ ((',' : Char) = '+' ∨ (',' : Char) = '-') := by decide
    cases ns <;>
      simp only [lexStep, lexNumber, hd, hend, e0, e1, e2, e3, Bool.false_eq_true, if_false,
        Option.some.injEq, Prod.mk.injEq] at hl <;>
      first
        | exact fromNum acc hl.2.symm
        | cases hl

/-- Inside a text read from brace depth one and bracket depth one, no comma is
recorded: the reader takes a comma only inside an array or object of its own. -/
theorem jrun_keeps_lastPropertyComma {st st1 : JState} {σ : ScanState}
    (i : Nat) {s : Str} (h : jrun st s = some st1) (hsim : Sim 1 1 st σ) :
    (scanLoop i σ s).lastPropertyComma = σ.lastPropertyComma := by
  induction s generalizing st σ i with
  | nil => rfl
  | cons c s ih =>
    obtain ⟨st2, h1, h2⟩ := jrun_cons_inv h
    have hsim2 := jstep_sim i h1 hsim
    rw [scanLoop, ih (i + 1) h2 hsim2, scanStep_lastPropertyComma]
    split_ifs with hev
    · obtain ⟨he, hs, hc, hd, hk⟩ := hev
      subst hc
      have hls : st.lex.inString = false := by rw [← hsim.inString, hs]
      have hne := jstep_comma_stack h1 hsim.lexOk hls
      have hb := hsim.brace
      have ha := hsim.bracket
      rw [hd] at hb
      rw [hk] at ha
      exact absurd (frames_zero (by omega) (by omega)) hne
    · rfl

/-! ## Object texts -/

theorem objFrames_pos {stk : List Frame} (h : bottomIsObj stk = true) : 1 ≤ objFrames stk := by
  induction stk with
  | nil => simp [bottomIsObj] at h
  | cons f rest ih =>
    cases rest with
    | nil => cases f <;> simp_all [bottomIsObj, objFrames]
    | cons g more =>
      have := ih (by simpa [bottomIsObj] using h)
      cases f <;> simp [objFrames] <;> omega

theorem bottomIsObj_push (f : Frame) {stk : List Frame} (h : bottomIsObj stk = true) :
    bottomIsObj (f :: stk) = true := by
  cases stk with
  | nil => simp [bottomIsObj] at h
  | cons g more => simpa [bottomIsObj] using h

theorem bottomIsObj_pop {f : Frame} {stk : List Frame} (h : bottomIsObj (f :: stk) = true)
    (hne : stk ≠ []) : bottomIsObj stk = true := by
  cases stk with
  | nil => exact absurd rfl hne
  | cons g more => simpa [bottomIsObj] using h

theorem pstep_bottom {ps ps1 : PState} {t : Token} (h : pstep ps t = some ps1)
    (hb : bottomIsObj ps.stack = true) :
    bottomIsObj ps1.stack = true ∨ (ps1.stack = [] ∧ ∃ v, ps1.mode = .done v) := by
  obtain ⟨mode, stack⟩ := ps
  cases stack with
  | nil => simp [bottomIsObj] at hb
  | cons f rest =>
    by_cases hr : rest = []
    · subst hr
      cases f with
      | arr items => simp [bottomIsObj] at hb
      | obj ms k =>
        cases mode <;> cases t <;>
          simp_all [pstep, startValue, readKey, afterValue] <;>
          (try subst h) <;> simp [bottomIsObj]
    · have hrest : bottomIsObj rest = true := bottomIsObj_pop hb hr
      have hpush : ∀ g : Frame, bottomIsObj (g :: rest) = true :=
        fun g => bottomIsObj_push g hrest
      left
      cases mode <;> cases t <;> cases f <;>
        simp_all [pstep, startValue, readKey, afterValue] <;>
        (try subst h) <;> simp_all [bottomIsObj_push]

theorem pstep_dead {v : JSONValue} {ps1 : PState} {t : Token}
    (h : pstep ⟨.done v, []⟩ t = some ps1) : False := by
  cases t <;> simp [pstep, afterValue] at h

theorem feed_bottom {ps ps1 : PState} {toks : List Token} (h : feed ps toks = some ps1)
    (hb : bottomIsObj ps.stack = true) :
    bottomIsObj ps1.stack = true ∨ (ps1.stack = [] ∧ ∃ v, ps1.mode = .done v) := by
  induction toks generalizing ps with
  | nil => simp only [feed, Option.some.injEq] at h; subst h; exact Or.inl hb
  | cons t ts ih =>
    rw [feed] at h
    cases hp : pstep ps t with
    | none => simp [hp] at h
    | some ps2 =>
      simp only [hp] at h
      rcases pstep_bottom hp hb with h2 | ⟨h2, v, hv⟩
      · exact ih h h2
      · cases ts with
        | nil =>
          simp only [feed, Option.some.injEq] at h
          subst h
          exact Or.inr ⟨h2, v, hv⟩
        | cons u us =>
          rw [feed] at h
          have : ps2 = ⟨.done v, []⟩ := by
            cases ps2; simp only at h2 hv; subst h2 hv; rfl
          rw [this] at h
          cases hp2 : pstep ⟨.done v, []⟩ u with
          | none => simp [hp2] at h
          | some ps3 => exact (pstep_dead hp2).elim

theorem jstep_bottom {st st1 : JState} {c : Char} (h : jstep st c = some st1)
    (hb : bottomIsObj st.par.stack = true) :
    bottomIsObj st1.par.stack = true ∨ (st1.par.stack = [] ∧ ∃ v, st1.par.mode = .done v) := by
  obtain ⟨toks, hl, hf⟩ := jstep_inv h
  exact feed_bottom hf hb

theorem jstep_dead {st st1 : JState} {c : Char} {v : JSONValue} (h : jstep st c = some st1)
    (hd : st.par = ⟨.done v, []⟩) : st1.par = ⟨.done v, []⟩ := by
  obtain ⟨toks, hl, hf⟩ := jstep_inv h
  rw [hd] at hf
  cases toks with
  | nil => simp only [feed, Option.some.injEq] at hf; exact hf.symm
  | cons t ts =>
    rw [feed] at hf
    cases hp : pstep ⟨.done v, []⟩ t with
    | none => simp [hp] at hf
    | some ps2 => exact (pstep_dead hp).elim

theorem jrun_dead {st st1 : JState} {s : Str} {v : JSONValue} (h : jrun st s = some st1)
    (hd : st.par = ⟨.done v, []⟩) : st1.par = ⟨.done v, []⟩ := by
  induction s generalizing st with
  | nil => simp only [jrun, Option.some.injEq] at h; subst h; exact hd
  | cons c s ih =>
    obtain ⟨st2, h1, h2⟩ := jrun_cons_inv h
    exact ih h2 (jstep_dead h1 hd)

theorem jstep_dead_brace {st st1 : JState} {v : JSONValue} (h : jstep st '}' = some st1)
    (hok : st.lex.ok = true) (hd : st.par = ⟨.done v, []⟩) : st1.lex ≠ .idle := by
  obtain ⟨toks, hl, hf⟩ := jstep_inv h
  rw [hd] at hf
  have htoks : toks = [] := by
    cases toks with
    | nil => rfl
    | cons t ts =>
      rw [feed] at hf
      cases hp : pstep ⟨.done v, []⟩ t with
      | none => simp [hp] at hf
      | some ps2 => exact (pstep_dead hp).elim
  subst htoks
  have hidle : lexIdle '}' = some (LexState.idle, [Token.rbrace]) := by rfl
  have hend : ∀ acc, lexNumberEnd acc '}' = some (LexState.idle, [Token.num acc, Token.rbrace]) := by
    intro acc
    simp [lexNumberEnd, hidle]
  cases hlex : st.lex with
  | idle =>
    rw [hlex] at hl
    simp [lexStep, hidle] at hl
  | str acc =>
    rw [hlex] at hl
    have e1 : ¬ ('}' : Char) = '"' := by decide
    have e2 : ¬ ('}' : Char) = '\\' := by decide
    have e3 : ¬ ('}' : Char).toNat < 0x20 := by decide
    simp only [lexStep, e1, e2, e3, if_false, Option.some.injEq, Prod.mk.injEq] at hl
    rw [← hl.1]
    simp
  | esc acc =>
    rw [hlex] at hl
    have e1 : isSimpleEscape '}' = false := by decide
    have e2 : ¬ ('}' : Char) = 'u' := by decide
    simp [lexStep, e1, e2] at hl
  | uni k acc =>
    rw [hlex] at hl
    have e1 : isHexDigit '}' = false := by decide
    simp [lexStep, e1] at hl
  | lit rest tok =>
    rw [hlex] at hl hok
    cases rest with
    | nil => simp [lexStep] at hl
    | cons x more =>
      simp only [LexState.ok, List.all_cons, Bool.and_eq_true] at hok
      simp only [lexStep] at hl
      by_cases hx : '}' = x
      · subst hx
        have hl1 : isLowerLetter '}' = true := hok.1.1
        have hl2 : isLowerLetter '}' = false := by decide
        rw [hl2] at hl1
        cases hl1
      · rw [if_neg hx] at hl; cases hl
  | number ns acc =>
    rw [hlex] at hl
    have hd : isDigit '}' = false := by decide
    have e0 : ¬ ('}' : Char) = '0' := by decide
    have e1 : ¬ ('}' : Char) = '.' := by decide
    have e2 : ¬ (('}' : Char) = 'e' ∨ ('}' : Char) = 'E') := by decide
    have e3 : ¬ (('}' : Char) = '+' ∨ ('}' : Char) = '-') := by decide
    cases ns <;>
      simp [lexStep, lexNumber, hd, hend, e0, e1, e2, e3] at hl

/-- Inside an object text read from brace depth zero, no closing brace before
the last one is recorded. -/
theorem objText_keeps_lastCompleteObj {a : Int} {st : JState} {σ : ScanState} (i : Nat)
    (q r : Str) (ms : List (Str × JSONValue))
    (hb : bottomIsObj st.par.stack = true) (hsim : Sim 0 a st σ)
    (h : jrun st (q ++ r ++ ['}']) = some ⟨.idle, ⟨.done (.obj ms), []⟩⟩) :
    (scanLoop i σ q).lastCompleteObj = σ.lastCompleteObj := by
  induction q generalizing st σ i with
  | nil => rfl
  | cons c q ih =>
    rw [List.cons_append, List.cons_append] at h
    obtain ⟨st2, h1, h2⟩ := jrun_cons_inv h
    have hsim2 := jstep_sim i h1 hsim
    rcases jstep_bottom h1 hb with hb2 | ⟨hnil, v, hv⟩
    · rw [scanLoop, ih (i + 1) hb2 hsim2 h2, scanStep_lastCompleteObj]
      split_ifs with hev
      · obtain ⟨he, hs, hc, hd⟩ := hev
        have := (scanStep_clean i σ c hs he).2.2.1
        rw [hsim2.brace, hd, hc] at this
        simp only [charBrace] at this
        have h0 := objFrames_pos hb2
        revert this
        simp
        omega
      · rfl
    · exfalso
      obtain ⟨st3, h3, h4⟩ := jrun_append_inv h2
      obtain ⟨st4, h5, h6⟩ := jrun_cons_inv h4
      simp only [jrun, Option.some.injEq] at h6
      subst h6
      have hdead2 : st2.par = ⟨.done v, []⟩ := by
        cases hp : st2.par
        rw [hp] at hnil hv
        simp only at hnil hv
        subst hnil hv
        rfl
      have hdead3 := jrun_dead h3 hdead2
      have hok3 := (jrun_sim (i + 1) h3 hsim2).lexOk
      exact jstep_dead_brace h5 hok3 hdead3 rfl

/-! ## Reading the elements of an array -/

theorem joinElems_cons (e : Str) (es : List Str) (h : es ≠ []) :
    joinElems (e :: es) = e ++ ',' :: joinElems es := by
  cases es with
  | nil => exact absurd rfl h
  | cons f rest => rfl

theorem jrun_value_lift {e : Str} {ms : List (Str × JSONValue)} (K : List Frame)
    (h : parseJSON e = some (.obj ms)) :
    jrun ⟨.idle, ⟨.value, K⟩⟩ e = some ⟨.idle, ⟨.done (.obj ms), K⟩⟩ := by
  have := jrun_lift K (parseJSON_obj_inv h)
  simpa [JState.lift, PState.lift, JState.init] using this

theorem jstep_comma_arr (v : JSONValue) (items : List JSONValue) (K : List Frame) :
    jstep ⟨.idle, ⟨.done v, .arr items :: K⟩⟩ ',' =
      some ⟨.idle, ⟨.value, .arr (items ++ [v]) :: K⟩⟩ := by
  rfl

theorem jstep_close_arr (v : JSONValue) (items : List JSONValue) (K : List Frame) :
    jstep ⟨.idle, ⟨.done v, .arr items :: K⟩⟩ ']' =
      some ⟨.idle, ⟨.done (.arr (items ++ [v])), K⟩⟩ := by
  rfl

theorem jrun_elems (done : List (Str × List (Str × JSONValue))) (o : Str)
    (ms : List (Str × JSONValue)) (items : List JSONValue)
    (hdone : ∀ e ∈ done, parseJSON e.1 = some (.obj e.2))
    (ho : parseJSON o = some (.obj ms)) :
    jrun ⟨.idle, ⟨.value, [.arr items]⟩⟩ (joinElems (done.map Prod.fst ++ [o])) =
      some ⟨.idle, ⟨.done (.obj ms), [.arr (items ++ done.map fun e => .obj e.2)]⟩⟩ := by
  induction done generalizing items with
  | nil => simpa [joinElems] using jrun_value_lift [.arr items] ho
  | cons e rest ih =>
    have hne : rest.map Prod.fst ++ [o] ≠ [] := by simp
    rw [List.map_cons, List.cons_append, joinElems_cons _ _ hne]
    have h1 := jrun_value_lift [.arr items] (hdone e (List.mem_cons_self _ _))
    have h2 := ih (items ++ [.obj e.2]) fun x hx => hdone x (List.mem_cons_of_mem _ hx)
    have h3 : jrun ⟨.idle, ⟨.done (.obj e.2), [.arr items]⟩⟩
        (',' :: joinElems (rest.map Prod.fst ++ [o])) =
        some ⟨.idle, ⟨.done (.obj ms),
          [.arr (items ++ (e :: rest).map fun e => .obj e.2)]⟩⟩ := by
      rw [jrun, jstep_comma_arr]
      simpa using h2
    exact jrun_append_some h1 h3

/-- The text of an array of complete objects, up to the closing brace of the
last one, is read as those objects, the last one awaiting `,` or `]`. -/
theorem jrun_array_head (done : List (Str × List (Str × JSONValue))) (o : Str)
    (ms : List (Str × JSONValue))
    (hdone : ∀ e ∈ done, parseJSON e.1 = some (.obj e.2))
    (ho : parseJSON o = some (.obj ms)) :
    jrun JState.init ('[' :: joinElems (done.map Prod.fst ++ [o])) =
      some ⟨.idle, ⟨.done (.obj ms), [.arr (done.map fun e => .obj e.2)]⟩⟩ := by
  have h0 : jstep JState.init '[' = some ⟨.idle, ⟨.arrOpen, [.arr []]⟩⟩ := by rfl
  rw [jrun, h0]
  have := jrun_arrOpen (jrun_elems done o ms [] hdone ho)
  simpa using this

theorem parseJSON_closed_array (done : List (Str × List (Str × JSONValue))) (o : Str)
    (ms : List (Str × JSONValue))
    (hdone : ∀ e ∈ done, parseJSON e.1 = some (.obj e.2))
    (ho : parseJSON o = some (.obj ms)) :
    parseJSON (('[' :: joinElems (done.map Prod.fst ++ [o])) ++ [']']) =
      some (.arr ((done.map fun e => .obj e.2) ++ [.obj ms])) := by
  apply parseJSON_of_jrun
  apply jrun_append_some (jrun_array_head done o ms hdone ho)
  rw [jrun, jstep_close_arr]
  rfl

/-! ## The scanner on the parts of a truncated array -/

theorem scanLoop_lastCompleteObj_of_no_brace (i : Nat) (σ : ScanState) (s : Str)
    (h : '}' ∉ s) : (scanLoop i σ s).lastCompleteObj = σ.lastCompleteObj := by
  induction s generalizing i σ with
  | nil => rfl
  | cons c s ih =>
    have hc : c ≠ '}' := fun e => h (e ▸ List.mem_cons_self _ _)
    rw [scanLoop, ih (i + 1) _ (fun hm => h (List.mem_cons_of_mem _ hm)),
      scanStep_lastCompleteObj]
    simp [hc]

/-- Characters that are neither quotes nor brackets nor braces leave the
position of the scanner with respect to strings and its depths as they are. -/
theorem scanLoop_neutral (i : Nat) (σ : ScanState) (s : Str)
    (hs : σ.inString = false) (he : σ.escapeNext = false)
    (h : ∀ c ∈ s, c ≠ '"' ∧ charBrace c = 0 ∧ charBracket c = 0) :
    (scanLoop i σ s).inString = false ∧ (scanLoop i σ s).escapeNext = false ∧
      (scanLoop i σ s).braceDepth = σ.braceDepth ∧
      (scanLoop i σ s).bracketDepth = σ.bracketDepth := by
  induction s generalizing i σ with
  | nil => exact ⟨hs, he, rfl, rfl⟩
  | cons c s ih =>
    obtain ⟨h1, h2, h3⟩ := h c (List.mem_cons_self _ _)
    obtain ⟨s1, s2, s3, s4⟩ := scanStep_clean i σ c hs he
    have s2' : (scanStep i σ c).inString = false := by rw [s2]; simp [h1]
    obtain ⟨k1, k2, k3, k4⟩ := ih (i + 1) (scanStep i σ c) s2' s1
      (fun x hx => h x (List.mem_cons_of_mem _ hx))
    rw [scanLoop]
    refine ⟨k1, k2, ?_, ?_⟩
    · rw [k3, s3, h2]; simp
    · rw [k4, s4, h3]; simp

theorem jsonWs_neutral {c : Char} (h : isJsonWs c = true) :
    c ≠ '"' ∧ charBrace c = 0 ∧ charBracket c = 0 ∧ c ≠ '}' ∧ c ≠ ',' := by
  have : c = ' ' ∨ c = '\t' ∨ c = '\n' ∨ c = '\r' := by
    simpa [isJsonWs, or_assoc] using h
  rcases this with rfl | rfl | rfl | rfl <;> decide

theorem jstep_close_obj {st : JState} {ms : List (Str × JSONValue)} {K : List Frame}
    (h : jstep st '}' = some ⟨.idle, ⟨.done (.obj ms), K⟩⟩) (hok : st.lex.ok = true) :
    st.lex.inString = false ∧ objFrames st.par.stack = objFrames K + 1 ∧
      arrFrames st.par.stack = arrFrames K := by
  obtain ⟨toks, hl, hf⟩ := jstep_inv h
  simp only at hl hf
  have hs : st.lex.inString = false := by
    by_contra hc
    have hs1 : st.lex.inString = true := by simpa using hc
    obtain ⟨_, _, _, k4, k5, k6, k7⟩ := lexStep_inString hs1 hl
    have e1 : ('}' : Char) ≠ '\\' := by decide
    have e2 : ('}' : Char) ≠ '"' := by decide
    by_cases he : st.lex.escaped = true
    · have := (k4 he).1
      simp [LexState.inString] at this
    · have := (k7 (by simpa using he) e1 e2).1
      simp [LexState.inString] at this
  obtain ⟨_, _, _, _, k5, k6⟩ := lexStep_clean hok hs hl
  obtain ⟨f1, f2⟩ := feed_frames hf
  simp only [charBrace, charBracket] at k5 k6
  rw [k5] at f1
  rw [k6] at f2
  simp only at f1 f2
  have e3 : ¬ ('}' : Char) = '{' := by decide
  have e4 : ¬ ('}' : Char) = '[' := by decide
  have e5 : ¬ ('}' : Char) = ']' := by decide
  simp only [e3, e4, e5, if_false, if_true] at f1 f2
  refine ⟨hs, ?_, ?_⟩ <;> omega

theorem sim_init : Sim 0 0 JState.init ScanState.init :=
  ⟨rfl, rfl, rfl, rfl, rfl⟩

/-- The scanner over a text that the reader has read up to the closing brace of
an object at depth zero: that brace is the last one recorded. -/
theorem scanLoop_closing_brace {b a : Int} {st0 : JState} {σ0 : ScanState} (i : Nat)
    (h0 : Str) (ms : List (Str × JSONValue)) (K : List Frame)
    (hsim : Sim b a st0 σ0) (hK : b + objFrames K = 0)
    (h : jrun st0 (h0 ++ ['}']) = some ⟨.idle, ⟨.done (.obj ms), K⟩⟩) :
    (scanLoop i σ0 (h0 ++ ['}'])).lastCompleteObj = ((i + h0.length : Nat) : Int) ∧
      Sim b a ⟨.idle, ⟨.done (.obj ms), K⟩⟩ (scanLoop i σ0 (h0 ++ ['}'])) := by
  refine ⟨?_, jrun_sim i h hsim⟩
  obtain ⟨st1, h1, h2⟩ := jrun_append_inv h
  obtain ⟨st2, h3, h4⟩ := jrun_cons_inv h2
  simp only [jrun, Option.some.injEq] at h4
  subst h4
  have hsim1 := jrun_sim i h1 hsim
  obtain ⟨c1, c2, c3⟩ := jstep_close_obj h3 hsim1.lexOk
  have hσs : (scanLoop i σ0 h0).inString = false := by rw [hsim1.inString, c1]
  have hσe := sim_clean_escape hsim1 hσs
  have hbr : (scanLoop i σ0 h0).braceDepth = 1 := by
    rw [hsim1.brace, c2]
    push_cast
    omega
  rw [scanLoop_append, scanLoop, scanLoop, scanStep_lastCompleteObj]
  simp [hσs, hσe, hbr]

theorem pfx_append_cases {α : Type} {t A B : List α} (h : t <+: A ++ B) :
    t <+: A ∨ ∃ q, q <+: B ∧ t = A ++ q := by
  rcases List.prefix_or_prefix_of_prefix h (List.prefix_append A B) with h1 | h1
  · exact Or.inl h1
  · obtain ⟨q, rfl⟩ := h1
    exact Or.inr ⟨q, (List.prefix_append_right_inj A).1 h, rfl⟩

theorem objectText_split {o : Str} {ms : List (Str × JSONValue)} (ho : IsObjectText o ms) :
    ∃ X, o = '{' :: X ++ ['}'] ∧ o.dropLast = '{' :: X := by
  obtain ⟨hh, hl, _⟩ := ho
  cases o with
  | nil => simp at hh
  | cons c Y =>
    simp only [List.head?_cons, Option.some.injEq] at hh
    subst hh
    have hne : ('{' :: Y) ≠ [] := List.cons_ne_nil _ _
    have hlast : ('{' :: Y).getLast hne = '}' := by
      rw [List.getLast?_eq_getLast _ hne] at hl
      exact Option.some.inj hl
    have hsplit := List.dropLast_append_getLast hne
    rw [hlast] at hsplit
    cases Y with
    | nil => simp at hlast
    | cons y Z =>
      refine ⟨(y :: Z).dropLast, ?_, ?_⟩
      · rw [← hsplit]; simp [List.dropLast]
      · simp [List.dropLast]

/-- After the closing brace of the last complete object, what is left of a
truncated array text has no closing brace that the scanner records. -/
theorem tail_keeps_lastCompleteObj (i : Nat) (σ : ScanState) (tail t : Str)
    (htail : IsIncompleteTail tail) (ht : t <+: tail)
    (hs : σ.inString = false) (he : σ.escapeNext = false) (hb : σ.braceDepth = 0) :
    (scanLoop i σ t).lastCompleteObj = σ.lastCompleteObj := by
  rcases htail with ⟨w1, w2, hw1, hw2, hp⟩ | ⟨w1, w2, o, ms, hw1, hw2, ho, hp⟩
  · apply scanLoop_lastCompleteObj_of_no_brace
    intro hm
    have hmem := (ht.trans hp).subset hm
    rcases List.mem_append.1 hmem with h1 | h1
    · exact (jsonWs_neutral (hw1 _ h1)).2.2.2.1 rfl
    · rcases List.mem_cons.1 h1 with h2 | h2
      · revert h2; decide
      · exact (jsonWs_neutral (hw2 _ h2)).2.2.2.1 rfl
  · have hA : ∀ c ∈ w1 ++ ',' :: w2, c ≠ '"' ∧ charBrace c = 0 ∧ charBracket c = 0 ∧ c ≠ '}' := by
      intro c hc
      rcases List.mem_append.1 hc with h1 | h1
      · have := jsonWs_neutral (hw1 _ h1); exact ⟨this.1, this.2.1, this.2.2.1, this.2.2.2.1⟩
      · rcases List.mem_cons.1 h1 with h2 | h2
        · subst h2; decide
        · have := jsonWs_neutral (hw2 _ h2); exact ⟨this.1, this.2.1, this.2.2.1, this.2.2.2.1⟩
    have hp2 : t <+: (w1 ++ ',' :: w2) ++ o.dropLast := by
      have := ht.trans hp
      simpa [List.append_assoc] using this
    rcases pfx_append_cases hp2 with h1 | ⟨q, hq, rfl⟩
    · apply scanLoop_lastCompleteObj_of_no_brace
      intro hm
      exact (hA _ (h1.subset hm)).2.2.2 rfl
    · obtain ⟨X, hoX, hdrop⟩ := objectText_split ho
      rw [scanLoop_append]
      have hAl : (scanLoop i σ (w1 ++ ',' :: w2)).lastCompleteObj = σ.lastCompleteObj :=
        scanLoop_lastCompleteObj_of_no_brace _ _ _ fun hm => (hA _ hm).2.2.2 rfl
      obtain ⟨n1, n2, n3, n4⟩ := scanLoop_neutral i σ (w1 ++ ',' :: w2) hs he
        fun c hc => ⟨(hA c hc).1, (hA c hc).2.1, (hA c hc).2.2.1⟩
      generalize scanLoop i σ (w1 ++ ',' :: w2) = σ2 at hAl n1 n2 n3 n4
      generalize i + (w1 ++ ',' :: w2).length = j
      rw [← hAl]
      rw [hdrop] at hq
      cases q with
      | nil => rfl
      | cons c q1 =>
        obtain ⟨r, hr⟩ := hq
        simp only [List.cons_append, List.cons.injEq] at hr
        obtain ⟨rfl, hr⟩ := hr
        have hrun := parseJSON_obj_inv ho.2.2
        rw [hoX, ← hr] at hrun
        rw [List.cons_append] at hrun
        obtain ⟨st2, h1, h2⟩ := jrun_cons_inv hrun
        have hst2 : jstep JState.init '{' = some ⟨.idle, ⟨.objOpen, [.obj [] []]⟩⟩ := by rfl
        rw [hst2] at h1
        simp only [Option.some.injEq] at h1
        subst h1
        obtain ⟨s1, s2, s3, s4⟩ := scanStep_clean j σ2 '{' n1 n2
        have hsim : Sim 0 σ2.bracketDepth ⟨.idle, ⟨.objOpen, [.obj [] []]⟩⟩ (scanStep j σ2 '{') := by
          refine ⟨rfl, ?_, ?_, ?_, ?_⟩
          · rw [s2]; rfl
          · rw [s1]; rfl
          · rw [s3, n3, hb]; rfl
          · rw [s4]; simp [charBracket, arrFrames]
        rw [scanLoop, objText_keeps_lastCompleteObj (j + 1) q1 r ms (by rfl) hsim h2,
          scanStep_lastCompleteObj]
        simp

/-! ## Strategy A: the complete leading objects -/

theorem trim_head_tail (a : Char) (mid : Str) (b : Char) (tail : Str)
    (ha : isJsSpace a = false) (hb : isJsSpace b = false) :
    trim ((a :: mid ++ [b]) ++ tail) = (a :: mid ++ [b]) ++ tail.rdropWhile isJsSpace := by
  unfold trim
  rw [List.cons_append, List.cons_append, List.dropWhile_cons_of_neg (by simp [ha])]
  rw [← List.cons_append, ← List.cons_append]
  by_cases h : ∃ x ∈ tail, isJsSpace x = false
  · exact rdropWhile_append_of_exists _ _ _ h
  · have hall : ∀ x ∈ tail, isJsSpace x = true := by
      intro x hx
      by_contra hc
      exact h ⟨x, hx, by simpa using hc⟩
    have h1 : tail.rdropWhile isJsSpace = [] := by
      have := rdropWhile_append_all isJsSpace [] tail hall
      simpa [List.rdropWhile] using this
    rw [rdropWhile_append_all _ _ _ hall, h1, List.append_nil]
    rw [rdropWhile_append_of_exists _ _ _ ⟨b, List.mem_singleton_self b, hb⟩]
    simp [List.rdropWhile, hb]

theorem stripTrailingComma_of_last (x : Str) (b : Char) (h1 : b ≠ ',')
    (h2 : isJsSpace b = false) : stripTrailingComma (x ++ [b]) = x ++ [b] := by
  induction x with
  | nil => simp [stripTrailingComma, h1]
  | cons c x ih =>
    rw [List.cons_append, stripTrailingComma, ih]
    have : (x ++ [b]).all isJsSpace = false := by
      simp [h2]
    simp [this]

theorem joinElems_append_last (es : List Str) (o : Str) :
    ∃ pre, joinElems (es ++ [o]) = pre ++ o := by
  induction es with
  | nil => exact ⟨[], rfl⟩
  | cons e rest ih =>
    obtain ⟨pre, hpre⟩ := ih
    refine ⟨e ++ ',' :: pre, ?_⟩
    rw [List.cons_append, joinElems_cons _ _ (by simp), hpre]
    simp

/-- The text `repairTruncatedJSON` returns for a truncated array of objects:
the array text up to the closing brace of the last complete object, closed
with `]`. -/
theorem repairTruncatedJSON_array_text (done : List (Str × List (Str × JSONValue))) (o : Str)
    (ms : List (Str × JSONValue)) (tail : Str)
    (hdone : ∀ e ∈ done, parseJSON e.1 = some (.obj e.2))
    (ho : parseJSON o = some (.obj ms)) (hlast : o.getLast? = some '}')
    (htail : IsIncompleteTail tail) :
    repairTruncatedJSON (('[' :: joinElems (done.map Prod.fst ++ [o])) ++ tail) =
      ('[' :: joinElems (done.map Prod.fst ++ [o])) ++ [']'] := by
  obtain ⟨pre, hpre⟩ := joinElems_append_last (done.map Prod.fst) o
  have hone : o ≠ [] := by
    intro h; rw [h] at hlast; simp at hlast
  have hosplit : o = o.dropLast ++ ['}'] := by
    have := List.dropLast_append_getLast hone
    rw [List.getLast?_eq_getLast _ hone] at hlast
    rw [Option.some.inj hlast] at this
    exact this.symm
  have hrun := jrun_array_head done o ms hdone ho
  generalize hhead : ('[' :: joinElems (done.map Prod.fst ++ [o])) = head at hrun
  have hh0 : head = ('[' :: (pre ++ o.dropLast)) ++ ['}'] := by
    rw [← hhead, hpre]
    nth_rewrite 1 [hosplit]
    simp
  have htrim : trim (head ++ tail) = head ++ tail.rdropWhile isJsSpace := by
    rw [hh0]
    exact trim_head_tail '[' (pre ++ o.dropLast) '}' tail (by decide) (by decide)
  have hscan := scanLoop_closing_brace 0 ('[' :: (pre ++ o.dropLast)) ms
    [.arr (done.map fun e => .obj e.2)] sim_init (by simp [objFrames]) (hh0 ▸ hrun)
  rw [← hh0] at hscan
  obtain ⟨hl, hsim⟩ := hscan
  have hclean : (scanLoop 0 ScanState.init head).inString = false := by
    rw [hsim.inString]; rfl
  have hbrace : (scanLoop 0 ScanState.init head).braceDepth = 0 := by
    rw [hsim.brace]; simp [objFrames]
  have hlco : (scanLoop 0 ScanState.init (head ++ tail.rdropWhile isJsSpace)).lastCompleteObj =
      ((pre ++ o.dropLast).length + 1 : Nat) := by
    rw [scanLoop_append, tail_keeps_lastCompleteObj _ _ tail _ htail
      (List.rdropWhile_prefix _ _) hclean (sim_clean_escape hsim hclean) hbrace, hl]
    simp
  have hlen : head.length = (pre ++ o.dropLast).length + 2 := by
    rw [hh0]
    simp only [List.length_append, List.length_cons, List.length_nil]
  unfold repairTruncatedJSON
  simp only [htrim, hlco]
  have hpos : ((((pre ++ o.dropLast).length + 1 : Nat) : Int)) > 0 := by
    push_cast; omega
  rw [if_pos hpos]
  have hcut : List.take ((((pre ++ o.dropLast).length + 1 : Nat) : Int) + 1).toNat
      (head ++ tail.rdropWhile isJsSpace) = head := by
    have : ((((pre ++ o.dropLast).length + 1 : Nat) : Int) + 1).toNat = head.length := by
      rw [hlen]
      have e : ((((pre ++ o.dropLast).length + 1 : Nat) : Int) + 1) =
          (((pre ++ o.dropLast).length + 2 : Nat) : Int) := by push_cast; ring
      rw [e, Int.toNat_ofNat]
    rw [this, List.take_left]
  rw [hcut]
  have hends : endsWith head [']'] = false := by
    rw [hh0]
    simp [endsWith, List.isSuffixOf, List.isPrefixOf]
  rw [hends]
  simp only [Bool.false_eq_true, if_false]
  have hstrip : stripTrailingComma head = head := by
    rw [hh0]
    exact stripTrailingComma_of_last _ '}' (by decide) (by decide)
  rw [hstrip]
  have hstart : startsWith (head ++ [']']) ['['] = true := by
    rw [← hhead]
    simp [startsWith, List.isPrefixOf]
  unfold ensureLeadingBracket
  rw [if_pos hstart]

/-- C2: for a prefix of the text of a JSON array of objects that reaches the
closing brace of a complete object - the complete objects `done` and `o`,
followed by what `IsIncompleteTail` allows: white space and the closing
bracket, or a dangling comma and an incomplete further object -
`repairTruncatedJSON` returns a text that `JSON.parse` reads as the array of
exactly the complete objects, in their order and with their members. -/
theorem repairTruncatedJSON_recovers_complete_objects
    (done : List (Str × List (Str × JSONValue))) (o : Str)
    (ms : List (Str × JSONValue)) (tail : Str)
    (hdone : ∀ e ∈ done, parseJSON e.1 = some (.obj e.2))
    (ho : parseJSON o = some (.obj ms)) (hlast : o.getLast? = some '}')
    (htail : IsIncompleteTail tail) :
    parseJSON (repairTruncatedJSON (('[' :: joinElems (done.map Prod.fst ++ [o])) ++ tail)) =
      some (.arr ((done.map fun e => .obj e.2) ++ [.obj ms])) := by
  rw [repairTruncatedJSON_array_text done o ms tail hdone ho hlast htail]
  exact parseJSON_closed_array done o ms hdone ho

theorem repairTruncatedJSON_recovers_complete_objects_witness :
    parseJSON (repairTruncatedJSON
      (('[' :: joinElems ([("\x7b\"a\":1\x7d".toList, [("a".toList, JSONValue.num "1".toList)])].map
          Prod.fst ++ [" \x7b\"b\":[2]\x7d".toList])) ++ ", \x7b\"c\":".toList)) =
      some (.arr (([("\x7b\"a\":1\x7d".toList, [("a".toList, JSONValue.num "1".toList)])].map
          fun e => JSONValue.obj e.2) ++
        [.obj [("b".toList, .arr [.num "2".toList])]])) :=
  repairTruncatedJSON_recovers_complete_objects
    [("\x7b\"a\":1\x7d".toList, [("a".toList, JSONValue.num "1".toList)])]
    " \x7b\"b\":[2]\x7d".toList [("b".toList, .arr [.num "2".toList])] ", \x7b\"c\":".toList
    (by
      intro e he
      rw [List.mem_singleton] at he
      subst he
      rfl)
    rfl rfl
    (Or.inr ⟨[], [' '], "\x7b\"c\":3\x7d".toList, [("c".toList, .num "3".toList)],
      (by intro c hc; cases hc),
      (by intro c hc; rw [List.mem_singleton] at hc; subst hc; rfl),
      ⟨rfl, rfl, rfl⟩, ⟨"3".toList, rfl⟩⟩)

/-! ## Strategy B: the complete leading properties -/

theorem jrun_ws (ps : PState) (w : Str) (hw : allJsonWs w) :
    jrun ⟨.idle, ps⟩ w = some ⟨.idle, ps⟩ := by
  induction w with
  | nil => rfl
  | cons c w ih =>
    have hc : isJsonWs c = true := hw c (List.mem_cons_self _ _)
    have : jstep ⟨.idle, ps⟩ c = some ⟨.idle, ps⟩ := by
      simp [jstep, lexStep, lexIdle, hc, feed]
    rw [jrun, this]
    exact ih fun x hx => hw x (List.mem_cons_of_mem _ hx)

theorem parseJSON_ws_append (w o : Str) (hw : allJsonWs w) :
    parseJSON (w ++ o) = parseJSON o := by
  unfold parseJSON
  have : jrun JState.init w = some JState.init := jrun_ws _ w hw
  rw [jrun_append, this]
  rfl

theorem parseJSON_inv {e : Str} {v : JSONValue} (h : parseJSON e = some v) :
    ∃ st, jrun JState.init e = some st ∧ st.par.stack = [] ∧ st.lex.inString = false := by
  unfold parseJSON at h
  cases hr : jrun JState.init e with
  | none => simp [hr] at h
  | some st =>
    refine ⟨st, rfl, ?_⟩
    simp only [hr] at h
    unfold jfinish at h
    cases hf : lexFinish st.lex with
    | none => simp [hf] at h
    | some toks =>
      simp only [hf] at h
      have hs : st.lex.inString = false := by
        cases hlex : st.lex <;> simp_all [lexFinish, LexState.inString]
      refine ⟨?_, hs⟩
      cases hfeed : feed st.par toks with
      | none => simp [hfeed] at h
      | some ps =>
        simp only [hfeed] at h
        have hps : ps.stack = [] := by
          obtain ⟨mode, stack⟩ := ps
          cases mode <;> cases stack <;> simp_all
        have htoks : toks = [] ∨ ∃ l, toks = [Token.num l] := by
          cases hlex : st.lex with
          | idle => rw [hlex] at hf; simp [lexFinish] at hf; exact Or.inl hf
          | number ns acc =>
            rw [hlex] at hf
            cases ns <;> simp [lexFinish] at hf <;> exact Or.inr ⟨acc, hf.symm⟩
          | str acc => rw [hlex] at hf; simp [lexFinish] at hf
          | esc acc => rw [hlex] at hf; simp [lexFinish] at hf
          | uni k acc => rw [hlex] at hf; simp [lexFinish] at hf
          | lit r t => rw [hlex] at hf; simp [lexFinish] at hf
        rcases htoks with rfl | ⟨l, rfl⟩
        · simp only [feed, Option.some.injEq] at hfeed
          rw [hfeed]; exact hps
        · rw [feed] at hfeed
          cases hp : pstep st.par (.num l) with
          | none => simp [hp] at hfeed
          | some ps2 =>
            simp only [hp, feed, Option.some.injEq] at hfeed
            rw [← pstep_num_stack hp, hfeed]
            exact hps

/-- A prefix of the text of a JSON value, scanned from outside strings at brace
depth one and bracket depth one, has neither a closing brace nor a comma that
is recorded; after the whole text the scanner is back where it started. -/
theorem value_text_quiet {e q : Str} {v : JSONValue} (i : Nat) (σ : ScanState)
    (h : parseJSON e = some v) (hq : q <+: e)
    (hs : σ.inString = false) (he : σ.escapeNext = false)
    (hb : σ.braceDepth = 1) (ha : σ.bracketDepth = 1) :
    (scanLoop i σ q).lastCompleteObj = σ.lastCompleteObj ∧
    (scanLoop i σ q).lastPropertyComma = σ.lastPropertyComma ∧
    (q = e → (scanLoop i σ q).inString = false ∧ (scanLoop i σ q).escapeNext = false ∧
      (scanLoop i σ q).braceDepth = 1 ∧ (scanLoop i σ q).bracketDepth = 1) := by
  obtain ⟨st, hrun, hstack, hlex⟩ := parseJSON_inv h
  obtain ⟨r, rfl⟩ := hq
  obtain ⟨st1, h1, h2⟩ := jrun_append_inv hrun
  have hsim : Sim 1 1 JState.init σ :=
    ⟨rfl, by rw [hs]; rfl, by rw [he]; rfl, by rw [hb]; rfl, by rw [ha]; rfl⟩
  refine ⟨jrun_keeps_lastCompleteObj (le_refl 1) i h1 hsim,
    jrun_keeps_lastPropertyComma i h1 hsim, ?_⟩
  intro hqe
  have hr : r = [] := by
    have := congrArg List.length hqe
    simpa using this
  subst hr
  simp only [jrun, Option.some.injEq] at h2
  subst h2
  have hsim1 := jrun_sim i h1 hsim
  have hin : (scanLoop i σ q).inString = false := by rw [hsim1.inString, hlex]
  refine ⟨hin, sim_clean_escape hsim1 hin, ?_, ?_⟩
  · rw [hsim1.brace, hstack]; rfl
  · rw [hsim1.bracket, hstack]; rfl

/-- A prefix of one property assignment `key : value`, scanned from outside
strings at brace depth one and bracket depth one, records nothing. -/
theorem member_text_quiet {key val t : Str} {k : Str} {v : JSONValue} (i : Nat)
    (σ : ScanState) (hkey : parseJSON key = some (.str k)) (hval : parseJSON val = some v)
    (ht : t <+: key ++ ':' :: val)
    (hs : σ.inString = false) (he : σ.escapeNext = false)
    (hb : σ.braceDepth = 1) (ha : σ.bracketDepth = 1) :
    (scanLoop i σ t).lastCompleteObj = σ.lastCompleteObj ∧
    (scanLoop i σ t).lastPropertyComma = σ.lastPropertyComma := by
  rcases pfx_append_cases ht with h1 | ⟨q, hq, rfl⟩
  · have := value_text_quiet i σ hkey h1 hs he hb ha
    exact ⟨this.1, this.2.1⟩
  · obtain ⟨k1, k2, k3⟩ := value_text_quiet i σ hkey (List.prefix_refl key) hs he hb ha
    obtain ⟨k4, hσe, k5, k6⟩ := k3 rfl
    rw [scanLoop_append]
    generalize scanLoop i σ key = σ1 at k1 k2 k4 hσe k5 k6
    generalize i + key.length = j
    rw [← k1, ← k2]
    cases q with
    | nil => exact ⟨rfl, rfl⟩
    | cons c q2 =>
      obtain ⟨r, hr⟩ := hq
      simp only [List.cons_append, List.cons.injEq] at hr
      obtain ⟨rfl, hr⟩ := hr
      obtain ⟨s1, s2, s3, s4⟩ := scanStep_clean j σ1 ':' k4 hσe
      have s2' : (scanStep j σ1 ':').inString = false := by rw [s2]; rfl
      have s3' : (scanStep j σ1 ':').braceDepth = 1 := by rw [s3, k5]; rfl
      have s4' : (scanStep j σ1 ':').bracketDepth = 1 := by rw [s4, k6]; rfl
      obtain ⟨m1, m2, _⟩ := value_text_quiet (j + 1) (scanStep j σ1 ':') hval ⟨r, hr⟩
        s2' s1 s3' s4'
      rw [scanLoop, m1, m2, scanStep_lastCompleteObj, scanStep_lastPropertyComma]
      simp

/-- The scanner over `[`, white space, `{` and complete property assignments:
nothing is recorded as a complete object, and the scanner stands outside
strings at brace depth one and bracket depth one. -/
theorem scanLoop_open_object (w0 body : Str) (ms : List (Str × JSONValue))
    (hw0 : allJsonWs w0)
    (hbody : parseJSON ('{' :: body ++ ['}']) = some (.obj ms)) :
    (scanLoop 0 ScanState.init ('[' :: w0 ++ '{' :: body)).lastCompleteObj = -1 ∧
    (scanLoop 0 ScanState.init ('[' :: w0 ++ '{' :: body)).inString = false ∧
    (scanLoop 0 ScanState.init ('[' :: w0 ++ '{' :: body)).escapeNext = false ∧
    (scanLoop 0 ScanState.init ('[' :: w0 ++ '{' :: body)).braceDepth = 1 ∧
    (scanLoop 0 ScanState.init ('[' :: w0 ++ '{' :: body)).bracketDepth = 1 := by
  have hσa : scanStep 0 ScanState.init '[' = ⟨-1, -1, 0, 1, false, false⟩ := by decide
  rw [List.cons_append, scanLoop, hσa, scanLoop_append]
  have hn : ∀ c ∈ w0, c ≠ '"' ∧ charBrace c = 0 ∧ charBracket c = 0 := fun c hc =>
    ⟨(jsonWs_neutral (hw0 c hc)).1, (jsonWs_neutral (hw0 c hc)).2.1,
      (jsonWs_neutral (hw0 c hc)).2.2.1⟩
  obtain ⟨n1, n2, n3, n4⟩ := scanLoop_neutral (0 + 1) ⟨-1, -1, 0, 1, false, false⟩ w0 rfl rfl hn
  have n5 := scanLoop_lastCompleteObj_of_no_brace (0 + 1) ⟨-1, -1, 0, 1, false, false⟩ w0
    fun hm => (jsonWs_neutral (hw0 _ hm)).2.2.2.1 rfl
  generalize scanLoop (0 + 1) ⟨-1, -1, 0, 1, false, false⟩ w0 = σb at n1 n2 n3 n4 n5
  generalize 0 + 1 + w0.length = j
  simp only at n3 n4 n5
  have hrun := parseJSON_obj_inv hbody
  rw [List.cons_append] at hrun
  obtain ⟨st2, h1, h2⟩ := jrun_cons_inv hrun
  have hst2 : jstep JState.init '{' = some ⟨.idle, ⟨.objOpen, [.obj [] []]⟩⟩ := by rfl
  rw [hst2] at h1
  simp only [Option.some.injEq] at h1
  subst h1
  obtain ⟨s1, s2, s3, s4⟩ := scanStep_clean j σb '{' n1 n2
  have hsim : Sim 0 1 ⟨.idle, ⟨.objOpen, [.obj [] []]⟩⟩ (scanStep j σb '{') := by
    refine ⟨rfl, ?_, ?_, ?_, ?_⟩
    · rw [s2]; rfl
    · rw [s1]; rfl
    · rw [s3, n3]; rfl
    · rw [s4, n4]; rfl
  have hl := objText_keeps_lastCompleteObj (j + 1) body [] ms (by rfl) hsim
    (by simpa using h2)
  obtain ⟨st3, h3, h4⟩ := jrun_append_inv h2
  obtain ⟨st4, h5, h6⟩ := jrun_cons_inv h4
  simp only [jrun, Option.some.injEq] at h6
  subst h6
  have hsim3 := jrun_sim (j + 1) h3 hsim
  obtain ⟨c1, c2, c3⟩ := jstep_close_obj h5 hsim3.lexOk
  rw [scanLoop]
  have hins : (scanLoop (j + 1) (scanStep j σb '{') body).inString = false := by
    rw [hsim3.inString, c1]
  refine ⟨?_, hins, sim_clean_escape hsim3 hins, ?_, ?_⟩
  · rw [hl, scanStep_lastCompleteObj, n5]
    simp
  · rw [hsim3.brace, c2]; rfl
  · rw [hsim3.bracket, c3]; rfl

/-- C4: for the text of a JSON array cut off inside its first object after a
property separator - `[`, white space, `{`, the complete property assignments
`body` (those of the object `{body}`), a comma, and a prefix of one further
assignment `key : value` - `repairTruncatedJSON` returns the input cut just
before that comma with `}]` appended, and `JSON.parse` reads the result as the
array of the one object with exactly the properties of `body`. -/
theorem repairTruncatedJSON_property_comma (w0 body key val tail : Str)
    (ms : List (Str × JSONValue)) (k : Str) (v : JSONValue)
    (hw0 : allJsonWs w0)
    (hbody : parseJSON ('{' :: body ++ ['}']) = some (.obj ms))
    (hkey : parseJSON key = some (.str k)) (hval : parseJSON val = some v)
    (htail : tail <+: key ++ ':' :: val) :
    repairTruncatedJSON (('[' :: w0 ++ '{' :: body) ++ ',' :: tail) =
        ('[' :: w0 ++ '{' :: body) ++ ['}', ']'] ∧
      parseJSON (('[' :: w0 ++ '{' :: body) ++ ['}', ']']) = some (.arr [.obj ms]) := by
  constructor
  · obtain ⟨a1, a2, a3, a4, a5⟩ := scanLoop_open_object w0 body ms hw0 hbody
    generalize hX : ('[' :: w0 ++ '{' :: body) = X at a1 a2 a3 a4 a5
    have hXs : X = '[' :: (w0 ++ '{' :: body) := by rw [← hX]; rfl
    have htrim : trim (X ++ ',' :: tail) = (X ++ [',']) ++ tail.rdropWhile isJsSpace := by
      have := trim_head_tail '[' (w0 ++ '{' :: body) ',' tail (by decide) (by decide)
      rw [hXs]
      simpa [List.append_assoc] using this
    obtain ⟨s1, s2, s3, s4⟩ := scanStep_clean (0 + X.length) (scanLoop 0 ScanState.init X) ','
      a2 a3
    have s2' : (scanStep (0 + X.length) (scanLoop 0 ScanState.init X) ',').inString = false := by
      rw [s2]; rfl
    have s3' : (scanStep (0 + X.length) (scanLoop 0 ScanState.init X) ',').braceDepth = 1 := by
      rw [s3, a4]; rfl
    have s4' : (scanStep (0 + X.length) (scanLoop 0 ScanState.init X) ',').bracketDepth = 1 := by
      rw [s4, a5]; rfl
    obtain ⟨m1, m2⟩ := member_text_quiet (0 + (X ++ [',']).length)
      (scanStep (0 + X.length) (scanLoop 0 ScanState.init X) ',') hkey hval
      ((List.rdropWhile_prefix isJsSpace tail).trans htail) s2' s1 s3' s4'
    have hscan : scanLoop 0 ScanState.init ((X ++ [',']) ++ tail.rdropWhile isJsSpace) =
        scanLoop (0 + (X ++ [',']).length)
          (scanStep (0 + X.length) (scanLoop 0 ScanState.init X) ',')
          (tail.rdropWhile isJsSpace) := by
      rw [scanLoop_append, scanLoop_append]
      rfl
    have hlco : (scanLoop 0 ScanState.init
        ((X ++ [',']) ++ tail.rdropWhile isJsSpace)).lastCompleteObj = -1 := by
      rw [hscan, m1, scanStep_lastCompleteObj, a1]
      simp
    have hlpc : (scanLoop 0 ScanState.init
        ((X ++ [',']) ++ tail.rdropWhile isJsSpace)).lastPropertyComma = (X.length : Int) := by
      rw [hscan, m2, scanStep_lastPropertyComma]
      simp [a2, a3, a4, a5]
    unfold repairTruncatedJSON
    simp only [htrim, hlco, hlpc]
    have hneg : ¬ ((-1 : Int) > 0) := by decide
    have hpos : (X.length : Int) > 0 := by
      rw [hXs]; simp; omega
    rw [if_neg hneg, if_pos hpos]
    have hcut : List.take (X.length : Int).toNat ((X ++ [',']) ++ tail.rdropWhile isJsSpace) =
        X := by
      rw [Int.toNat_ofNat, List.append_assoc, List.take_left]
    rw [hcut]
    have hstart : startsWith (X ++ ['}', ']']) ['['] = true := by
      rw [hXs]
      simp [startsWith, List.isPrefixOf]
    unfold ensureLeadingBracket
    rw [if_pos hstart]
  · have ho : parseJSON (w0 ++ ('{' :: body ++ ['}'])) = some (.obj ms) := by
      rw [parseJSON_ws_append _ _ hw0]; exact hbody
    have := parseJSON_closed_array [] (w0 ++ ('{' :: body ++ ['}'])) ms
      (fun e he => by cases he) ho
    simpa [joinElems, List.append_assoc] using this

theorem repairTruncatedJSON_property_comma_witness :
    repairTruncatedJSON (('[' :: " ".toList ++ '{' :: "\"a\":1,\"b\":[2,3]".toList) ++
        ',' :: "\"c\" : \x7b\"d".toList) =
        ('[' :: " ".toList ++ '{' :: "\"a\":1,\"b\":[2,3]".toList) ++ ['}', ']'] ∧
      parseJSON (('[' :: " ".toList ++ '{' :: "\"a\":1,\"b\":[2,3]".toList) ++ ['}', ']']) =
        some (.arr [.obj [("a".toList, .num "1".toList),
          ("b".toList, .arr [.num "2".toList, .num "3".toList])]]) :=
  repairTruncatedJSON_property_comma " ".toList "\"a\":1,\"b\":[2,3]".toList "\"c\" ".toList
    " \x7b\"d\":0\x7d".toList "\"c\" : \x7b\"d".toList _ "c".toList
    (.obj [("d".toList, .num "0".toList)])
    (by intro c hc; rw [show " ".toList = [' '] from rfl, List.mem_singleton] at hc; subst hc; rfl)
    rfl rfl rfl ⟨"\":0\x7d".toList, rfl⟩

/-! ## The response pipeline of `splitContent` -/

theorem lastIndexOfFrom_of_not_mem (c : Char) (i : Nat) (best : Int) (s : Str) (h : c ∉ s) :
    lastIndexOfFrom c i best s = best := by
  induction s generalizing i best with
  | nil => rfl
  | cons x s ih =>
    have hx : x ≠ c := fun e => h (e ▸ List.mem_cons_self _ _)
    rw [lastIndexOfFrom, if_neg hx]
    exact ih _ _ fun hm => h (List.mem_cons_of_mem _ hm)

theorem lastIndexOfFrom_split (c : Char) (i : Nat) (best : Int) (a b : Str) (h : c ∉ b) :
    lastIndexOfFrom c i best (a ++ c :: b) = ((i + a.length : Nat) : Int) := by
  induction a generalizing i best with
  | nil =>
    rw [List.nil_append, lastIndexOfFrom, if_pos rfl, lastIndexOfFrom_of_not_mem _ _ _ _ h]
    simp
  | cons x a ih =>
    rw [List.cons_append, lastIndexOfFrom, ih]
    simp only [List.length_cons]
    congr 1
    omega

theorem indexOf_head (c : Char) (s : Str) : indexOf (c :: s) c = 0 := by
  simp [indexOf, indexOfFrom]

/-- The slice of a text that starts with `[` and ends with `]` and on which the
fence expression does not match is the text itself. -/
theorem sliceResponse_array_text (w1 mid w2 : Str)
    (hw1 : ∀ c ∈ w1, isJsSpace c = true) (hw2 : ∀ c ∈ w2, isJsSpace c = true)
    (hfence : fenceMatch ['j', 's', 'o', 'n'] ('[' :: mid ++ [']']) = none) :
    sliceResponse (w1 ++ ('[' :: mid ++ [']']) ++ w2) = '[' :: mid ++ [']'] := by
  have htrim : trim (w1 ++ ('[' :: mid ++ [']']) ++ w2) = '[' :: mid ++ [']'] := by
    rw [trim_pad _ _ _ hw1 hw2]
    exact trim_eq_self '[' mid ']' (by decide) (by decide)
  unfold sliceResponse
  simp only [htrim, hfence]
  have hend : lastIndexOf ('[' :: mid ++ [']']) ']' = ((mid.length + 1 : Nat) : Int) := by
    unfold lastIndexOf
    have := lastIndexOfFrom_split ']' 0 (-1) ('[' :: mid) [] (by simp)
    simpa [Nat.add_comm] using this
  rw [List.cons_append, indexOf_head, ← List.cons_append, hend]
  have hc : (0 : Int) ≠ -1 ∧ ((mid.length + 1 : Nat) : Int) ≠ -1 ∧
      ((mid.length + 1 : Nat) : Int) > 0 := by
    refine ⟨by decide, ?_, ?_⟩ <;> push_cast <;> omega
  rw [if_pos hc]
  have e : (((mid.length + 1 : Nat) : Int) + 1).toNat = ('[' :: mid ++ [']']).length := by
    have : (((mid.length + 1 : Nat) : Int) + 1) = ((mid.length + 2 : Nat) : Int) := by
      push_cast; ring
    rw [this, Int.toNat_ofNat]
    simp
  unfold substring
  rw [e, List.take_length]
  rfl

/-- C3, as the code has it: for a valid JSON array text, between optional white
space, on which the fence expression of the first step does not match,
`splitContent` takes the direct-parse path and returns exactly the array the
text denotes. -/
theorem splitContentParse_valid_array (w1 t w2 : Str) (vs : List JSONValue)
    (hw1 : ∀ c ∈ w1, isJsSpace c = true) (hw2 : ∀ c ∈ w2, isJsSpace c = true)
    (hhead : t.head? = some '[') (hlast : t.getLast? = some ']')
    (hparse : parseJSON t = some (.arr vs))
    (hfence : fenceMatch ['j', 's', 'o', 'n'] t = none) :
    splitContentParse (w1 ++ t ++ w2) = .direct (.arr vs) := by
  obtain ⟨mid, rfl⟩ : ∃ mid, t = '[' :: mid ++ [']'] := by
    cases t with
    | nil => simp at hhead
    | cons c Y =>
      simp only [List.head?_cons, Option.some.injEq] at hhead
      subst hhead
      have hne : ('[' :: Y) ≠ [] := List.cons_ne_nil _ _
      have hl : ('[' :: Y).getLast hne = ']' := by
        rw [List.getLast?_eq_getLast _ hne] at hlast
        exact Option.some.inj hlast
      have hsplit := List.dropLast_append_getLast hne
      rw [hl] at hsplit
      cases Y with
      | nil => simp at hl
      | cons y Z =>
        refine ⟨(y :: Z).dropLast, ?_⟩
        rw [← hsplit]; simp [List.dropLast]
  unfold splitContentParse
  simp only [sliceResponse_array_text w1 mid w2 hw1 hw2 hfence, hparse]

theorem splitContentParse_valid_array_witness :
    splitContentParse (" ".toList ++ "[\x7b\"title\":\"A\"\x7d,\x7b\"title\":\"B\"\x7d,\x7b\"title\":\"C\"\x7d]".toList ++
        "\n".toList) =
      .direct (.arr [.obj [("title".toList, .str "A".toList)],
        .obj [("title".toList, .str "B".toList)], .obj [("title".toList, .str "C".toList)]]) :=
  splitContentParse_valid_array " ".toList
    "[\x7b\"title\":\"A\"\x7d,\x7b\"title\":\"B\"\x7d,\x7b\"title\":\"C\"\x7d]".toList "\n".toList _
    (by intro c hc; rw [show " ".toList = [' '] from rfl, List.mem_singleton] at hc; subst hc; rfl)
    (by intro c hc; rw [show "\n".toList = ['\n'] from rfl, List.mem_singleton] at hc
        subst hc; rfl)
    rfl rfl rfl rfl

/-- C3 fails as stated: the valid JSON array whose one element is a string
with two code fences is unwrapped by the fence expression, and `splitContent`
ends with the parse error instead of returning the array. -/
theorem splitContentParse_fenced_string_value :
    parseJSON "[\"```a```\"]".toList = some (.arr [.str "```a```".toList]) ∧
    splitContentParse "[\"```a```\"]".toList = .parseError (toUtf16 "a".toList) := by
  constructor <;> rfl

/-! ## `splitContent` on a truncated array -/

theorem exists_last_split {c : Char} {s : Str} (h : c ∈ s) :
    ∃ a b, s = a ++ c :: b ∧ c ∉ b := by
  induction s with
  | nil => cases h
  | cons x s ih =>
    by_cases hs : c ∈ s
    · obtain ⟨a, b, e, hb⟩ := ih hs
      exact ⟨x :: a, b, by rw [e]; rfl, hb⟩
    · rcases List.mem_cons.1 h with e | e
      · exact ⟨[], s, by rw [e]; rfl, hs⟩
      · exact absurd e hs

theorem mem_dropWhile_of_false {α : Type} (p : α → Bool) {c : α} {s : List α}
    (h : c ∈ s) (hc : p c = false) : c ∈ s.dropWhile p := by
  induction s with
  | nil => cases h
  | cons x s ih =>
    by_cases hx : p x = true
    · rw [List.dropWhile_cons_of_pos hx]
      rcases List.mem_cons.1 h with e | e
      · rw [e, hx] at hc; cases hc
      · exact ih e
    · rw [List.dropWhile_cons_of_neg hx]
      exact h

theorem mem_rdropWhile_of_false {α : Type} (p : α → Bool) {c : α} {s : List α}
    (h : c ∈ s) (hc : p c = false) : c ∈ s.rdropWhile p := by
  unfold List.rdropWhile
  rw [List.mem_reverse]
  exact mem_dropWhile_of_false p (List.mem_reverse.2 h) hc

theorem IsIncompleteTail.of_pfx {t tail : Str} (h : IsIncompleteTail tail) (ht : t <+: tail) :
    IsIncompleteTail t := by
  rcases h with ⟨w1, w2, hw1, hw2, hp⟩ | ⟨w1, w2, o, ms, hw1, hw2, ho, hp⟩
  · exact Or.inl ⟨w1, w2, hw1, hw2, ht.trans hp⟩
  · exact Or.inr ⟨w1, w2, o, ms, hw1, hw2, ho, ht.trans hp⟩

/-- The slice that `splitContent` hands to the parser, for a text that starts
with `[`, reaches a closing brace and goes on with `tail`: when the fence
expression does not match and the last `]`, if there is one, stands in the
tail, the slice is the head and a prefix of the tail. -/
theorem sliceResponse_head_tail (x tail : Str)
    (hfence : fenceMatch ['j', 's', 'o', 'n'] (trim (('[' :: x ++ ['}']) ++ tail)) = none)
    (hb : ']' ∈ tail ∨ ']' ∉ x) :
    ∃ t2, t2 <+: tail ∧
      sliceResponse (('[' :: x ++ ['}']) ++ tail) = ('[' :: x ++ ['}']) ++ t2 := by
  have htrim := trim_head_tail '[' x '}' tail (by decide) (by decide)
  rw [htrim] at hfence
  unfold sliceResponse
  simp only [htrim, hfence]
  have hstart : indexOf (('[' :: x ++ ['}']) ++ tail.rdropWhile isJsSpace) '[' = 0 :=
    indexOf_head _ _
  rw [hstart]
  by_cases hm : ']' ∈ tail.rdropWhile isJsSpace
  · obtain ⟨a, b, e, hnb⟩ := exists_last_split hm
    refine ⟨a ++ [']'], ?_, ?_⟩
    · refine List.IsPrefix.trans ?_ (List.rdropWhile_prefix isJsSpace tail)
      rw [e]
      exact ⟨b, by simp⟩
    · have hend : lastIndexOf (('[' :: x ++ ['}']) ++ tail.rdropWhile isJsSpace) ']' =
          (((('[' :: x ++ ['}']) ++ a).length : Nat) : Int) := by
        unfold lastIndexOf
        have := lastIndexOfFrom_split ']' 0 (-1) (('[' :: x ++ ['}']) ++ a) b hnb
        rw [e, ← List.append_assoc, this, Nat.zero_add]
      rw [hend]
      have hc : (0 : Int) ≠ -1 ∧ (((('[' :: x ++ ['}']) ++ a).length : Nat) : Int) ≠ -1 ∧
          (((('[' :: x ++ ['}']) ++ a).length : Nat) : Int) > 0 := by
        refine ⟨by decide, ?_, ?_⟩
        · omega
        · simp only [List.length_append, List.length_cons]; omega
      rw [if_pos hc]
      have e2 : ((((('[' :: x ++ ['}']) ++ a).length : Nat) : Int) + 1).toNat =
          (('[' :: x ++ ['}']) ++ a).length + 1 := by
        omega
      unfold substring
      rw [e2, e, Int.toNat_zero, List.drop_zero, ← List.append_assoc]
      have e3 : (('[' :: x ++ ['}']) ++ a) ++ ']' :: b =
          ((('[' :: x ++ ['}']) ++ a) ++ [']']) ++ b := by simp
      rw [e3]
      have e4 : (('[' :: x ++ ['}']) ++ a).length + 1 =
          ((('[' :: x ++ ['}']) ++ a) ++ [']']).length := by
        simp only [List.length_append, List.length_cons, List.length_nil]
      rw [e4, List.take_left, List.append_assoc]
  · have hx : ']' ∉ x := by
      rcases hb with h | h
      · exact absurd (mem_rdropWhile_of_false isJsSpace h (by decide)) hm
      · exact h
    refine ⟨tail.rdropWhile isJsSpace, List.rdropWhile_prefix isJsSpace tail, ?_⟩
    have hnone : ']' ∉ ('[' :: x ++ ['}']) ++ tail.rdropWhile isJsSpace := by
      intro h
      rcases List.mem_append.1 h with h1 | h1
      · rcases List.mem_cons.1 h1 with h2 | h2
        · revert h2; decide
        · rcases List.mem_append.1 h2 with h3 | h3
          · exact hx h3
          · rw [List.mem_singleton] at h3; revert h3; decide
      · exact hm h1
    have hend : lastIndexOf (('[' :: x ++ ['}']) ++ tail.rdropWhile isJsSpace) ']' = -1 :=
      lastIndexOfFrom_of_not_mem _ _ _ _ hnone
    rw [hend]
    have hc : ¬ ((0 : Int) ≠ -1 ∧ (-1 : Int) ≠ -1 ∧ (-1 : Int) > 0) := by decide
    rw [if_neg hc, if_pos (by decide)]
    rfl

theorem parseJSON_none_of_stack {s : Str} {st : JState} (h : jrun JState.init s = some st)
    (hs : st.par.stack ≠ []) : parseJSON s = none := by
  have key : ∀ toks ps, lexFinish st.lex = some toks → feed st.par toks = some ps →
      ps.stack ≠ [] := by
    intro toks ps hl hf
    have hcases : toks = [] ∨ ∃ l, toks = [.num l] := by
      cases hx : st.lex with
      | idle => rw [hx] at hl; cases hl; exact Or.inl rfl
      | number n acc =>
        rw [hx] at hl
        cases n <;> first | (cases hl; exact Or.inr ⟨_, rfl⟩) | cases hl
      | _ => rw [hx] at hl; cases hl
    rcases hcases with e | ⟨l, e⟩
    · subst e
      cases hf
      exact hs
    · subst e
      simp only [feed] at hf
      cases hp : pstep st.par (.num l) with
      | none => rw [hp] at hf; cases hf
      | some ps1 =>
        rw [hp] at hf
        cases hf
        rw [pstep_num_stack hp]
        exact hs
  have hfin : jfinish st = none := by
    unfold jfinish
    cases hl : lexFinish st.lex with
    | none => rfl
    | some toks =>
      cases hf : feed st.par toks with
      | none => simp only [hf]
      | some ps =>
        have hne := key toks ps hl hf
        obtain ⟨m, stk⟩ := ps
        cases stk with
        | nil => exact absurd rfl hne
        | cons f K => cases m <;> simp only [hf]
  unfold parseJSON
  rw [h]
  exact hfin

theorem parseJSON_none_of_jrun {s : Str} (h : jrun JState.init s = none) : parseJSON s = none := by
  unfold parseJSON
  rw [h]

/-- The direct parse of the complete objects followed by an incomplete tail:
it yields the array of the complete objects (the tail closed the array) or it
throws. -/
theorem parseJSON_head_tail (done : List (Str × List (Str × JSONValue))) (o : Str)
    (ms : List (Str × JSONValue)) (t : Str)
    (hdone : ∀ e ∈ done, parseJSON e.1 = some (.obj e.2))
    (ho : parseJSON o = some (.obj ms)) (ht : IsIncompleteTail t) :
    parseJSON (('[' :: joinElems (done.map Prod.fst ++ [o])) ++ t) =
        some (.arr ((done.map fun e => .obj e.2) ++ [.obj ms])) ∨
      parseJSON (('[' :: joinElems (done.map Prod.fst ++ [o])) ++ t) = none := by
  have hrun := jrun_array_head done o ms hdone ho
  generalize ('[' :: joinElems (done.map Prod.fst ++ [o])) = head at hrun ⊢
  generalize (done.map fun e => JSONValue.obj e.2) = vals at hrun ⊢
  have stuck : ∀ (t : Str) (st : JState),
      jrun ⟨.idle, ⟨.done (.obj ms), [.arr vals]⟩⟩ t = some st → st.par.stack ≠ [] →
      parseJSON (head ++ t) = none :=
    fun t st h hs => parseJSON_none_of_stack (jrun_append_some hrun h) hs
  have wsStuck : ∀ t : Str, allJsonWs t → parseJSON (head ++ t) = none :=
    fun t hw => stuck t _ (jrun_ws _ t hw) (by simp)
  rcases ht with ⟨w1, w2, hw1, hw2, hp⟩ | ⟨w1, w2, o2, ms2, hw1, hw2, ho2, hp⟩
  · rcases pfx_append_cases hp with h | ⟨q, hq, rfl⟩
    · exact Or.inr (wsStuck _ fun c hc => hw1 c (h.subset hc))
    · cases q with
      | nil => right; rw [List.append_nil]; exact wsStuck _ hw1
      | cons c q1 =>
        obtain ⟨rfl, hq1⟩ := List.cons_prefix_cons.1 hq
        left
        apply parseJSON_of_jrun
        refine jrun_append_some hrun (jrun_append_some (jrun_ws _ w1 hw1) ?_)
        simp only [jrun, jstep_close_arr]
        exact jrun_ws _ q1 fun c hc => hw2 c (hq1.subset hc)
  · right
    have hcomma : ∀ q1 : Str,
        jrun ⟨.idle, ⟨.done (.obj ms), [.arr vals]⟩⟩ (w1 ++ ',' :: q1) =
          jrun ⟨.idle, ⟨.value, [.arr (vals ++ [.obj ms])]⟩⟩ q1 := by
      intro q1
      rw [jrun_append, jrun_ws _ w1 hw1]
      simp only [Option.bind, jrun, jstep_comma_arr]
    rcases pfx_append_cases hp with h | ⟨r, hr, rfl⟩
    · rcases pfx_append_cases h with h1 | ⟨q, hq, rfl⟩
      · exact wsStuck _ fun c hc => hw1 c (h1.subset hc)
      · cases q with
        | nil => rw [List.append_nil]; exact wsStuck _ hw1
        | cons c q1 =>
          obtain ⟨rfl, hq1⟩ := List.cons_prefix_cons.1 hq
          exact stuck _ _
            ((hcomma q1).trans (jrun_ws _ q1 fun c hc => hw2 c (hq1.subset hc))) (by simp)
    · obtain ⟨rest, hrest⟩ := hr.trans (List.dropLast_prefix o2)
      obtain ⟨st, hst, _, _⟩ := parseJSON_inv ho2.2.2
      rw [← hrest] at hst
      obtain ⟨st1, h1, _⟩ := jrun_append_inv hst
      have hl := jrun_lift [.arr (vals ++ [.obj ms])] h1
      have h2 : jrun ⟨.idle, ⟨.value, [.arr (vals ++ [.obj ms])]⟩⟩ (w2 ++ r) =
          some (st1.lift [.arr (vals ++ [.obj ms])]) := by
        rw [jrun_append, jrun_ws _ w2 hw2]
        simpa [JState.lift, PState.lift, JState.init] using hl
      rw [List.append_assoc, List.cons_append]
      exact stuck _ _ ((hcomma (w2 ++ r)).trans h2) (by simp [JState.lift, PState.lift])

/-- Where the slice of the second step does no harm: for an array of objects cut
off after at least one complete object (the complete objects `done` and `o`,
then an incomplete `tail`), on which the fence expression of the first step
does not match and whose last `]`, if the text has one, stands in the tail,
`splitContent` returns, from the direct parse or from the repaired text,
exactly the complete objects, in their order and with their members. -/
theorem splitContentParse_truncated_array (done : List (Str × List (Str × JSONValue)))
    (o : Str) (ms : List (Str × JSONValue)) (tail : Str)
    (hdone : ∀ e ∈ done, parseJSON e.1 = some (.obj e.2))
    (ho : parseJSON o = some (.obj ms)) (hlast : o.getLast? = some '}')
    (htail : IsIncompleteTail tail)
    (hfence : fenceMatch ['j', 's', 'o', 'n']
      (trim (('[' :: joinElems (done.map Prod.fst ++ [o])) ++ tail)) = none)
    (hb : ']' ∈ tail ∨ ']' ∉ joinElems (done.map Prod.fst ++ [o])) :
    splitContentParse (('[' :: joinElems (done.map Prod.fst ++ [o])) ++ tail) =
        .direct (.arr ((done.map fun e => .obj e.2) ++ [.obj ms])) ∨
      splitContentParse (('[' :: joinElems (done.map Prod.fst ++ [o])) ++ tail) =
        .repaired (.arr ((done.map fun e => .obj e.2) ++ [.obj ms])) := by
  obtain ⟨pre, hpre⟩ := joinElems_append_last (done.map Prod.fst) o
  have hone : o ≠ [] := by
    intro h; rw [h] at hlast; simp at hlast
  have hosplit : o = o.dropLast ++ ['}'] := by
    have := List.dropLast_append_getLast hone
    rw [List.getLast?_eq_getLast _ hone] at hlast
    rw [Option.some.inj hlast] at this
    exact this.symm
  have hh0 : ('[' :: joinElems (done.map Prod.fst ++ [o])) =
      '[' :: (pre ++ o.dropLast) ++ ['}'] := by
    rw [hpre]
    nth_rewrite 1 [hosplit]
    simp
  have hb1 : ']' ∈ tail ∨ ']' ∉ pre ++ o.dropLast := by
    rcases hb with h | h
    · exact Or.inl h
    · refine Or.inr fun hm => h ?_
      rw [hpre]
      nth_rewrite 1 [hosplit]
      rw [← List.append_assoc]
      exact List.mem_append_left _ hm
  have hslice : ∃ t2, t2 <+: tail ∧
      sliceResponse (('[' :: joinElems (done.map Prod.fst ++ [o])) ++ tail) =
        ('[' :: joinElems (done.map Prod.fst ++ [o])) ++ t2 := by
    rw [hh0] at hfence ⊢
    exact sliceResponse_head_tail (pre ++ o.dropLast) tail hfence hb1
  obtain ⟨t2, ht2, hs⟩ := hslice
  have ht2i := htail.of_pfx ht2
  unfold splitContentParse
  rw [hs]
  rcases parseJSON_head_tail done o ms t2 hdone ho ht2i with h | h
  · left
    simp only [h]
  · right
    simp only [h, repairTruncatedJSON_array_text done o ms t2 hdone ho hlast ht2i,
      parseJSON_closed_array done o ms hdone ho]

theorem splitContentParse_truncated_array_witness :
    splitContentParse
        (('[' :: joinElems ([("\x7b\"title\":\"A\"\x7d".toList,
            [("title".toList, JSONValue.str "A".toList)])].map Prod.fst ++
          ["\x7b\"title\":\"B\",\"keyPoints\":[]\x7d".toList])) ++
          ",\x7b\"title\":\"C\",\"keyPoints\":[\"x\"]".toList) =
        .direct (.arr (([("\x7b\"title\":\"A\"\x7d".toList,
            [("title".toList, JSONValue.str "A".toList)])].map fun e => JSONValue.obj e.2) ++
          [.obj [("title".toList, .str "B".toList), ("keyPoints".toList, .arr [])]])) ∨
      splitContentParse
        (('[' :: joinElems ([("\x7b\"title\":\"A\"\x7d".toList,
            [("title".toList, JSONValue.str "A".toList)])].map Prod.fst ++
          ["\x7b\"title\":\"B\",\"keyPoints\":[]\x7d".toList])) ++
          ",\x7b\"title\":\"C\",\"keyPoints\":[\"x\"]".toList) =
        .repaired (.arr (([("\x7b\"title\":\"A\"\x7d".toList,
            [("title".toList, JSONValue.str "A".toList)])].map fun e => JSONValue.obj e.2) ++
          [.obj [("title".toList, .str "B".toList), ("keyPoints".toList, .arr [])]])) :=
  splitContentParse_truncated_array
    [("\x7b\"title\":\"A\"\x7d".toList, [("title".toList, JSONValue.str "A".toList)])]
    "\x7b\"title\":\"B\",\"keyPoints\":[]\x7d".toList
    [("title".toList, .str "B".toList), ("keyPoints".toList, .arr [])]
    ",\x7b\"title\":\"C\",\"keyPoints\":[\"x\"]".toList
    (by
      intro e he
      rw [List.mem_singleton] at he
      subst he
      rfl)
    rfl rfl
    (Or.inr ⟨[], [], "\x7b\"title\":\"C\",\"keyPoints\":[\"x\"]\x7d".toList,
      [("title".toList, .str "C".toList), ("keyPoints".toList, .arr [.str "x".toList])],
      (by intro c hc; cases hc), (by intro c hc; cases hc),
      ⟨rfl, rfl, rfl⟩, ⟨[], rfl⟩⟩)
    rfl (Or.inl (by decide))

/-- C1: on a truncated array whose complete first object holds a nested array,
the slice of the second step takes the `]` of the nested array for the end of
the array, although the array was never closed, and ends inside the complete
object.  `splitContent` then returns the one property before the nested array
and not the complete object, which `repairTruncatedJSON` recovers from the
whole text.  With two complete pages and a third page cut in its title, the
slice ends inside the second page and only the first page is returned, where
the repair of the whole text gives both. -/
theorem splitContentParse_slice_ends_in_complete_object :
    parseJSON "\x7b\"title\":\"A\",\"keyPoints\":[\"x\"],\"content\":\"c\"\x7d".toList =
      some (.obj [("title".toList, .str "A".toList),
        ("keyPoints".toList, .arr [.str "x".toList]), ("content".toList, .str "c".toList)]) ∧
    sliceResponse
        "[\x7b\"title\":\"A\",\"keyPoints\":[\"x\"],\"content\":\"c\"\x7d,\x7b\"title\":\"B\"".toList =
      "[\x7b\"title\":\"A\",\"keyPoints\":[\"x\"]".toList ∧
    splitContentParse
        "[\x7b\"title\":\"A\",\"keyPoints\":[\"x\"],\"content\":\"c\"\x7d,\x7b\"title\":\"B\"".toList =
      .repaired (.arr [.obj [("title".toList, .str "A".toList)]]) ∧
    parseJSON (repairTruncatedJSON
        "[\x7b\"title\":\"A\",\"keyPoints\":[\"x\"],\"content\":\"c\"\x7d,\x7b\"title\":\"B\"".toList) =
      some (.arr [.obj [("title".toList, .str "A".toList),
        ("keyPoints".toList, .arr [.str "x".toList]), ("content".toList, .str "c".toList)]]) ∧
    sliceResponse
        ("[\x7b\"title\":\"A\",\"keyPoints\":[\"x\"]\x7d,".toList ++
          "\x7b\"title\":\"B\",\"keyPoints\":[\"y\"]\x7d,\x7b\"title\":\"C".toList) =
      "[\x7b\"title\":\"A\",\"keyPoints\":[\"x\"]\x7d,".toList ++
        "\x7b\"title\":\"B\",\"keyPoints\":[\"y\"]".toList ∧
    splitContentParse
        ("[\x7b\"title\":\"A\",\"keyPoints\":[\"x\"]\x7d,".toList ++
          "\x7b\"title\":\"B\",\"keyPoints\":[\"y\"]\x7d,\x7b\"title\":\"C".toList) =
      .repaired (.arr [.obj [("title".toList, .str "A".toList),
        ("keyPoints".toList, .arr [.str "x".toList])]]) ∧
    parseJSON (repairTruncatedJSON
        ("[\x7b\"title\":\"A\",\"keyPoints\":[\"x\"]\x7d,".toList ++
          "\x7b\"title\":\"B\",\"keyPoints\":[\"y\"]\x7d,\x7b\"title\":\"C".toList)) =
      some (.arr [.obj [("title".toList, .str "A".toList),
          ("keyPoints".toList, .arr [.str "x".toList])],
        .obj [("title".toList, .str "B".toList),
          ("keyPoints".toList, .arr [.str "y".toList])]]) := by
  refine ⟨?_, ?_, ?_, ?_, ?_, ?_, ?_⟩ <;> rfl

/-! ## The fields of the image results -/

theorem statusIs_eq {status : Option Str} {c : String} (h : statusIs status c = true) :
    status = some c.toList := by
  unfold statusIs at h
  exact eq_of_beq h

theorem pollDashScopeLoop_ok (answers : Nat → DashScopePoll) (n polls : Nat) (sleeps : List Nat)
    (imgs : List ImageResult)
    (h : (pollDashScopeLoop answers n polls sleeps).outcome = .ok imgs) :
    ∃ k out rs, polls ≤ k ∧ k < polls + n ∧ answers k = .body (some out) ∧
      out.task_status = some "SUCCEEDED".toList ∧ out.results = some rs ∧
      imgs = mapResults rs := by
  induction n generalizing polls sleeps with
  | zero => simp [pollDashScopeLoop] at h
  | succ n ih =>
    have hnext : ∀ sl, (pollDashScopeLoop answers n (polls + 1) sl).outcome = .ok imgs →
        ∃ k out rs, polls ≤ k ∧ k < polls + (n + 1) ∧ answers k = .body (some out) ∧
          out.task_status = some "SUCCEEDED".toList ∧ out.results = some rs ∧
          imgs = mapResults rs := by
      intro sl hs
      obtain ⟨k, out, rs, h1, h2, h3⟩ := ih _ _ hs
      exact ⟨k, out, rs, by omega, by omega, h3⟩
    unfold pollDashScopeLoop at h
    cases ha : answers polls with
    | httpError =>
      rw [ha] at h
      exact hnext _ h
    | body output =>
      rw [ha] at h
      simp only at h
      split at h
      · rename_i rs hst hrs
        simp only [Except.ok.injEq] at h
        cases output with
        | none => cases hrs
        | some out =>
          exact ⟨polls, out, rs, Nat.le_refl _, by omega, ha, statusIs_eq hst, hrs, h.symm⟩
      · split at h
        · simp at h
        · exact hnext _ h

theorem pollModelScopeLoop_ok (answers : Nat → ModelScopePoll) (n polls : Nat)
    (sleeps : List Nat) (imgs : List ImageResult)
    (h : (pollModelScopeLoop answers n polls sleeps).outcome = .ok imgs) :
    ∃ k first rest message, polls ≤ k ∧ k < polls + n ∧
      answers k = .body (some "SUCCEED".toList) (some (first :: rest)) message ∧
      imgs = [⟨some first, none⟩] := by
  induction n generalizing polls sleeps with
  | zero => simp [pollModelScopeLoop] at h
  | succ n ih =>
    have hnext : ∀ sl, (pollModelScopeLoop answers n (polls + 1) sl).outcome = .ok imgs →
        ∃ k first rest message, polls ≤ k ∧ k < polls + (n + 1) ∧
          answers k = .body (some "SUCCEED".toList) (some (first :: rest)) message ∧
          imgs = [⟨some first, none⟩] := by
      intro sl hs
      obtain ⟨k, first, rest, message, h1, h2, h3⟩ := ih _ _ hs
      exact ⟨k, first, rest, message, by omega, by omega, h3⟩
    unfold pollModelScopeLoop at h
    cases ha : answers polls with
    | httpError =>
      rw [ha] at h
      exact hnext _ h
    | body status images message =>
      rw [ha] at h
      simp only at h
      split at h
      · rename_i hst
        split at h
        · rename_i first rest
          simp only [Except.ok.injEq] at h
          rw [statusIs_eq hst] at ha
          exact ⟨polls, first, rest, message, Nat.le_refl _, by omega, ha, h.symm⟩
        · simp at h
      · split at h
        · simp at h
        · exact hnext _ h

theorem firstImage_truthy (items : List (Option Str)) (img : Str)
    (h : firstImage items = some img) : truthy (some img) = true := by
  induction items with
  | nil => simp [firstImage] at h
  | cons item rest ih =>
    unfold firstImage at h
    by_cases ht : truthy item = true
    · rw [if_pos ht] at h
      rw [← h]; exact ht
    · rw [if_neg ht] at h
      exact ih h

theorem inlineImage_truthy (out : DashScopeOutput) (img : Str)
    (h : inlineImage out = some img) : truthy (some img) = true := by
  unfold inlineImage at h
  split at h
  · split at h
    · exact firstImage_truthy _ _ h
    · cases h
  · cases h

theorem interpretDashScope_result (output : Option DashScopeOutput) (imgs : List ImageResult)
    (h : interpretDashScope output = .result imgs) :
    ∃ out, output = some out ∧
      ((∃ img, inlineImage out = some img ∧ truthy (some img) = true ∧
          imgs = [⟨some img, none⟩]) ∨
        (inlineImage out = none ∧ ∃ rs, out.results = some rs ∧ imgs = mapResults rs)) := by
  unfold interpretDashScope at h
  cases output with
  | none => simp at h
  | some out =>
    refine ⟨out, rfl, ?_⟩
    simp only at h
    cases hi : inlineImage out with
    | some img =>
      rw [hi] at h
      simp only [DashScopeAction.result.injEq] at h
      exact Or.inl ⟨img, rfl, inlineImage_truthy out img hi, h.symm⟩
    | none =>
      rw [hi] at h
      simp only at h
      cases hr : out.results with
      | some rs =>
        rw [hr] at h
        simp only [DashScopeAction.result.injEq] at h
        exact Or.inr ⟨rfl, rs, rfl, h.symm⟩
      | none =>
        rw [hr] at h
        simp only at h
        split at h <;> cases h

theorem truthy_orUndefined (s : Option Str) : truthy (orUndefined s) = truthy s := by
  unfold orUndefined
  by_cases hs : truthy s = true
  · rw [if_pos hs]
  · rw [if_neg hs]
    simp only [Bool.not_eq_true] at hs
    rw [hs]; rfl

/-- C21, as the code has it: the list a successful `callImageModel` returns is
determined by the provider's answer.  On the DashScope path it is the one
inline image of the submit response as `url`, without data; or, when the
response has no inline image, the entries of its result list, each with `url`
and `b64_json` taken from the entry's `url` and `b64_image` when these are not
empty; or, when the response started a task, the entries of the result list of
a status answer that reports `SUCCEEDED`, mapped the same way.  On the
ModelScope path it is the first output image of a status answer that reports
`SUCCEED`, as `url`, without data.  On the OpenAI-compatible path it is the
provider's `data` as it came.  An element built from a result entry has
exactly one populated field exactly when the entry has exactly one of the two
non-empty, and an element with a `url` only has one exactly when that `url` is
not empty. -/
theorem callImageModel_result_fields (baseUrl : Str) (a : ImageAnswers)
    (imgs : List ImageResult) (h : callImageModelOk baseUrl a = .ok imgs) :
    (callImageModelPath baseUrl = .dashScope →
      (∃ out img, a.dashScope = some out ∧ inlineImage out = some img ∧
        truthy (some img) = true ∧ imgs = [⟨some img, none⟩]) ∨
      (∃ out rs, a.dashScope = some out ∧ inlineImage out = none ∧ out.results = some rs ∧
        imgs = rs.map fun p => ⟨orUndefined p.url, orUndefined p.b64_image⟩) ∨
      (∃ t k out rs, interpretDashScope a.dashScope = .poll t ∧ k < 60 ∧
        a.dashScopePolls k = .body (some out) ∧
        out.task_status = some "SUCCEEDED".toList ∧ out.results = some rs ∧
        imgs = rs.map fun p => ⟨orUndefined p.url, orUndefined p.b64_image⟩)) ∧
    (callImageModelPath baseUrl = .modelScope →
      ∃ k first rest message, k < 40 ∧
        a.modelScopePolls k = .body (some "SUCCEED".toList) (some (first :: rest)) message ∧
        imgs = [⟨some first, none⟩]) ∧
    (callImageModelPath baseUrl = .openAICompatible → imgs = a.openAI) ∧
    (∀ img : Str, (⟨some img, none⟩ : ImageResult).exactlyOne = truthy (some img)) ∧
    (∀ p : DashScopeResult,
      (⟨orUndefined p.url, orUndefined p.b64_image⟩ : ImageResult).exactlyOne =
        (truthy p.url != truthy p.b64_image)) := by
  unfold callImageModelOk at h
  refine ⟨fun hp => ?_, fun hp => ?_, fun hp => ?_, fun img => ?_, fun p => ?_⟩
  · rw [hp] at h
    simp only at h
    unfold callDashScopeImageOk at h
    cases hi : interpretDashScope a.dashScope with
    | result images =>
      rw [hi] at h
      simp only [Except.ok.injEq] at h
      subst h
      obtain ⟨out, ho, hcase⟩ := interpretDashScope_result _ _ hi
      rcases hcase with ⟨img, h1, h2, h3⟩ | ⟨h1, rs, h2, h3⟩
      · exact Or.inl ⟨out, img, ho, h1, h2, h3⟩
      · exact Or.inr (Or.inl ⟨out, rs, ho, h1, h2, h3⟩)
    | poll t =>
      rw [hi] at h
      obtain ⟨k, out, rs, _, hk, h1, h2, h3, h4⟩ := pollDashScopeLoop_ok _ _ _ _ _ h
      exact Or.inr (Or.inr ⟨t, k, out, rs, rfl, by omega, h1, h2, h3, h4⟩)
    | formatError =>
      rw [hi] at h
      simp at h
  · rw [hp] at h
    simp only at h
    obtain ⟨k, first, rest, message, _, hk, h1, h2⟩ := pollModelScopeLoop_ok _ _ _ _ _ h
    exact ⟨k, first, rest, message, by omega, h1, h2⟩
  · rw [hp] at h
    simp only [Except.ok.injEq] at h
    exact h.symm
  · show (truthy (some img) != truthy none) = truthy (some img)
    cases truthy (some img) <;> rfl
  · simp only [ImageResult.exactlyOne, truthy_orUndefined]

theorem callImageModel_result_fields_witness :
    (callImageModelPath "https://api-inference.modelscope.cn".toList = .dashScope →
      (∃ out img, modelScopeAnswers.dashScope = some out ∧ inlineImage out = some img ∧
        truthy (some img) = true ∧
        [(⟨some "https://cdn.example/a.png".toList, none⟩ : ImageResult)] =
          [⟨some img, none⟩]) ∨
      (∃ out rs, modelScopeAnswers.dashScope = some out ∧ inlineImage out = none ∧
        out.results = some rs ∧
        [(⟨some "https://cdn.example/a.png".toList, none⟩ : ImageResult)] =
          rs.map fun p => ⟨orUndefined p.url, orUndefined p.b64_image⟩) ∨
      (∃ t k out rs, interpretDashScope modelScopeAnswers.dashScope = .poll t ∧ k < 60 ∧
        modelScopeAnswers.dashScopePolls k = .body (some out) ∧
        out.task_status = some "SUCCEEDED".toList ∧ out.results = some rs ∧
        [(⟨some "https://cdn.example/a.png".toList, none⟩ : ImageResult)] =
          rs.map fun p => ⟨orUndefined p.url, orUndefined p.b64_image⟩)) ∧
    (callImageModelPath "https://api-inference.modelscope.cn".toList = .modelScope →
      ∃ k first rest message, k < 40 ∧
        modelScopeAnswers.modelScopePolls k =
          .body (some "SUCCEED".toList) (some (first :: rest)) message ∧
        [(⟨some "https://cdn.example/a.png".toList, none⟩ : ImageResult)] =
          [⟨some first, none⟩]) ∧
    (callImageModelPath "https://api-inference.modelscope.cn".toList = .openAICompatible →
      [(⟨some "https://cdn.example/a.png".toList, none⟩ : ImageResult)] =
        modelScopeAnswers.openAI) ∧
    (∀ img : Str, (⟨some img, none⟩ : ImageResult).exactlyOne = truthy (some img)) ∧
    (∀ p : DashScopeResult,
      (⟨orUndefined p.url, orUndefined p.b64_image⟩ : ImageResult).exactlyOne =
        (truthy p.url != truthy p.b64_image)) :=
  callImageModel_result_fields "https://api-inference.modelscope.cn".toList modelScopeAnswers
    [⟨some "https://cdn.example/a.png".toList, none⟩] rfl

/-- C21 fails as stated: a DashScope result entry that carries both a URL and
inline data gives an image result with both fields populated, an entry that
carries neither gives one with no field populated; a ModelScope task whose
first output image is the empty string gives a result with no field populated;
and the OpenAI-compatible path returns whatever the provider sent. -/
theorem callImageModel_fields_not_exclusive :
    callImageModelOk "https://dashscope.aliyuncs.com/api/v1".toList
        ⟨some ⟨none, some [⟨some "u".toList, some "b".toList⟩, ⟨none, none⟩], none, none, none⟩,
          fun _ => .httpError, fun _ => .httpError, []⟩ =
      .ok [⟨some "u".toList, some "b".toList⟩, ⟨none, none⟩] ∧
    (⟨some "u".toList, some "b".toList⟩ : ImageResult).exactlyOne = false ∧
    (⟨none, none⟩ : ImageResult).exactlyOne = false ∧
    callImageModelOk "https://api-inference.modelscope.cn".toList
        ⟨none, fun _ => .httpError, fun _ => .body (some "SUCCEED".toList) (some [[]]) none, []⟩ =
      .ok [⟨some [], none⟩] ∧
    (⟨some [], none⟩ : ImageResult).exactlyOne = false ∧
    callImageModelOk "https://api.openai.com/v1".toList
        ⟨none, fun _ => .httpError, fun _ => .httpError,
          [⟨some "u".toList, some "b".toList⟩]⟩ =
      .ok [⟨some "u".toList, some "b".toList⟩] := by
  refine ⟨?_, ?_, ?_, ?_, ?_, ?_⟩ <;> rfl

/-! ## Credentials: the handlers, `generatePageImage` and `callTextModel` -/

/-- C22: the image gateway is only called with a configuration whose `baseUrl`
and `apiKey` are both non-empty, but the text gateway is called with whatever
configuration the request has.  The `generate-page` handler lets a body through
that configures the image model only; when the image gateway fails on it,
`generatePageImage` calls the text gateway with the empty configuration.  The
`regenerate-page` handler lets a body through that configures no model, and the
only call is the text call with the empty configuration. -/
theorem generatePageImage_text_call_unchecked :
    (∀ (W : World) (req : PageRequest),
      (generatePageImageCalls W req).all (fun c => !c.isImage || c.config.complete) = true) ∧
    generatePageHandler true sampleBody [] = .call (generatePageArgs sampleBody []) ∧
    (generatePageImageCalls failingImageWorld (generatePageArgs sampleBody [])).map
        (fun c => (c.isImage, c.config, c.config.complete)) =
      [(true, ⟨some "k".toList, some "https://img.example".toList, none⟩, true),
        (false, ⟨none, none, none⟩, false)] ∧
    regeneratePageHandler true false unconfiguredBody [] =
      .call (regeneratePageArgs unconfiguredBody []) ∧
    (generatePageImageCalls failingImageWorld (regeneratePageArgs unconfiguredBody [])).map
        (fun c => (c.isImage, c.config, c.config.complete)) =
      [(false, ⟨none, none, none⟩, false)] := by
  refine ⟨?_, rfl, rfl, rfl, rfl⟩
  intro W req
  unfold generatePageImageCalls
  by_cases hc : (truthy req.imageModelConfig.apiKey && truthy req.imageModelConfig.baseUrl) = true
  · rw [if_pos hc]
    have hcomplete : (imageCallOf req).config.complete = true := by
      simp only [Bool.and_eq_true] at hc
      simp [imageCallOf, ModelConfig.complete, hc.1, hc.2]
    rw [List.all_cons]
    simp only [ProviderCall.isImage, ProviderCall.config, hcomplete, Bool.not_true, Bool.or_true,
      Bool.true_and]
    cases W.callImageModel (imageCallOf req) with
    | error e => rfl
    | ok res =>
      cases res with
      | none => rfl
      | some l =>
        cases l with
        | nil => rfl
        | cons first rest =>
          simp only
          split
          · split <;> rfl
          · split <;> rfl
  · rw [if_neg hc]
    rfl

/-- C23: for a body with page data, the `generate-page` handler rejects the
request exactly when neither model has both an `apiKey` and a `baseUrl`, and
calls `generatePageImage` otherwise; the `regenerate-page` handler has no such
check: it calls `generatePageImage` for every such body, also for one that
configures no model, which `generate-page` rejects. -/
theorem page_handlers_configuration_check :
    (∀ (body : PageBody) (now : Str),
      generatePageHandler true body now =
        if isConfigured body.imageModelConfig || isConfigured body.textModelConfig then
          .call (generatePageArgs body now)
        else .reject 400 "请至少配置一个模型（图片模型或文本模型）") ∧
    (∀ (body : PageBody) (now : Str) (customPrompt : Bool),
      regeneratePageHandler true customPrompt body now = .call (regeneratePageArgs body now)) ∧
    isConfigured unconfiguredBody.imageModelConfig = false ∧
    isConfigured unconfiguredBody.textModelConfig = false ∧
    generatePageHandler true unconfiguredBody [] =
      .reject 400 "请至少配置一个模型（图片模型或文本模型）" ∧
    regeneratePageHandler true false unconfiguredBody [] =
      .call (regeneratePageArgs unconfiguredBody []) := by
  refine ⟨?_, ?_, rfl, rfl, rfl, rfl⟩
  · intro body now
    unfold generatePageHandler
    cases isConfigured body.imageModelConfig <;> cases isConfigured body.textModelConfig <;> rfl
  · intro body now customPrompt
    unfold regeneratePageHandler
    cases customPrompt <;> rfl

/-- C26, as the code has it: a call of `callTextModel` with an absent `baseUrl`
is not surfaced at once.  Every attempt throws a `TypeError` before a request
is sent, and the retry wrapper treats it as any other failure: three attempts,
delays of 1000 and 2000 ms, then the `TypeError` of the last attempt; no
request has been sent. -/
theorem callTextModel_absent_baseUrl_retried (cfg : ModelConfig) (answers : Nat → FetchAnswer)
    (h : cfg.baseUrl = none) :
    (callTextModel cfg answers).outcome = .error (some .typeError) ∧
    (callTextModel cfg answers).invocations = 3 ∧
    (callTextModel cfg answers).waits = [1000, 2000] ∧
    (callTextModel cfg answers).world = 0 := by
  have hfn : ∀ sent, callTextModelAttempt cfg answers sent = (.error .typeError, sent) := by
    intro sent
    unfold callTextModelAttempt isAnthropicProxyOpt
    rw [h]
    by_cases hm : (truthy cfg.model &&
        includes (toLowerCase (cfg.model.getD [])) "claude".toList) = true
    · rw [if_pos hm]
    · rw [if_neg hm]
  simp [callTextModel, callTextModelRetry, withRetry, withRetryLoop, hfn]

theorem callTextModel_absent_baseUrl_retried_witness :
    (callTextModel ⟨some "sk-1".toList, none, some "gpt-4o".toList⟩
        (fun _ => .ok "hello".toList)).outcome = .error (some .typeError) ∧
    (callTextModel ⟨some "sk-1".toList, none, some "gpt-4o".toList⟩
        (fun _ => .ok "hello".toList)).invocations = 3 ∧
    (callTextModel ⟨some "sk-1".toList, none, some "gpt-4o".toList⟩
        (fun _ => .ok "hello".toList)).waits = [1000, 2000] ∧
    (callTextModel ⟨some "sk-1".toList, none, some "gpt-4o".toList⟩
        (fun _ => .ok "hello".toList)).world = 0 :=
  callTextModel_absent_baseUrl_retried ⟨some "sk-1".toList, none, some "gpt-4o".toList⟩
    (fun _ => .ok "hello".toList) rfl

/-- C26 fails as stated: with no credentials at all `callTextModel` makes three
attempts and waits 1000 and 2000 ms between them; and with an absent `apiKey`
the request is sent all the same, and the provider's rejection is retried like
any other HTTP failure - three requests. -/
theorem callTextModel_missing_credentials_retried :
    (callTextModel ⟨none, none, none⟩ (fun _ => .throws)).invocations = 3 ∧
    (callTextModel ⟨none, none, none⟩ (fun _ => .throws)).waits = [1000, 2000] ∧
    (callTextModel ⟨none, some "https://api.example/v1".toList, some "m".toList⟩
        (fun _ => .status 401 "unauthorized".toList)).invocations = 3 ∧
    (callTextModel ⟨none, some "https://api.example/v1".toList, some "m".toList⟩
        (fun _ => .status 401 "unauthorized".toList)).waits = [1000, 2000] ∧
    (callTextModel ⟨none, some "https://api.example/v1".toList, some "m".toList⟩
        (fun _ => .status 401 "unauthorized".toList)).world = 3 := by
  refine ⟨?_, ?_, ?_, ?_, ?_⟩ <;> rfl

/-! ## The file name of the artifact -/

theorem digitChar_toNat (m : Nat) (hm : m < 10) : (Nat.digitChar m).toNat = 48 + m := by
  interval_cases m <;> rfl

theorem digitChar_isDigit (n : Nat) : isDigit (Nat.digitChar (n % 10)) = true := by
  have hlt : n % 10 < 10 := Nat.mod_lt _ (by decide)
  simp only [isDigit, digitChar_toNat _ hlt, Bool.and_eq_true, decide_eq_true_eq]
  omega

/-- The characters `Nat.toDigitsCore` puts in front of its accumulator are
decimal digits. -/
theorem toDigitsCore_chars (fuel n : Nat) (acc : List Char) (c : Char)
    (hc : c ∈ Nat.toDigitsCore 10 fuel n acc) : c ∈ acc ∨ isDigit c = true := by
  induction fuel generalizing n acc with
  | zero => exact Or.inl hc
  | succ fuel ih =>
    unfold Nat.toDigitsCore at hc
    simp only at hc
    have hcons : c ∈ Nat.digitChar (n % 10) :: acc → c ∈ acc ∨ isDigit c = true := by
      intro hm
      rcases List.mem_cons.1 hm with e | e
      · exact Or.inr (e ▸ digitChar_isDigit n)
      · exact Or.inl e
    by_cases h0 : n / 10 = 0
    · rw [if_pos h0] at hc
      exact hcons hc
    · rw [if_neg h0] at hc
      rcases ih _ _ hc with h1 | h1
      · exact hcons h1
      · exact Or.inr h1

/-- Reading the output of `Nat.toDigitsCore` as a decimal numeral, from the
left, gives what reading the accumulator gives when the reading starts from
`n`. -/
theorem toDigitsCore_value (fuel n : Nat) (acc : List Char) (hn : n < fuel) :
    (Nat.toDigitsCore 10 fuel n acc).foldl (fun a c => a * 10 + (c.toNat - 48)) 0 =
      acc.foldl (fun a c => a * 10 + (c.toNat - 48)) n := by
  induction fuel generalizing n acc with
  | zero => omega
  | succ fuel ih =>
    have hd : (Nat.digitChar (n % 10)).toNat - 48 = n % 10 := by
      rw [digitChar_toNat _ (Nat.mod_lt _ (by decide))]
      omega
    unfold Nat.toDigitsCore
    simp only
    by_cases h0 : n / 10 = 0
    · rw [if_pos h0, List.foldl_cons, hd]
      congr 1
      omega
    · rw [if_neg h0, ih (n / 10) _ (by omega), List.foldl_cons, hd]
      congr 1
      omega

theorem toDigits_chars (n : Nat) (c : Char) (hc : c ∈ Nat.toDigits 10 n) : isDigit c = true := by
  rcases toDigitsCore_chars (n + 1) n [] c hc with h | h
  · cases h
  · exact h

theorem toDigits_injective {a b : Nat} (h : Nat.toDigits 10 a = Nat.toDigits 10 b) : a = b := by
  have ha := toDigitsCore_value (a + 1) a [] (Nat.lt_succ_self a)
  have hb := toDigitsCore_value (b + 1) b [] (Nat.lt_succ_self b)
  have h1 : Nat.toDigitsCore 10 (a + 1) a [] = Nat.toDigitsCore 10 (b + 1) b [] := h
  rw [h1, hb] at ha
  exact ha.symm

theorem intToStr_chars (n : Int) : ∀ c ∈ intToStr n, isDigit c = true ∨ c = '-' := by
  intro c hc
  cases n with
  | ofNat k => exact Or.inl (toDigits_chars k c hc)
  | negSucc k =>
    rcases List.mem_cons.1 hc with h | h
    · exact Or.inr h
    · exact Or.inl (toDigits_chars (k + 1) c h)

theorem intToStr_injective {a b : Int} (h : intToStr a = intToStr b) : a = b := by
  have hhead : ∀ k : Nat, ∀ rest, Nat.toDigits 10 k ≠ '-' :: rest := by
    intro k rest he
    have := toDigits_chars k '-' (he ▸ List.mem_cons_self _ _)
    revert this; decide
  cases a with
  | ofNat k =>
    cases b with
    | ofNat l => rw [toDigits_injective h]
    | negSucc l => exact absurd h (hhead k _)
  | negSucc k =>
    cases b with
    | ofNat l => exact absurd h.symm (hhead l _)
    | negSucc l =>
      have := toDigits_injective (List.cons_injective h)
      have hkl : k = l := by omega
      rw [hkl]

theorem append_sep_inj {c : Char} : ∀ (d1 d2 a b : Str), c ∉ d1 → c ∉ d2 →
    d1 ++ c :: a = d2 ++ c :: b → d1 = d2 ∧ a = b := by
  intro d1
  induction d1 with
  | nil =>
    intro d2 a b _ h2 h
    cases d2 with
    | nil => exact ⟨rfl, List.cons_injective h⟩
    | cons x d2 =>
      have hx : c = x := List.head_eq_of_cons_eq h
      exact absurd (hx ▸ List.mem_cons_self _ _) h2
  | cons y d1 ih =>
    intro d2 a b h1 h2 h
    cases d2 with
    | nil =>
      have hx : y = c := List.head_eq_of_cons_eq h
      exact absurd (hx ▸ List.mem_cons_self _ _) h1
    | cons x d2 =>
      have hx : y = x := List.head_eq_of_cons_eq h
      have ht := List.tail_eq_of_cons_eq h
      obtain ⟨e1, e2⟩ := ih d2 a b (fun hm => h1 (List.mem_cons_of_mem _ hm))
        (fun hm => h2 (List.mem_cons_of_mem _ hm)) ht
      exact ⟨by rw [hx, e1], e2⟩

theorem sep_append_inj {c : Char} (a b d1 d2 : Str) (h1 : c ∉ d1) (h2 : c ∉ d2)
    (h : a ++ c :: d1 = b ++ c :: d2) : a = b ∧ d1 = d2 := by
  have hr := congrArg List.reverse h
  simp only [List.reverse_append, List.reverse_cons, List.append_assoc, List.singleton_append]
    at hr
  obtain ⟨e1, e2⟩ := append_sep_inj d1.reverse d2.reverse a.reverse b.reverse
    (by simpa using h1) (by simpa using h2) hr
  exact ⟨List.reverse_injective e2, List.reverse_injective e1⟩

/-- C24: the file name is `page_`, the session identifier, `_`, the decimal
page index and the extension, and for one extension two requests get the same
file name exactly when they have the same session identifier and the same page
index - whatever else differs between them, and whatever characters the
session identifiers hold. -/
theorem artifactFilename_collision_free (r1 r2 : PageRequest) (ext : String) :
    artifactFilename r1 ext =
        "page_".toList ++ r1.sessionId ++ "_".toList ++ intToStr r1.pageIndex ++ ext.toList ∧
      (artifactFilename r1 ext = artifactFilename r2 ext ↔
        r1.sessionId = r2.sessionId ∧ r1.pageIndex = r2.pageIndex) := by
  refine ⟨rfl, ⟨fun h => ?_, fun h => ?_⟩⟩
  · unfold artifactFilename at h
    have h1 := List.append_cancel_right h
    simp only [List.append_assoc] at h1
    have h2 := List.append_cancel_left h1
    have hu : ∀ n : Int, '_' ∉ intToStr n := by
      intro n hm
      rcases intToStr_chars n _ hm with hd | hd
      · revert hd; decide
      · revert hd; decide
    have h3 : r1.sessionId ++ '_' :: intToStr r1.pageIndex =
        r2.sessionId ++ '_' :: intToStr r2.pageIndex := h2
    obtain ⟨e1, e2⟩ := sep_append_inj _ _ _ _ (hu _) (hu _) h3
    exact ⟨e1, intToStr_injective e2⟩
  · unfold artifactFilename
    rw [h.1, h.2]

/-- C25: the session identifier goes into the file name as it is.  The file
name holds a path separator exactly when the session identifier does; for the
session identifier `a/../../x` the file name has four segments, two of them
`..`, and the file written is `x_0.html` in the server directory, outside the
`generated` directory, while the URL returned names
`/generated/page_a/../../x_0.html`. -/
theorem artifactFilename_path_traversal :
    (∀ (req : PageRequest), '/' ∈ artifactFilename req ".html" ↔ '/' ∈ req.sessionId) ∧
    (∀ (req : PageRequest), '/' ∈ artifactFilename req ".png" ↔ '/' ∈ req.sessionId) ∧
    artifactFilename traversalRequest ".html" = "page_a/../../x_0.html".toList ∧
    splitSegments (artifactFilename traversalRequest ".html") =
      ["page_a".toList, "..".toList, "..".toList, "x_0.html".toList] ∧
    artifactPath ["srv".toList, "aippt".toList, "server".toList] traversalRequest ".html" =
      ["srv".toList, "aippt".toList, "server".toList, "x_0.html".toList] ∧
    generatePageImage failingImageWorld traversalRequest =
      .ok ⟨"/generated/page_a/../../x_0.html".toList, some "<html>slide</html>".toList,
        .html_generation⟩ := by
  have hs : ∀ n : Int, '/' ∉ intToStr n := by
    intro n hm
    rcases intToStr_chars n _ hm with hd | hd
    · revert hd; decide
    · revert hd; decide
  have key : ∀ (req : PageRequest) (ext : String), '/' ∉ ext.toList →
      ('/' ∈ artifactFilename req ext ↔ '/' ∈ req.sessionId) := by
    intro req ext hext
    unfold artifactFilename
    constructor
    · intro h
      simp only [List.mem_append] at h
      rcases h with (((h | h) | h) | h) | h
      · exact absurd h (by decide)
      · exact h
      · exact absurd h (by decide)
      · exact absurd h (hs _)
      · exact absurd h hext
    · intro h
      simp only [List.mem_append]
      exact Or.inl (Or.inl (Or.inl (Or.inr h)))
  exact ⟨fun req => key req ".html" (by decide), fun req => key req ".png" (by decide),
    rfl, rfl, rfl, rfl⟩

/-! ## Reordering pages and their artifacts -/

theorem newIndex_injective (f t : Nat) {a b : Nat} (h : newIndex f t a = newIndex f t b) :
    a = b := by
  unfold newIndex at h
  split_ifs at h <;> omega

theorem lookup_none_of_not_mem {β : Type} (m : List (Nat × β)) (k : Nat)
    (h : k ∉ m.map Prod.fst) : m.lookup k = none := by
  induction m with
  | nil => rfl
  | cons e m ih =>
    obtain ⟨k1, v1⟩ := e
    have hk : k ≠ k1 := fun e => h (by simp [e])
    have hm : k ∉ m.map Prod.fst := fun hm => h (by simp only [List.map_cons]; exact List.mem_cons_of_mem _ hm)
    rw [List.lookup_cons]
    have : (k == k1) = false := by simpa using hk
    rw [this]
    exact ih hm

theorem lookup_of_mem_nodup {β : Type} (m : List (Nat × β)) (k : Nat) (v : β)
    (hn : (m.map Prod.fst).Nodup) (h : (k, v) ∈ m) : m.lookup k = some v := by
  induction m with
  | nil => cases h
  | cons e m ih =>
    obtain ⟨k1, v1⟩ := e
    rw [List.map_cons, List.nodup_cons] at hn
    rw [List.lookup_cons]
    rcases List.mem_cons.1 h with h1 | h1
    · cases h1
      simp
    · have hk : k ≠ k1 := by
        intro e
        apply hn.1
        rw [← e]
        exact List.mem_map.2 ⟨(k, v), h1, rfl⟩
      have : (k == k1) = false := by simpa using hk
      rw [this]
      exact ih hn.2 h1

theorem foldl_setKey {β : Type} (g : Nat → Nat) (l acc : List (Nat × β))
    (hn : ((acc ++ l.map fun e => (g e.1, e.2)).map Prod.fst).Nodup) :
    l.foldl (fun newMap e => setKey newMap (g e.1) e.2) acc =
      acc ++ l.map fun e => (g e.1, e.2) := by
  induction l generalizing acc with
  | nil => simp
  | cons e l ih =>
    have hnot : g e.1 ∉ acc.map Prod.fst := by
      intro hm
      rw [List.map_append, List.map_cons, List.map_cons] at hn
      have := (List.nodup_append.1 hn).2.2
      exact this hm (List.mem_cons_self _ _)
    have hset : setKey acc (g e.1) e.2 = acc ++ [(g e.1, e.2)] := by
      unfold setKey
      rw [lookup_none_of_not_mem acc _ hnot]
      rfl
    rw [List.foldl_cons, hset, ih]
    · simp
    · simpa using hn

theorem reorderPages_getElem? {α : Type} (undef : α) (pages : List α) (f t k : Nat)
    (hf : f < pages.length) (ht : t < pages.length) :
    (reorderPages undef f t pages)[k]? =
      if k < t then (if k < f then pages[k]? else pages[k + 1]?)
      else if k = t then pages[f]?
      else (if k - 1 < f then pages[k - 1]? else pages[k]?) := by
  have hlen : (pages.eraseIdx f).length = pages.length - 1 := by
    rw [List.length_eraseIdx, if_pos hf]
  have htake : ((pages.eraseIdx f).take t).length = t := by
    rw [List.length_take, hlen]
    omega
  unfold reorderPages
  simp only
  rw [List.getElem?_append, htake]
  by_cases h1 : k < t
  · rw [if_pos h1, if_pos h1, List.getElem?_take_of_lt h1, List.getElem?_eraseIdx]
  · rw [if_neg h1, if_neg h1]
    by_cases h2 : k = t
    · rw [if_pos h2, h2, Nat.sub_self, List.getElem?_cons_zero,
        List.getElem?_eq_getElem hf]
      rfl
    · rw [if_neg h2]
      obtain ⟨j, hj⟩ : ∃ j, k - t = j + 1 := ⟨k - t - 1, by omega⟩
      rw [hj, List.getElem?_cons_succ, List.getElem?_drop, List.getElem?_eraseIdx]
      have e1 : t + j = k - 1 := by omega
      have e2 : k - 1 + 1 = k := by omega
      rw [e1, e2]

/-- C30: for a page list, two different valid indices `fromIdx` and `toIdx`,
and an artifact map with one entry per key, `handleReorderPages` leaves the
length of the page list unchanged and puts the page formerly at `i` at
position `newIndex fromIdx toIdx i` - the page at `fromIdx` goes to `toIdx`
and the other pages keep their relative order; every artifact of the old map
is stored in the new map under the new position of its page; and the new map
has as many entries as the old one, under keys that are pairwise different. -/
theorem handleReorderPages_keeps_artifacts {α β : Type} (undef : α) (pages : List α)
    (fromIdx toIdx : Nat) (prev : List (Nat × β))
    (hf : fromIdx < pages.length) (ht : toIdx < pages.length) (hne : fromIdx ≠ toIdx)
    (hkeys : (prev.map Prod.fst).Nodup) :
    (reorderPages undef fromIdx toIdx pages).length = pages.length ∧
    (∀ i, i < pages.length →
      (reorderPages undef fromIdx toIdx pages)[newIndex fromIdx toIdx i]? = pages[i]?) ∧
    newIndex fromIdx toIdx fromIdx = toIdx ∧
    (∀ i j, i < j → i ≠ fromIdx → j ≠ fromIdx →
      newIndex fromIdx toIdx i < newIndex fromIdx toIdx j) ∧
    (∀ e ∈ prev, (reorderImages fromIdx toIdx prev).lookup (newIndex fromIdx toIdx e.1) =
      some e.2) ∧
    (reorderImages fromIdx toIdx prev).length = prev.length ∧
    ((reorderImages fromIdx toIdx prev).map Prod.fst).Nodup := by
  have hmapkeys : ((prev.map fun e => (newIndex fromIdx toIdx e.1, e.2)).map Prod.fst).Nodup := by
    rw [List.map_map]
    have : (Prod.fst ∘ fun e : Nat × β => (newIndex fromIdx toIdx e.1, e.2)) =
        (newIndex fromIdx toIdx) ∘ Prod.fst := rfl
    rw [this, ← List.map_map]
    exact hkeys.map fun a b h => newIndex_injective fromIdx toIdx h
  have himg : reorderImages fromIdx toIdx prev =
      prev.map fun e => (newIndex fromIdx toIdx e.1, e.2) := by
    unfold reorderImages
    rw [foldl_setKey (newIndex fromIdx toIdx) prev [] (by simpa using hmapkeys)]
    rfl
  refine ⟨?_, ?_, ?_, ?_, ?_, ?_, ?_⟩
  · unfold reorderPages
    simp only [List.length_append, List.length_cons, List.length_take, List.length_drop,
      List.length_eraseIdx, if_pos hf]
    omega
  · intro i hi
    rw [reorderPages_getElem? undef pages fromIdx toIdx _ hf ht]
    unfold newIndex
    split_ifs <;> first
      | rfl
      | (subst_vars; rfl)
      | (exfalso; omega)
      | (congr 1; omega)
  · unfold newIndex
    rw [if_pos rfl]
  · intro i j hij hi hj
    unfold newIndex
    split_ifs <;> omega
  · intro e he
    rw [himg]
    exact lookup_of_mem_nodup _ _ _ hmapkeys (List.mem_map.2 ⟨e, he, rfl⟩)
  · rw [himg, List.length_map]
  · rw [himg]
    exact hmapkeys

theorem handleReorderPages_keeps_artifacts_witness :
    (reorderPages "" 0 2 ["cover", "agenda", "body", "thanks"]).length =
      ["cover", "agenda", "body", "thanks"].length ∧
    (∀ i, i < ["cover", "agenda", "body", "thanks"].length →
      (reorderPages "" 0 2 ["cover", "agenda", "body", "thanks"])[newIndex 0 2 i]? =
        ["cover", "agenda", "body", "thanks"][i]?) ∧
    newIndex 0 2 0 = 2 ∧
    (∀ i j, i < j → i ≠ 0 → j ≠ 0 → newIndex 0 2 i < newIndex 0 2 j) ∧
    (∀ e ∈ [(0, "a.png"), (2, "c.html"), (3, "d.png")],
      (reorderImages 0 2 [(0, "a.png"), (2, "c.html"), (3, "d.png")]).lookup (newIndex 0 2 e.1) =
        some e.2) ∧
    (reorderImages 0 2 [(0, "a.png"), (2, "c.html"), (3, "d.png")]).length =
      [(0, "a.png"), (2, "c.html"), (3, "d.png")].length ∧
    ((reorderImages 0 2 [(0, "a.png"), (2, "c.html"), (3, "d.png")]).map Prod.fst).Nodup :=
  handleReorderPages_keeps_artifacts "" ["cover", "agenda", "body", "thanks"] 0 2
    [(0, "a.png"), (2, "c.html"), (3, "d.png")] (by decide) (by decide) (by decide) (by decide)

/-! ## Where the scan of `repairTruncatedJSON` records its offsets -/

theorem scanLoop_snoc (s : Str) (c : Char) (i : Nat) (σ : ScanState) :
    scanLoop i σ (s ++ [c]) = scanStep (i + s.length) (scanLoop i σ s) c := by
  rw [scanLoop_append]
  rfl

theorem take_snoc_of_lt {s : Str} {c : Char} {n : Nat} (h : n < s.length) :
    (s ++ [c]).take n = s.take n ∧ (s ++ [c])[n]? = s[n]? :=
  ⟨List.take_append_of_le_length (Nat.le_of_lt h), List.getElem?_append_left h⟩

/-- The offset of the last complete object, when the scan has recorded one, is
the offset of a `}` that the scan read outside any string literal, at brace
depth 1. -/
theorem scanLoop_lastCompleteObj_spec (s : Str) :
    (scanLoop 0 ScanState.init s).lastCompleteObj = -1 ∨
    ∃ n : Nat, (scanLoop 0 ScanState.init s).lastCompleteObj = (n : Int) ∧
      s[n]? = some '}' ∧
      (scanLoop 0 ScanState.init (s.take n)).inString = false ∧
      (scanLoop 0 ScanState.init (s.take n)).escapeNext = false ∧
      (scanLoop 0 ScanState.init (s.take n)).braceDepth = 1 := by
  induction s using List.reverseRecOn with
  | nil => exact Or.inl rfl
  | append_singleton s c ih =>
    rw [scanLoop_snoc, scanStep_lastCompleteObj, Nat.zero_add]
    by_cases hc : (scanLoop 0 ScanState.init s).escapeNext = false ∧
        (scanLoop 0 ScanState.init s).inString = false ∧ c = '}' ∧
        (scanLoop 0 ScanState.init s).braceDepth = 1
    · rw [if_pos hc]
      refine Or.inr ⟨s.length, rfl, ?_, ?_⟩
      · rw [List.getElem?_concat_length, hc.2.2.1]
      · rw [List.take_left]
        exact ⟨hc.2.1, hc.1, hc.2.2.2⟩
    · rw [if_neg hc]
      rcases ih with h | ⟨n, hn, hget, hrest⟩
      · exact Or.inl h
      · have hlt : n < s.length := by
          by_contra hge
          rw [List.getElem?_eq_none (Nat.le_of_not_lt hge)] at hget
          cases hget
        obtain ⟨e1, e2⟩ := take_snoc_of_lt (c := c) hlt
        exact Or.inr ⟨n, hn, by rw [e2]; exact hget, by rw [e1]; exact hrest⟩

/-- The offset of the last property comma, when the scan has recorded one, is
the offset of a `,` that the scan read outside any string literal, at brace
depth 1 and bracket depth 1. -/
theorem scanLoop_lastPropertyComma_spec (s : Str) :
    (scanLoop 0 ScanState.init s).lastPropertyComma = -1 ∨
    ∃ n : Nat, (scanLoop 0 ScanState.init s).lastPropertyComma = (n : Int) ∧
      s[n]? = some ',' ∧
      (scanLoop 0 ScanState.init (s.take n)).inString = false ∧
      (scanLoop 0 ScanState.init (s.take n)).escapeNext = false ∧
      (scanLoop 0 ScanState.init (s.take n)).braceDepth = 1 ∧
      (scanLoop 0 ScanState.init (s.take n)).bracketDepth = 1 := by
  induction s using List.reverseRecOn with
  | nil => exact Or.inl rfl
  | append_singleton s c ih =>
    rw [scanLoop_snoc, scanStep_lastPropertyComma, Nat.zero_add]
    by_cases hc : (scanLoop 0 ScanState.init s).escapeNext = false ∧
        (scanLoop 0 ScanState.init s).inString = false ∧ c = ',' ∧
        (scanLoop 0 ScanState.init s).braceDepth = 1 ∧
        (scanLoop 0 ScanState.init s).bracketDepth = 1
    · rw [if_pos hc]
      refine Or.inr ⟨s.length, rfl, ?_, ?_⟩
      · rw [List.getElem?_concat_length, hc.2.2.1]
      · rw [List.take_left]
        exact ⟨hc.2.1, hc.1, hc.2.2.2.1, hc.2.2.2.2⟩
    · rw [if_neg hc]
      rcases ih with h | ⟨n, hn, hget, hrest⟩
      · exact Or.inl h
      · have hlt : n < s.length := by
          by_contra hge
          rw [List.getElem?_eq_none (Nat.le_of_not_lt hge)] at hget
          cases hget
        obtain ⟨e1, e2⟩ := take_snoc_of_lt (c := c) hlt
        exact Or.inr ⟨n, hn, by rw [e2]; exact hget, by rw [e1]; exact hrest⟩

theorem scanStep_escaped (i : Nat) (σ : ScanState) (c : Char) (he : σ.escapeNext = true) :
    scanStep i σ c = { σ with escapeNext := false } := by
  unfold scanStep
  rw [if_pos he]

/-- String content leaves the scan where it was: inside a string literal, a
run of characters without quote and backslash changes nothing. -/
theorem scanLoop_string_content (i : Nat) (σ : ScanState) (u : Str)
    (hs : σ.inString = true) (he : σ.escapeNext = false)
    (hu : ∀ x ∈ u, x ≠ '"' ∧ x ≠ '\\') : scanLoop i σ u = σ := by
  induction u generalizing i with
  | nil => rfl
  | cons x u ih =>
    have hx := hu x (List.mem_cons_self _ _)
    have hstep : scanStep i σ x = σ := by
      unfold scanStep
      rw [if_neg (by simp [he]), if_neg (fun h => hx.2 h.1), if_neg hx.1, if_pos hs]
    rw [scanLoop, hstep]
    exact ih (i + 1) fun y hy => hu y (List.mem_cons_of_mem _ hy)

theorem scanLoop_escaped_pair (i : Nat) (σ : ScanState) (c : Char)
    (hs : σ.inString = true) (he : σ.escapeNext = false) :
    scanLoop i σ ['\\', c] = σ := by
  have h1 : scanStep i σ '\\' = { σ with escapeNext := true } := by
    unfold scanStep
    rw [if_neg (by simp [he]), if_pos ⟨rfl, hs⟩]
  rw [scanLoop, h1, scanLoop, scanStep_escaped _ _ _ rfl]
  cases σ
  simp only at he
  subst he
  rfl

/-- C28: inside a string literal every character - brace, bracket, comma,
quote, backslash or any other - leaves the brace depth, the bracket depth and
the two recorded offsets as they are; a backslash and the character after it,
a quote included, leave the whole state as it is, so the string goes on; and
so does any run of characters without quote and backslash.  Consequently an
offset that the scan of a text has recorded is the offset of a `}`, or of a
`,`, that is preceded by a text after which the scan is outside any string
literal. -/
theorem scan_string_literal_inert (i : Nat) (σ : ScanState) (c : Char) (u s : Str)
    (hs : σ.inString = true) (hu : ∀ x ∈ u, x ≠ '"' ∧ x ≠ '\\') :
    ((scanStep i σ c).braceDepth = σ.braceDepth ∧
      (scanStep i σ c).bracketDepth = σ.bracketDepth ∧
      (scanStep i σ c).lastCompleteObj = σ.lastCompleteObj ∧
      (scanStep i σ c).lastPropertyComma = σ.lastPropertyComma) ∧
    (σ.escapeNext = false → scanLoop i σ ['\\', '"'] = σ) ∧
    (σ.escapeNext = false → scanLoop i σ u = σ) ∧
    ((scanLoop 0 ScanState.init s).lastCompleteObj = -1 ∨
      ∃ n : Nat, (scanLoop 0 ScanState.init s).lastCompleteObj = (n : Int) ∧
        s[n]? = some '}' ∧
        (scanLoop 0 ScanState.init (s.take n)).inString = false ∧
        (scanLoop 0 ScanState.init (s.take n)).escapeNext = false) ∧
    ((scanLoop 0 ScanState.init s).lastPropertyComma = -1 ∨
      ∃ n : Nat, (scanLoop 0 ScanState.init s).lastPropertyComma = (n : Int) ∧
        s[n]? = some ',' ∧
        (scanLoop 0 ScanState.init (s.take n)).inString = false ∧
        (scanLoop 0 ScanState.init (s.take n)).escapeNext = false) := by
  have h := scanStep_inString i σ c hs
  refine ⟨⟨h.1, h.2.1, h.2.2.1, h.2.2.2.1⟩, fun he => scanLoop_escaped_pair i σ '"' hs he,
    fun he => scanLoop_string_content i σ u hs he hu, ?_, ?_⟩
  · rcases scanLoop_lastCompleteObj_spec s with h1 | ⟨n, h1, h2, h3, h4, _⟩
    · exact Or.inl h1
    · exact Or.inr ⟨n, h1, h2, h3, h4⟩
  · rcases scanLoop_lastPropertyComma_spec s with h1 | ⟨n, h1, h2, h3, h4, _⟩
    · exact Or.inl h1
    · exact Or.inr ⟨n, h1, h2, h3, h4⟩

/-! ## `repairTruncatedJSON` applied twice -/

theorem scanStep_core (i j : Nat) (σ σ1 : ScanState) (c : Char)
    (hb : σ1.braceDepth = σ.braceDepth) (hs : σ1.inString = σ.inString)
    (he : σ1.escapeNext = σ.escapeNext) :
    (scanStep j σ1 c).braceDepth = (scanStep i σ c).braceDepth ∧
    (scanStep j σ1 c).inString = (scanStep i σ c).inString ∧
    (scanStep j σ1 c).escapeNext = (scanStep i σ c).escapeNext := by
  cases hesc : σ.escapeNext with
  | true =>
    rw [scanStep_escaped i σ c hesc, scanStep_escaped j σ1 c (he.trans hesc)]
    exact ⟨hb, hs, rfl⟩
  | false =>
    have hesc1 : σ1.escapeNext = false := he.trans hesc
    cases hstr : σ.inString with
    | true =>
      have hstr1 : σ1.inString = true := hs.trans hstr
      have h := scanStep_inString i σ c hstr
      have h1 := scanStep_inString j σ1 c hstr1
      refine ⟨by rw [h.1, h1.1, hb], ?_⟩
      by_cases hc1 : c = '\\'
      · have a := h.2.2.2.2.2.1 hesc hc1
        have a1 := h1.2.2.2.2.2.1 hesc1 hc1
        exact ⟨by rw [a.1, a1.1], by rw [a.2, a1.2]⟩
      · by_cases hc2 : c = '"'
        · have a := h.2.2.2.2.2.2.1 hesc hc1 hc2
          have a1 := h1.2.2.2.2.2.2.1 hesc1 hc1 hc2
          exact ⟨by rw [a.1, a1.1], by rw [a.2, a1.2]⟩
        · have a := h.2.2.2.2.2.2.2 hesc hc1 hc2
          have a1 := h1.2.2.2.2.2.2.2 hesc1 hc1 hc2
          exact ⟨by rw [a.1, a1.1], by rw [a.2, a1.2]⟩
    | false =>
      have hstr1 : σ1.inString = false := hs.trans hstr
      have h := scanStep_clean i σ c hstr hesc
      have h1 := scanStep_clean j σ1 c hstr1 hesc1
      exact ⟨by rw [h.2.2.1, h1.2.2.1, hb], by rw [h.2.1, h1.2.1], by rw [h.1, h1.1]⟩

theorem scanLoop_core (s : Str) : ∀ (i j : Nat) (σ σ1 : ScanState),
    σ1.braceDepth = σ.braceDepth → σ1.inString = σ.inString → σ1.escapeNext = σ.escapeNext →
    (scanLoop j σ1 s).braceDepth = (scanLoop i σ s).braceDepth ∧
    (scanLoop j σ1 s).inString = (scanLoop i σ s).inString ∧
    (scanLoop j σ1 s).escapeNext = (scanLoop i σ s).escapeNext := by
  induction s with
  | nil => intro i j σ σ1 hb hs he; exact ⟨hb, hs, he⟩
  | cons c s ih =>
    intro i j σ σ1 hb hs he
    obtain ⟨a, b, d⟩ := scanStep_core i j σ σ1 c hb hs he
    exact ih (i + 1) (j + 1) _ _ a b d

theorem trim_trim (s : Str) : trim (trim s) = trim s := by
  unfold trim
  cases hd : s.dropWhile isJsSpace with
  | nil => rfl
  | cons a d =>
    have ha : isJsSpace a = false := by
      have := List.head_dropWhile_not isJsSpace s (by rw [hd]; exact List.cons_ne_nil _ _)
      simpa [hd] using this
    have hpre : ∃ t, (a :: d).rdropWhile isJsSpace = a :: t := by
      have hp := List.rdropWhile_prefix isJsSpace (a :: d)
      cases hr : (a :: d).rdropWhile isJsSpace with
      | nil =>
        exfalso
        have h1 := mem_rdropWhile_of_false isJsSpace (List.mem_cons_self a d) ha
        rw [hr] at h1
        cases h1
      | cons x t =>
        rw [hr] at hp
        obtain ⟨rest, hrest⟩ := hp
        have : x = a := List.head_eq_of_cons_eq hrest
        exact ⟨t, by rw [this]⟩
    obtain ⟨t, ht⟩ := hpre
    rw [ht, List.dropWhile_cons_of_neg (by simp [ha]), ← ht, List.rdropWhile_idempotent]

/-- A text that starts with `[`, after which the scan stands outside any string
literal at brace depth 1, and that is closed with `}]`, is a fixed point of
`repairTruncatedJSON`. -/
theorem repairTruncatedJSON_closed (V : Str)
    (hs : (scanLoop 0 ScanState.init ('[' :: V)).inString = false)
    (he : (scanLoop 0 ScanState.init ('[' :: V)).escapeNext = false)
    (hb : (scanLoop 0 ScanState.init ('[' :: V)).braceDepth = 1) :
    repairTruncatedJSON (('[' :: V) ++ ['}', ']']) = ('[' :: V) ++ ['}', ']'] := by
  have hshape : ('[' :: V) ++ ['}', ']'] = '[' :: (V ++ ['}']) ++ [']'] := by simp
  have hshape2 : ('[' :: V) ++ ['}', ']'] = (('[' :: V) ++ ['}']) ++ [']'] := by simp
  have htrim : trim (('[' :: V) ++ ['}', ']']) = ('[' :: V) ++ ['}', ']'] := by
    rw [hshape]
    exact trim_eq_self '[' (V ++ ['}']) ']' (by decide) (by decide)
  have hlco : (scanLoop 0 ScanState.init (('[' :: V) ++ ['}', ']'])).lastCompleteObj =
      ((('[' :: V).length : Nat) : Int) := by
    rw [hshape2, scanLoop_snoc, scanStep_lastCompleteObj, if_neg (by
      intro h; exact absurd h.2.2.1 (by decide)), scanLoop_snoc, scanStep_lastCompleteObj,
      if_pos ⟨he, hs, rfl, hb⟩, Nat.zero_add]
  unfold repairTruncatedJSON
  simp only [htrim, hlco]
  have hpos : ((('[' :: V).length : Nat) : Int) > 0 := by
    simp only [List.length_cons]; omega
  rw [if_pos hpos]
  have hcut : List.take (((('[' :: V).length : Nat) : Int) + 1).toNat
      (('[' :: V) ++ ['}', ']']) = ('[' :: V) ++ ['}'] := by
    have : (((('[' :: V).length : Nat) : Int) + 1).toNat = (('[' :: V) ++ ['}']).length := by
      rw [List.length_append]
      simp only [List.length_cons, List.length_nil]
      omega
    rw [this, hshape2, List.take_left]
  rw [hcut]
  have hends : endsWith (('[' :: V) ++ ['}']) [']'] = false := by
    simp [endsWith, List.isSuffixOf, List.isPrefixOf]
  rw [hends]
  simp only [Bool.false_eq_true, if_false]
  rw [stripTrailingComma_of_last _ '}' (by decide) (by decide)]
  have hstart : startsWith ((('[' :: V) ++ ['}']) ++ [']']) ['['] = true := by
    simp [startsWith, List.isPrefixOf]
  unfold ensureLeadingBracket
  rw [if_pos hstart, hshape2]

theorem repairTruncatedJSON_ensure_closed (W : Str)
    (hs : (scanLoop 0 ScanState.init W).inString = false)
    (he : (scanLoop 0 ScanState.init W).escapeNext = false)
    (hb : (scanLoop 0 ScanState.init W).braceDepth = 1) :
    repairTruncatedJSON (ensureLeadingBracket (W ++ ['}', ']'])) =
      ensureLeadingBracket (W ++ ['}', ']']) := by
  unfold ensureLeadingBracket
  by_cases hstart : startsWith (W ++ ['}', ']']) ['['] = true
  · rw [if_pos hstart]
    cases W with
    | nil => simp [startsWith, List.isPrefixOf] at hstart
    | cons c V =>
      have hc : c = '[' := by
        simp [startsWith, List.isPrefixOf] at hstart
        exact hstart.symm
      subst hc
      exact repairTruncatedJSON_closed V hs he hb
  · rw [if_neg hstart]
    have hcore := scanLoop_core W 0 1 ScanState.init (scanStep 0 ScanState.init '[') rfl rfl rfl
    have hrun : scanLoop 0 ScanState.init ('[' :: W) =
        scanLoop 1 (scanStep 0 ScanState.init '[') W := rfl
    have := repairTruncatedJSON_closed W (by rw [hrun, hcore.2.1]; exact hs)
      (by rw [hrun, hcore.2.2]; exact he) (by rw [hrun, hcore.1]; exact hb)
    simpa using this

/-- C29: `repairTruncatedJSON` is idempotent, whichever of its three returns
the first application takes. -/
theorem repairTruncatedJSON_idempotent (s : Str) :
    repairTruncatedJSON (repairTruncatedJSON s) = repairTruncatedJSON s := by
  by_cases hA : (scanLoop 0 ScanState.init (trim s)).lastCompleteObj > 0
  · rcases scanLoop_lastCompleteObj_spec (trim s) with h | ⟨n, hn, hget, h1, h2, h3⟩
    · rw [h] at hA
      exact absurd hA (by decide)
    · have hinner : repairTruncatedJSON s =
          ensureLeadingBracket ((trim s).take n ++ ['}', ']']) := by
        unfold repairTruncatedJSON
        simp only
        rw [if_pos hA, hn]
        have e : ((n : Int) + 1).toNat = n + 1 := by omega
        rw [e, List.take_succ, hget]
        have hends : endsWith ((trim s).take n ++ (some '}').toList) [']'] = false := by
          simp [endsWith, List.isSuffixOf, List.isPrefixOf]
        rw [hends]
        simp only [Bool.false_eq_true, if_false]
        have : ((some '}' : Option Char)).toList = ['}'] := rfl
        rw [this, stripTrailingComma_of_last _ '}' (by decide) (by decide), List.append_assoc]
        rfl
      rw [hinner]
      exact repairTruncatedJSON_ensure_closed _ h1 h2 h3
  · by_cases hB : (scanLoop 0 ScanState.init (trim s)).lastPropertyComma > 0
    · rcases scanLoop_lastPropertyComma_spec (trim s) with h | ⟨n, hn, hget, h1, h2, h3, _⟩
      · rw [h] at hB
        exact absurd hB (by decide)
      · have hinner : repairTruncatedJSON s =
            ensureLeadingBracket ((trim s).take n ++ ['}', ']']) := by
          unfold repairTruncatedJSON
          simp only
          rw [if_neg hA, if_pos hB, hn, Int.toNat_ofNat]
        rw [hinner]
        exact repairTruncatedJSON_ensure_closed _ h1 h2 h3
    · have hinner : repairTruncatedJSON s = trim s := by
        unfold repairTruncatedJSON
        simp only
        rw [if_neg hA, if_neg hB]
      rw [hinner]
      unfold repairTruncatedJSON
      simp only [trim_trim]
      rw [if_neg hA, if_neg hB]

theorem scan_string_literal_inert_witness :
    ((scanStep 7 insideStringState '}').braceDepth = insideStringState.braceDepth ∧
      (scanStep 7 insideStringState '}').bracketDepth = insideStringState.bracketDepth ∧
      (scanStep 7 insideStringState '}').lastCompleteObj = insideStringState.lastCompleteObj ∧
      (scanStep 7 insideStringState '}').lastPropertyComma =
        insideStringState.lastPropertyComma) ∧
    (insideStringState.escapeNext = false →
      scanLoop 7 insideStringState ['\\', '"'] = insideStringState) ∧
    (insideStringState.escapeNext = false →
      scanLoop 7 insideStringState ['}', ',', ']', '{', 'x'] = insideStringState) ∧
    ((scanLoop 0 ScanState.init truncatedSample).lastCompleteObj = -1 ∨
      ∃ n : Nat, (scanLoop 0 ScanState.init truncatedSample).lastCompleteObj = (n : Int) ∧
        truncatedSample[n]? = some '}' ∧
        (scanLoop 0 ScanState.init (truncatedSample.take n)).inString = false ∧
        (scanLoop 0 ScanState.init (truncatedSample.take n)).escapeNext = false) ∧
    ((scanLoop 0 ScanState.init truncatedSample).lastPropertyComma = -1 ∨
      ∃ n : Nat, (scanLoop 0 ScanState.init truncatedSample).lastPropertyComma = (n : Int) ∧
        truncatedSample[n]? = some ',' ∧
        (scanLoop 0 ScanState.init (truncatedSample.take n)).inString = false ∧
        (scanLoop 0 ScanState.init (truncatedSample.take n)).escapeNext = false) :=
  scan_string_literal_inert 7 insideStringState '}' ['}', ',', ']', '{', 'x'] truncatedSample
    rfl (by decide)

/-! ## How `splitContent` ends -/

theorem pstep_rbracket {ps ps1 : PState} (h : pstep ps .rbracket = some ps1) :
    ∃ items, ps1.mode = .done (.arr items) := by
  obtain ⟨m, stk⟩ := ps
  unfold pstep at h
  cases m with
  | value => simp [startValue] at h
  | arrOpen =>
    cases stk with
    | nil => simp [startValue] at h
    | cons f rest =>
      cases f with
      | arr items =>
        simp only [Option.some.injEq] at h
        exact ⟨[], by rw [← h]⟩
      | obj ms k => simp [startValue] at h
  | objOpen => simp [readKey] at h
  | objNext => simp [readKey] at h
  | colon => simp at h
  | done v =>
    cases stk with
    | nil => simp [afterValue] at h
    | cons f rest =>
      cases f with
      | arr items =>
        simp only [afterValue, Option.some.injEq] at h
        exact ⟨items ++ [v], by rw [← h]⟩
      | obj ms k => simp [afterValue] at h

theorem lexFinish_inString {ls : LexState} (h : ls.inString = true) : lexFinish ls = none := by
  cases ls <;> first | rfl | cases h

theorem lexIdle_rbracket : lexIdle ']' = some (.idle, [.rbracket]) := by rfl

theorem lexStep_rbracket {ls ls1 : LexState} {toks : List Token} (hok : ls.ok = true)
    (h : lexStep ls ']' = some (ls1, toks)) :
    (ls1 = .idle ∧ ∃ pre, toks = pre ++ [.rbracket]) ∨ ls1.inString = true := by
  cases ls with
  | idle =>
    simp only [lexStep, lexIdle_rbracket, Option.some.injEq, Prod.mk.injEq] at h
    exact Or.inl ⟨h.1.symm, [], by rw [← h.2]; rfl⟩
  | str acc =>
    have e1 : ¬ (']' : Char) = '"' := by decide
    have e2 : ¬ (']' : Char) = '\\' := by decide
    have e3 : ¬ (']' : Char).toNat < 0x20 := by decide
    simp only [lexStep, if_neg e1, if_neg e2, if_neg e3, Option.some.injEq, Prod.mk.injEq] at h
    exact Or.inr (by rw [← h.1]; rfl)
  | esc acc =>
    have e1 : ¬ (isSimpleEscape ']' = true) := by decide
    have e2 : ¬ (']' : Char) = 'u' := by decide
    simp only [lexStep, if_neg e1, if_neg e2] at h
    cases h
  | uni k acc =>
    have e1 : ¬ (isHexDigit ']' = true) := by decide
    simp only [lexStep, if_neg e1] at h
    cases h
  | lit rest tok =>
    cases rest with
    | nil => simp [lexStep] at h
    | cons x more =>
      have hx : isLowerLetter x = true := by
        simp only [LexState.ok, List.all_cons, Bool.and_eq_true] at hok
        exact hok.1.1
      have hne : ¬ (']' : Char) = x := by
        intro e
        rw [← e] at hx
        revert hx; decide
      simp only [lexStep, if_neg hne] at h
      cases h
  | number ns acc =>
    have e0 : ¬ (']' : Char) = '0' := by decide
    have e1 : ¬ (isDigit ']' = true) := by decide
    have e2 : ¬ (']' : Char) = '.' := by decide
    have e3 : ¬ ((']' : Char) = 'e' ∨ (']' : Char) = 'E') := by decide
    have e4 : ¬ ((']' : Char) = '+' ∨ (']' : Char) = '-') := by decide
    have hend : lexNumberEnd acc ']' = some (.idle, [.num acc, .rbracket]) := by
      simp only [lexNumberEnd, lexIdle_rbracket]
    cases ns <;>
      simp only [lexStep, lexNumber, if_neg e0, if_neg e1, if_neg e2, if_neg e3, if_neg e4,
        hend, Option.some.injEq, Prod.mk.injEq] at h <;>
      first
        | exact Or.inl ⟨h.1.symm, [.num acc], by rw [← h.2]; rfl⟩
        | cases h

theorem feed_snoc_inv {ps ps2 : PState} {pre : List Token} {t : Token}
    (h : feed ps (pre ++ [t]) = some ps2) :
    ∃ ps1, feed ps pre = some ps1 ∧ pstep ps1 t = some ps2 := by
  induction pre generalizing ps with
  | nil =>
    simp only [List.nil_append, feed] at h
    cases hp : pstep ps t with
    | none => rw [hp] at h; cases h
    | some ps1 =>
      rw [hp] at h
      simp only [Option.some.injEq] at h
      exact ⟨ps, rfl, by rw [hp, h]⟩
  | cons x pre ih =>
    simp only [List.cons_append, feed] at h ⊢
    cases hp : pstep ps x with
    | none => rw [hp] at h; cases h
    | some ps1 =>
      rw [hp] at h
      exact ih h

/-- A text that ends with `]` and that `JSON.parse` accepts denotes an array. -/
theorem parseJSON_rbracket {x : Str} {v : JSONValue} (h : parseJSON (x ++ [']']) = some v) :
    ∃ items, v = .arr items := by
  unfold parseJSON at h
  cases hr : jrun JState.init (x ++ [']']) with
  | none => rw [hr] at h; cases h
  | some st2 =>
    rw [hr] at h
    simp only at h
    obtain ⟨st1, h1, h2⟩ := jrun_append_inv hr
    obtain ⟨st3, h3, h4⟩ := jrun_cons_inv h2
    have e : st3 = st2 := by
      simp only [jrun, Option.some.injEq] at h4
      exact h4
    subst e
    obtain ⟨toks, hl, hf⟩ := jstep_inv h3
    have hok : st1.lex.ok = true := (jrun_sim 0 h1 sim_init).lexOk
    unfold jfinish at h
    obtain ⟨lex3, m, stk⟩ := st3
    simp only at hl hf h
    rcases lexStep_rbracket hok hl with ⟨hidle, pre, hpre⟩ | hin
    · rw [hpre] at hf
      obtain ⟨ps1, _, hp⟩ := feed_snoc_inv hf
      obtain ⟨items, hm⟩ := pstep_rbracket hp
      rw [hidle] at h
      simp only [lexFinish, feed] at h
      simp only at hm
      subst hm
      cases stk with
      | nil =>
        simp only [Option.some.injEq] at h
        exact ⟨items, h.symm⟩
      | cons f K => simp at h
    · rw [lexFinish_inString hin] at h
      cases h

theorem repairTruncatedJSON_cases (j : Str) :
    repairTruncatedJSON j = trim j ∨ ∃ x, repairTruncatedJSON j = x ++ [']'] := by
  unfold repairTruncatedJSON
  simp only
  split
  · right
    split
    · rename_i hends
      obtain ⟨p, hp⟩ := List.isSuffixOf_iff_suffix.1 hends
      obtain ⟨L, hL, _⟩ := ensureLeadingBracket_eq
        (List.take ((scanLoop 0 ScanState.init (trim j)).lastCompleteObj + 1).toNat (trim j))
      exact ⟨L ++ p, by rw [hL, ← hp, List.append_assoc]⟩
    · obtain ⟨L, hL, _⟩ := ensureLeadingBracket_eq
        (stripTrailingComma
          (List.take ((scanLoop 0 ScanState.init (trim j)).lastCompleteObj + 1).toNat (trim j)) ++
            [']'])
      exact ⟨L ++ stripTrailingComma
        (List.take ((scanLoop 0 ScanState.init (trim j)).lastCompleteObj + 1).toNat (trim j)),
        by rw [hL, List.append_assoc]⟩
  · split
    · right
      obtain ⟨L, hL, _⟩ := ensureLeadingBracket_eq
        (List.take (scanLoop 0 ScanState.init (trim j)).lastPropertyComma.toNat (trim j) ++
          ['}', ']'])
      exact ⟨L ++ (List.take (scanLoop 0 ScanState.init (trim j)).lastPropertyComma.toNat
        (trim j) ++ ['}']), by rw [hL]; simp⟩
    · exact Or.inl rfl

theorem indexOfFrom_of_not_mem (c : Char) (i : Nat) (s : Str) (h : c ∉ s) :
    indexOfFrom c i s = -1 := by
  induction s generalizing i with
  | nil => rfl
  | cons x s ih =>
    have hx : x ≠ c := fun e => h (e ▸ List.mem_cons_self _ _)
    rw [indexOfFrom, if_neg hx]
    exact ih _ fun hm => h (List.mem_cons_of_mem _ hm)

theorem indexOfFrom_split (c : Char) (i : Nat) (a b : Str) (h : c ∉ a) :
    indexOfFrom c i (a ++ c :: b) = ((i + a.length : Nat) : Int) := by
  induction a generalizing i with
  | nil => simp [indexOfFrom]
  | cons x a ih =>
    have hx : x ≠ c := fun e => h (e ▸ List.mem_cons_self _ _)
    rw [List.cons_append, indexOfFrom, if_neg hx, ih _ fun hm => h (List.mem_cons_of_mem _ hm)]
    simp only [List.length_cons]
    congr 1
    omega

theorem exists_first_split {c : Char} {s : Str} (h : c ∈ s) :
    ∃ a b, s = a ++ c :: b ∧ c ∉ a := by
  induction s with
  | nil => cases h
  | cons x s ih =>
    by_cases hx : x = c
    · exact ⟨[], s, by rw [hx]; rfl, by simp⟩
    · rcases List.mem_cons.1 h with e | e
      · exact absurd e.symm hx
      · obtain ⟨a, b, e1, e2⟩ := ih e
        refine ⟨x :: a, b, by rw [e1]; rfl, ?_⟩
        intro hm
        rcases List.mem_cons.1 hm with e3 | e3
        · exact hx e3.symm
        · exact e2 e3

theorem trim_suffix_of_trimmed (x b : Str) (c : Char) (hc : isJsSpace c = false)
    (hJ : (x ++ c :: b).rdropWhile isJsSpace = x ++ c :: b) : trim (c :: b) = c :: b := by
  unfold trim
  rw [List.dropWhile_cons_of_neg (by simp [hc])]
  have h := rdropWhile_append_of_exists isJsSpace x (c :: b) ⟨c, List.mem_cons_self _ _, hc⟩
  rw [h] at hJ
  exact List.append_cancel_left hJ

theorem rdropWhile_trim (y : Str) : (trim y).rdropWhile isJsSpace = trim y := by
  unfold trim
  exact List.rdropWhile_idempotent _ _

/-- The text `splitContent` hands to the parser has no white space at its
ends. -/
theorem sliceResponse_trimmed (result : Str) :
    trim (sliceResponse result) = sliceResponse result := by
  have key : ∀ y : Str,
      trim (if indexOf (trim y) '[' ≠ -1 ∧ lastIndexOf (trim y) ']' ≠ -1 ∧
            lastIndexOf (trim y) ']' > indexOf (trim y) '[' then
          substring (trim y) (indexOf (trim y) '[').toNat (lastIndexOf (trim y) ']' + 1).toNat
        else if indexOf (trim y) '[' ≠ -1 then (trim y).drop (indexOf (trim y) '[').toNat
        else trim y) =
      (if indexOf (trim y) '[' ≠ -1 ∧ lastIndexOf (trim y) ']' ≠ -1 ∧
            lastIndexOf (trim y) ']' > indexOf (trim y) '[' then
          substring (trim y) (indexOf (trim y) '[').toNat (lastIndexOf (trim y) ']' + 1).toNat
        else if indexOf (trim y) '[' ≠ -1 then (trim y).drop (indexOf (trim y) '[').toNat
        else trim y) := by
    intro y
    have hJ := rdropWhile_trim y
    by_cases hmem : '[' ∈ trim y
    swap
    · have hstart : indexOf (trim y) '[' = -1 := indexOfFrom_of_not_mem _ _ _ hmem
      rw [hstart]
      have h1 : ¬ ((-1 : Int) ≠ -1 ∧ lastIndexOf (trim y) ']' ≠ -1 ∧
          lastIndexOf (trim y) ']' > -1) := by
        intro h; exact h.1 rfl
      rw [if_neg h1, if_neg (by decide)]
      exact trim_trim y
    generalize trim y = J at hJ hmem
    · obtain ⟨a, b, e, ha⟩ := exists_first_split hmem
      have hstart : indexOf J '[' = ((a.length : Nat) : Int) := by
        unfold indexOf
        rw [e, indexOfFrom_split _ _ _ _ ha, Nat.zero_add]
      rw [hstart]
      have hne : ((a.length : Nat) : Int) ≠ -1 := by omega
      by_cases hcond : ((a.length : Nat) : Int) ≠ -1 ∧ lastIndexOf J ']' ≠ -1 ∧
          lastIndexOf J ']' > ((a.length : Nat) : Int)
      · rw [if_pos hcond]
        have hmem2 : ']' ∈ J := by
          by_contra hn
          have : lastIndexOf J ']' = -1 := lastIndexOfFrom_of_not_mem _ _ _ _ hn
          exact hcond.2.1 this
        obtain ⟨a2, b2, e2, hb2⟩ := exists_last_split hmem2
        have hend : lastIndexOf J ']' = ((a2.length : Nat) : Int) := by
          unfold lastIndexOf
          rw [e2, lastIndexOfFrom_split _ _ _ _ _ hb2, Nat.zero_add]
        rw [hend] at hcond ⊢
        have hlt : a.length < a2.length := by omega
        have ha2 : ∃ m, a2 = a ++ '[' :: m := by
          have h1 : a2 = J.take a2.length := by rw [e2, List.take_left]
          have h2 : J.take a2.length = a ++ ('[' :: b).take (a2.length - a.length) := by
            rw [e, List.take_append_eq_append_take, List.take_of_length_le (by omega)]
          obtain ⟨k, hk⟩ : ∃ k, a2.length - a.length = k + 1 :=
            ⟨a2.length - a.length - 1, by omega⟩
          rw [hk, List.take_succ_cons] at h2
          exact ⟨b.take k, h1.trans h2⟩
        obtain ⟨m, hm⟩ := ha2
        have hsub : substring J (Int.toNat ((a.length : Nat) : Int))
            (Int.toNat (((a2.length : Nat) : Int) + 1)) = '[' :: m ++ [']'] := by
          unfold substring
          have t1 : Int.toNat (((a2.length : Nat) : Int) + 1) = (a2 ++ [']']).length := by
            rw [List.length_append]
            simp only [List.length_cons, List.length_nil]
            omega
          have t2 : J = (a2 ++ [']']) ++ b2 := by rw [e2]; simp
          rw [t1, Int.toNat_ofNat, t2, List.take_left, hm, List.append_assoc, List.drop_left]
        rw [hsub]
        exact trim_eq_self '[' _ ']' (by decide) (by decide)
      · rw [if_neg hcond, if_pos hne, Int.toNat_ofNat, e, List.drop_left]
        rw [e] at hJ
        exact trim_suffix_of_trimmed a b '[' (by decide) hJ
  unfold sliceResponse
  cases hfm : fenceMatch ['j', 's', 'o', 'n'] (trim result) with
  | none =>
    simp only [hfm]
    exact key result
  | some cap =>
    simp only [hfm]
    exact key cap

theorem repaired_not_null (result : Str) (h : parseJSON (sliceResponse result) = none) :
    parseJSON (repairTruncatedJSON (sliceResponse result)) ≠ some .null := by
  rcases repairTruncatedJSON_cases (sliceResponse result) with e | ⟨x, e⟩
  · rw [e, sliceResponse_trimmed, h]
    exact fun hn => nomatch hn
  · rw [e]
    intro hn
    obtain ⟨items, hi⟩ := parseJSON_rbracket hn
    cases hi

/-- C27: the parsing part of `splitContent` ends with the parse error exactly
when `JSON.parse` rejects both the sliced response text and its repair; the
error then carries `jsonStr.substring(0, 500)`, the first 500 UTF-16 code units
of the sliced text - the whole text when its length is at most 500 - at the end
of its message; otherwise the value of the direct parse is returned, or, when
the direct parse fails, the value parsed from the repaired text. -/
theorem splitContentParse_outcome (result : Str) :
    ((∃ e, splitContentParse result = .parseError e) ↔
      (parseJSON (sliceResponse result) = none ∧
        parseJSON (repairTruncatedJSON (sliceResponse result)) = none)) ∧
    (∀ e, splitContentParse result = .parseError e →
      e = (toUtf16 (sliceResponse result)).take 500 ∧
      ((toUtf16 (sliceResponse result)).length ≤ 500 → e = toUtf16 (sliceResponse result)) ∧
      ∀ reason, e <:+ parseErrorMessage reason e) ∧
    (∀ v, parseJSON (sliceResponse result) = some v → splitContentParse result = .direct v) ∧
    (∀ v, parseJSON (sliceResponse result) = none →
      parseJSON (repairTruncatedJSON (sliceResponse result)) = some v →
      splitContentParse result = .repaired v) := by
  have hnull := repaired_not_null result
  have hsplit : splitContentParse result =
      match parseJSON (sliceResponse result) with
      | some v => .direct v
      | none =>
          match parseJSON (repairTruncatedJSON (sliceResponse result)) with
          | some .null => .parseError (substringUnits (sliceResponse result) 0 500)
          | some v => .repaired v
          | none => .parseError (substringUnits (sliceResponse result) 0 500) := rfl
  have hsub : substringUnits (sliceResponse result) 0 500 =
      (toUtf16 (sliceResponse result)).take 500 := rfl
  generalize sliceResponse result = j at hnull hsplit hsub
  have hexc : ∀ e, splitContentParse result = .parseError e →
      e = (toUtf16 j).take 500 ∧ parseJSON j = none ∧
        parseJSON (repairTruncatedJSON j) = none := by
    intro e he
    rw [hsplit] at he
    cases hd : parseJSON j with
    | some v => rw [hd] at he; cases he
    | none =>
      rw [hd] at he
      simp only at he
      cases hr : parseJSON (repairTruncatedJSON j) with
      | none =>
        rw [hr] at he
        simp only [SplitOutcome.parseError.injEq] at he
        exact ⟨by rw [← he, hsub], rfl, rfl⟩
      | some v =>
        rw [hr] at he
        cases v with
        | null => exact absurd hr (hnull hd)
        | bool b => cases he
        | num l => cases he
        | str b => cases he
        | arr items => cases he
        | obj ms => cases he
  refine ⟨⟨fun ⟨e, he⟩ => (hexc e he).2, fun ⟨h1, h2⟩ => ?_⟩, fun e he => ?_, fun v hv => ?_,
    fun v h1 h2 => ?_⟩
  · exact ⟨substringUnits j 0 500, by rw [hsplit, h1]; simp only [h2]⟩
  · obtain ⟨h1, _, _⟩ := hexc e he
    refine ⟨h1, fun hlen => ?_, fun reason => ?_⟩
    · rw [h1, List.take_of_length_le hlen]
    · exact ⟨_, rfl⟩
  · rw [hsplit, hv]
  · rw [hsplit, h1]
    simp only [h2]
    cases v with
    | null => exact absurd h2 (hnull h1)
    | _ => rfl

set_option maxRecDepth 100000 in
/-- The excerpt is counted in UTF-16 code units: of a text that starts with `[x`
and goes on with 300 characters of two code units each, the error carries 500
code units, those of `[x` and of the first 249 of these characters. -/
theorem splitContentParse_excerpt_in_code_units :
    splitContentParse ('[' :: 'x' :: List.replicate 300 grinningFace) =
      .parseError (toUtf16 ('[' :: 'x' :: List.replicate 249 grinningFace)) ∧
    (toUtf16 ('[' :: 'x' :: List.replicate 249 grinningFace)).length = 500 := by
  constructor <;> rfl

end AIPPT
